import Mathlib

/-!
# Verification of the Core IL Rust runtime (`coreil_runtime.rs`)

This file gives a shallow embedding, in Lean 4, of the parts of the Core IL
runtime that the specification's claims are about, and proves or refutes the
claims against that embedding.

Conventions used throughout:

* Rust `i64` values are embedded as `ℤ`; where wrap-around or saturation
  matters the bounds `-2^63` and `2^63 - 1` appear explicitly.
* Rust `f64` values are embedded by the type `F64` below: a tagged union of
  NaN, the two infinities, and finite values represented as exact dyadic
  rationals `m * 2^e` (every finite IEEE-754 double is such a number).
  IEEE-754 operations are modelled by their standard semantics: compute the
  exact rational result, then round to nearest, ties to even
  (the function `rndF64`).  All arithmetic is done on integer numerator /
  denominator pairs so that every definition evaluates inside the kernel.
* Functions that can `panic!` in Rust are embedded as `Option`-valued
  functions, `none` modelling the panic.
* Rust `String`s are embedded as `List Char` (Unicode scalar values); where
  the source uses the *byte* length of a string (`s.len()`), the embedding
  uses the UTF-8 byte count (`utf8Len`).
-/

/-! ## Bounded integer helpers (64-bit signed range) -/

/-- `2^63`, the magnitude bound of `i64`. -/
def i64Bound : ℤ := 9223372036854775808

/-- Saturate an integer into the `i64` range, as Rust's saturating `as i64`
cast does after truncation. -/
def i64Sat (n : ℤ) : ℤ :=
  if n < -i64Bound then -i64Bound
  else if n > i64Bound - 1 then i64Bound - 1
  else n

/-! ## Base-2 logarithm, fuel-driven so that it reduces in the kernel -/

/-- `2^k` computed by bit-shifting (reduces cheaply in the kernel). -/
def pow2 (k : ℕ) : ℕ := Nat.shiftLeft 1 k

/-- Binary search for `⌊log₂ n⌋`: the largest `e < hi` with `2^e ≤ n`,
maintaining `2^lo ≤ n < 2^hi`.  The fuel argument only bounds the number of
halving steps, so it stays small and the definition reduces cheaply in the
kernel. -/
def log2go (n : ℕ) : ℕ → ℕ → ℕ → ℕ
  | lo, _, 0 => lo
  | lo, hi, fuel + 1 =>
    if hi - lo ≤ 1 then lo
    else
      let mid := (lo + hi) / 2
      if pow2 mid ≤ n then log2go n mid hi fuel else log2go n lo mid fuel

/-- `⌊log₂ n⌋` for positive `n` (`0` at `0`).  Correct for all `n < 2^65536`,
far beyond every quantity occurring in the runtime. -/
def natLog2 (n : ℕ) : ℕ := log2go n 0 65536 17

/-- `⌊log₂ (a / b)⌋` for positive integers `a`, `b`, computed exactly. -/
def ratFloorLog2 (a b : ℤ) : ℤ :=
  let al : ℤ := natLog2 a.toNat
  let bl : ℤ := natLog2 b.toNat
  let e0 : ℤ := al - bl
  -- `a / b` lies in `(2^(e0-1), 2^(e0+1))`; decide which half.
  if 0 ≤ e0 then
    if b * (pow2 e0.toNat : ℕ) ≤ a then e0 else e0 - 1
  else
    if b ≤ a * (pow2 (-e0).toNat : ℕ) then e0 else e0 - 1

/-- Round the rational `a / b` (with `b > 0`) to the nearest integer,
ties to even. -/
def roundHalfEven (a b : ℤ) : ℤ :=
  let n := a.ediv b
  let r := a.emod b
  if 2 * r < b then n
  else if 2 * r > b then n + 1
  else if n.emod 2 = 0 then n else n + 1

/-! ## The `f64` model -/

/-- An IEEE-754 double: NaN, infinities, or a finite dyadic rational
`m * 2^e`.  (The model does not distinguish `-0.0` from `0.0`; no claim
below depends on the sign of zero.) -/
inductive F64 where
  | finite (m : ℤ) (e : ℤ)
  | inf
  | neginf
  | nan
deriving Repr, DecidableEq

/-- The exact value of a dyadic pair, scaled: `dyadic m e * 2^s` is an
integer whenever `e + s ≥ 0`.  `dyadicNum m e q` is the numerator of
`m * 2^e` over the denominator `dyadicDen e`. -/
def dyadicNum (m : ℤ) (e : ℤ) : ℤ :=
  if 0 ≤ e then m * (pow2 e.toNat : ℕ) else m

/-- Denominator of `m * 2^e` as a fraction in lowest dyadic terms. -/
def dyadicDen (e : ℤ) : ℤ :=
  if 0 ≤ e then 1 else (pow2 (-e).toNat : ℕ)

/-- Compare two exact rationals `a₁/b₁` and `a₂/b₂` with positive
denominators. -/
def ratCompare (a₁ b₁ a₂ b₂ : ℤ) : Ordering :=
  compare (a₁ * b₂) (a₂ * b₁)

/-- Round the exact rational `a / b` (`b > 0`) to the nearest `f64`
(round to nearest, ties to even), overflowing to the infinities.
This is the standard semantics of every correctly-rounded IEEE-754
operation producing a finite exact result. -/
def rndF64 (a b : ℤ) : F64 :=
  if a = 0 then .finite 0 0
  else
    let s : ℤ := if 0 < a then 1 else -1
    let n : ℤ := if 0 < a then a else -a
    let e : ℤ := ratFloorLog2 n b
    let uexp : ℤ := max (e - 52) (-1074)
    let m : ℤ :=
      if 0 ≤ uexp then roundHalfEven n (b * (pow2 uexp.toNat : ℕ))
      else roundHalfEven (n * (pow2 (-uexp).toNat : ℕ)) b
    -- overflow check: `m * 2^uexp ≥ 2^1024` (uexp ≤ 1024 always here)
    if (pow2 (1024 - uexp).toNat : ℕ) ≤ m then (if s = 1 then .inf else .neginf)
    else .finite (s * m) uexp

/-- Rust's `i64 as f64` conversion (round to nearest, ties to even). -/
def f64OfInt (n : ℤ) : F64 := rndF64 n 1

/-- IEEE equality test (`==` on `f64`): NaN compares unequal to everything,
finite values compare by exact value. -/
def f64Eq : F64 → F64 → Bool
  | .finite m₁ e₁, .finite m₂ e₂ =>
      ratCompare (dyadicNum m₁ e₁) (dyadicDen e₁) (dyadicNum m₂ e₂) (dyadicDen e₂) = .eq
  | .inf, .inf => true
  | .neginf, .neginf => true
  | _, _ => false

/-- IEEE `partial_cmp` on `f64`: `none` iff either operand is NaN. -/
def f64PartialCmp : F64 → F64 → Option Ordering
  | .nan, _ => none
  | _, .nan => none
  | .finite m₁ e₁, .finite m₂ e₂ =>
      some (ratCompare (dyadicNum m₁ e₁) (dyadicDen e₁) (dyadicNum m₂ e₂) (dyadicDen e₂))
  | .inf, .inf => some .eq
  | .inf, _ => some .gt
  | _, .inf => some .lt
  | .neginf, .neginf => some .eq
  | .neginf, _ => some .lt
  | _, .neginf => some .gt

/-- Truncation toward zero of the dyadic `m * 2^e` (exact). -/
def dyadicTrunc (m : ℤ) (e : ℤ) : ℤ :=
  if 0 ≤ e then m * (pow2 e.toNat : ℕ) else m.tdiv (pow2 (-e).toNat : ℕ)

/-- Floor of the dyadic `m * 2^e` (exact). -/
def dyadicFloor (m : ℤ) (e : ℤ) : ℤ :=
  if 0 ≤ e then m * (pow2 e.toNat : ℕ) else m.fdiv (pow2 (-e).toNat : ℕ)

/-- `f64::floor` (exact on every finite double; the result of flooring a
finite double is always exactly representable). -/
def f64Floor : F64 → F64
  | .finite m e => .finite (dyadicFloor m e) 0
  | f => f

/-- Rust's `f64 as i64` cast: truncate toward zero, saturate at the `i64`
bounds, NaN becomes 0. -/
def f64ToI64 : F64 → ℤ
  | .finite m e => i64Sat (dyadicTrunc m e)
  | .inf => i64Bound - 1
  | .neginf => -i64Bound
  | .nan => 0

/-- IEEE division of two doubles (correctly rounded).  Division by zero of a
nonzero value gives an infinity whose sign is the sign of the dividend (the
model has no `-0.0`, so zero divisors are treated as `+0.0`); `0/0` is NaN. -/
def f64Div : F64 → F64 → F64
  | .nan, _ => .nan
  | _, .nan => .nan
  | .inf, .inf => .nan
  | .inf, .neginf => .nan
  | .neginf, .inf => .nan
  | .neginf, .neginf => .nan
  | .inf, .finite m _ => if 0 ≤ m then .inf else .neginf
  | .neginf, .finite m _ => if 0 ≤ m then .neginf else .inf
  | .finite _ _, .inf => .finite 0 0
  | .finite _ _, .neginf => .finite 0 0
  | .finite m₁ e₁, .finite m₂ e₂ =>
      if m₂ = 0 then
        if m₁ = 0 then .nan else if 0 < m₁ then .inf else .neginf
      else
        -- exact quotient: (m₁ 2^e₁) / (m₂ 2^e₂) = ±(n /  d), rounded
        let a := dyadicNum m₁ e₁ * dyadicDen e₂
        let b := dyadicDen e₁ * dyadicNum m₂ e₂
        if 0 < b then rndF64 a b else rndF64 (-a) (-b)

/-- Is this double NaN? -/
def f64IsNan : F64 → Bool
  | .nan => true
  | _ => false

/-! ## Decimal digits and numeric strings -/

/-- Decimal digits of `n`, least significant first; `fuel` bounds the digit
count. -/
def digitsGo : ℕ → ℕ → List ℕ
  | 0, _ => []
  | fuel + 1, n => if n = 0 then [] else n % 10 :: digitsGo fuel (n / 10)

/-- A fuel sufficient for all decimal digits of `n` that is also cheap to
evaluate in the kernel (the astronomically large fallback branch is never
reached by a meaningful computation but keeps the bound correct for all
`n`). -/
def digitFuel (n : ℕ) : ℕ :=
  if n < pow2 65536 then natLog2 n / 3 + 2 else n + 1

/-- The decimal digit character for `d ∈ [0,9]`. -/
def digitChar10 (d : ℕ) : Char := Char.ofNat (48 + d)

/-- Decimal representation of a natural number, as Rust's `{}` formatting
produces it. -/
def natChars (n : ℕ) : List Char :=
  if n = 0 then ['0']
  else ((digitsGo (digitFuel n) n).reverse).map digitChar10

/-- Decimal representation of an integer (Rust `{}` on `i64`). -/
def intChars (n : ℤ) : List Char :=
  if n < 0 then '-' :: natChars (-n).toNat else natChars n.toNat

/-- Is `c` an ASCII decimal digit? -/
def isDigit10 (c : Char) : Bool := 48 ≤ c.toNat ∧ c.toNat ≤ 57

/-- Numeric value of a decimal digit character. -/
def digitVal (c : Char) : ℕ := c.toNat - 48

/-- Fold a list of decimal digit characters into a natural number. -/
def charsToNat (cs : List Char) : ℕ :=
  cs.foldl (fun acc c => acc * 10 + digitVal c) 0

/-- Rust's `str::parse::<i64>`: an optional sign followed by at least one
decimal digit, no other characters, rejecting values outside the `i64`
range. -/
def parseI64 (cs : List Char) : Option ℤ :=
  let core : Bool → List Char → Option ℤ := fun neg ds =>
    if ds ≠ [] ∧ ds.all isDigit10 then
      let v : ℤ := charsToNat ds
      let v : ℤ := if neg then -v else v
      if -i64Bound ≤ v ∧ v ≤ i64Bound - 1 then some v else none
    else none
  match cs with
  | '-' :: rest => core true rest
  | '+' :: rest => core false rest
  | _ => core false cs

/-- Decimal number parsing used by Rust's `str::parse::<f64>`: an optional
sign, an integer part, an optional fraction and an optional exponent, plus
the special literals accepted by Rust (`inf`, `infinity`, `nan`, in any
case).  The numeric value is computed exactly and then rounded with
`rndF64`, which is the documented behaviour (correctly rounded decimal
conversion). -/
def parseF64 (cs : List Char) : Option F64 :=
  let lower := cs.map Char.toLower
  let core : List Char → Bool → Option F64 := fun body neg =>
    if body = ['i', 'n', 'f'] ∨ body = ['i', 'n', 'f', 'i', 'n', 'i', 't', 'y'] then
      some (if neg then .neginf else .inf)
    else if body = ['n', 'a', 'n'] then some .nan
    else
      let intPart := body.takeWhile isDigit10
      let rest1 := body.dropWhile isDigit10
      let frac :=
        match rest1 with
        | '.' :: tl => some (tl.takeWhile isDigit10, tl.dropWhile isDigit10)
        | _ => some ([], rest1)
      match frac with
      | some (fracDigits, rest2) =>
        if intPart = [] ∧ fracDigits = [] then none
        else
          let expPart : Option ℤ :=
            match rest2 with
            | [] => some 0
            | 'e' :: tl =>
              match tl with
              | '-' :: ds => if ds ≠ [] ∧ ds.all isDigit10 then some (-(charsToNat ds : ℤ)) else none
              | '+' :: ds => if ds ≠ [] ∧ ds.all isDigit10 then some (charsToNat ds : ℤ) else none
              | ds => if ds ≠ [] ∧ ds.all isDigit10 then some (charsToNat ds : ℤ) else none
            | _ => none
          match expPart with
          | none => none
          | some ex =>
            let mantissa : ℤ := charsToNat (intPart ++ fracDigits)
            let scale : ℤ := ex - fracDigits.length
            let sgn : ℤ := if neg then -1 else 1
            if 0 ≤ scale then
              some (rndF64 (sgn * mantissa * 10 ^ scale.toNat) 1)
            else
              some (rndF64 (sgn * mantissa) (10 ^ (-scale).toNat))
      | none => none
  match lower with
  | '-' :: tl => core tl true
  | '+' :: tl => core tl false
  | _ => core lower false

/-- UTF-8 byte length of a string (Rust's `str::len`). -/
def utf8Len (cs : List Char) : ℕ := (cs.map Char.utf8Size).sum

/-- Lower-case hexadecimal digit character for `d ∈ [0,15]`. -/
def hexChar (d : ℕ) : Char :=
  if d < 10 then Char.ofNat (48 + d) else Char.ofNat (87 + d)

/-- Four-digit lower-case hexadecimal rendering of `n < 0x10000`
(Rust's `{:04x}`). -/
def hex4 (n : ℕ) : List Char :=
  [hexChar (n / 4096 % 16), hexChar (n / 256 % 16), hexChar (n / 16 % 16),
   hexChar (n % 16)]

/-- Value of one hexadecimal digit character, if any. -/
def hexVal (c : Char) : Option ℕ :=
  if 48 ≤ c.toNat ∧ c.toNat ≤ 57 then some (c.toNat - 48)
  else if 97 ≤ c.toNat ∧ c.toNat ≤ 102 then some (c.toNat - 87)
  else if 65 ≤ c.toNat ∧ c.toNat ≤ 70 then some (c.toNat - 55)
  else none

/-- `u32::from_str_radix(s, 16)`, as used by the JSON lexer for `\uXXXX`
escapes: all characters must be hex digits (the lexer then substitutes `0`
for failures via `unwrap_or(0)`). -/
def hexToNat (cs : List Char) : Option ℕ :=
  cs.foldl
    (fun acc c =>
      match acc, hexVal c with
      | some a, some d => some (a * 16 + d)
      | _, _ => none)
    (if cs = [] then none else some 0)

/-! ## The `Value` model

`Value` mirrors the runtime's tagged union.  Containers with shared,
interior-mutable payloads (`Rc<RefCell<..>>` in the source) carry an `addr`
field modelling the `Rc` allocation address used by `serialize_value`'s
`{:p}` formatting; functions that only read the payload ignore it.
`VList` and `VPairs` are specialised list types so that every recursive
function below is compiled by structural recursion and therefore evaluates
inside the kernel. -/

mutual
inductive Value where
  | none
  | bool (b : Bool)
  | int (n : ℤ)
  | float (f : F64)
  | str (s : List Char)
  | array (items : VList) (addr : ℕ)
  | tuple (items : VList)
  | map (entries : VPairs) (index : List (List Char × ℕ)) (addr : ℕ)
  | set (items : VList) (index : List (List Char)) (addr : ℕ)
  | record (entries : VPairs) (index : List (List Char × ℕ)) (addr : ℕ)
  | deque (items : VList) (addr : ℕ)
  | heap (entries : VHeapEntries) (counter : ℕ) (addr : ℕ)
inductive VList where
  | nil
  | cons (v : Value) (tl : VList)
inductive VPairs where
  | nil
  | cons (k v : Value) (tl : VPairs)
inductive VHeapEntries where
  | nil
  | cons (priority : F64) (counter : ℕ) (v : Value) (tl : VHeapEntries)
end

/-- Length of a `VList`. -/
def VList.length : VList → ℕ
  | .nil => 0
  | .cons _ tl => tl.length + 1

/-- Length of a `VPairs`. -/
def VPairs.length : VPairs → ℕ
  | .nil => 0
  | .cons _ _ tl => tl.length + 1

/-- Length of a `VHeapEntries`. -/
def VHeapEntries.length : VHeapEntries → ℕ
  | .nil => 0
  | .cons _ _ _ tl => tl.length + 1

/-- Convert a plain list into a `VList`. -/
def VList.ofList : List Value → VList
  | [] => .nil
  | v :: tl => .cons v (VList.ofList tl)

/-- Convert a `VList` to a plain list. -/
def VList.toList : VList → List Value
  | .nil => []
  | .cons v tl => v :: tl.toList

/-- Append two `VList`s. -/
def VList.append : VList → VList → VList
  | .nil, ys => ys
  | .cons v tl, ys => .cons v (tl.append ys)

/-! ## Value serialization (`serialize_value`) -/

/-- `10^17`, the scaling factor of the `{:.17}` float key format. -/
def tenPow17 : ℕ := 100000000000000000

/-- Is the dyadic `m * 2^e` an integer, and if so which one?  (Exact.) -/
def dyadicIsInt (m : ℤ) (e : ℤ) : Bool :=
  dyadicTrunc m e * dyadicDen e = dyadicNum m e

/-- Hexadecimal digits of `n`, least significant first. -/
def hexDigitsGo : ℕ → ℕ → List ℕ
  | 0, _ => []
  | fuel + 1, n => if n = 0 then [] else n % 16 :: hexDigitsGo fuel (n / 16)

/-- Lower-case hexadecimal rendering of a natural number. -/
def natHexChars (n : ℕ) : List Char :=
  if n = 0 then ['0']
  else ((hexDigitsGo (digitFuel n) n).reverse).map hexChar

/-- Rust's `{:p}` pointer rendering: `0x` followed by the address in
lower-case hexadecimal. -/
def addrChars (a : ℕ) : List Char := '0' :: 'x' :: natHexChars a

/-- Rust's `{:.17}` fixed formatting of an `f64`: seventeen digits after the
decimal point, rounded to nearest (ties to even); `NaN`, `inf`, `-inf` for
the special values. -/
def fixed17 : F64 → List Char
  | .nan => ['N', 'a', 'N']
  | .inf => ['i', 'n', 'f']
  | .neginf => ['-', 'i', 'n', 'f']
  | .finite m e =>
    let sign : List Char := if m < 0 then ['-'] else []
    let n : ℤ := if m < 0 then -m else m
    let scaled : ℤ := roundHalfEven (dyadicNum n e * tenPow17) (dyadicDen e)
    let ip : ℕ := (scaled.ediv tenPow17).toNat
    let fp : ℕ := (scaled.emod tenPow17).toNat
    let fd : List Char := natChars fp
    sign ++ natChars ip ++ '.' :: (List.replicate (17 - fd.length) '0' ++ fd)

mutual
/-- Embedding of `serialize_value`: the deterministic key string used by the
ordered containers. -/
def serialize_value : Value → List Char
  | .none => ['N']
  | .bool b => if b then ['B', '1'] else ['B', '0']
  | .int n => 'I' :: intChars n
  | .float f => 'F' :: fixed17 f
  | .str s => 'S' :: natChars (utf8Len s) ++ ':' :: s
  | .tuple items => 'T' :: '(' :: List.intercalate [','] (serialize_value_list items) ++ [')']
  | .array items _ => 'A' :: '[' :: List.intercalate [','] (serialize_value_list items) ++ [']']
  | .map _ _ addr => 'M' :: '@' :: addrChars addr
  | .set _ _ addr => 'S' :: 'E' :: 'T' :: '@' :: addrChars addr
  | .record _ _ addr => 'R' :: '@' :: addrChars addr
  | .deque _ addr => 'D' :: 'Q' :: '@' :: addrChars addr
  | .heap _ _ addr => 'H' :: '@' :: addrChars addr
/-- The serializations of the members of a `VList`. -/
def serialize_value_list : VList → List (List Char)
  | .nil => []
  | .cons v tl => serialize_value v :: serialize_value_list tl
end

/-! ## Deep equality (`values_equal`) -/

mutual
/-- Embedding of `values_equal`: deep, structural equality with cross-type
numeric comparison.  Note the source's final catch-all arm `_ => false`,
which in particular covers the Record/Record, Deque/Deque and Heap/Heap
cases. -/
def values_equal : Value → Value → Bool
  | .none, .none => true
  | .bool x, .bool y => x = y
  | .int x, .int y => x = y
  | .float x, .float y => f64Eq x y
  | .str x, .str y => x = y
  | .int x, .float y => f64Eq (f64OfInt x) y
  | .float x, .int y => f64Eq x (f64OfInt y)
  | .bool x, .int y => (if x then (1 : ℤ) else 0) = y
  | .int x, .bool y => x = (if y then (1 : ℤ) else 0)
  | .bool x, .float y => f64Eq (.finite (if x then 1 else 0) 0) y
  | .float x, .bool y => f64Eq x (.finite (if y then 1 else 0) 0)
  | .array a1 _, .array a2 _ =>
      a1.length = a2.length && values_equal_list a1 a2
  | .tuple t1, .tuple t2 =>
      t1.length = t2.length && values_equal_list t1 t2
  | .map m1 _ _, .map m2 _ _ =>
      m1.length = m2.length && values_equal_pairs m1 m2
  | .set s1 _ _, .set s2 i2 _ =>
      s1.length = s2.length && values_equal_set_mem s1 i2
  | _, _ => false
/-- Element-wise equality of two `VList`s (`zip`-style: extra elements of
either list are ignored, as with `Iterator::zip`). -/
def values_equal_list : VList → VList → Bool
  | .cons x tx, .cons y ty => values_equal x y && values_equal_list tx ty
  | _, _ => true
/-- Entry-wise equality of two `VPairs` in iteration order. -/
def values_equal_pairs : VPairs → VPairs → Bool
  | .cons k1 v1 t1, .cons k2 v2 t2 =>
      values_equal k1 k2 && values_equal v1 v2 && values_equal_pairs t1 t2
  | _, _ => true
/-- `s1.items.iter().all(|item| s2.has(item))`: every item's serialization
is a member of the other set's index. -/
def values_equal_set_mem : VList → List (List Char) → Bool
  | .nil, _ => true
  | .cons x tx, idx => idx.contains (serialize_value x) && values_equal_set_mem tx idx
end

/-! ## Display formatting (`format_value`, `format_float`) -/

/-- Decimal digit characters of `n % 10 ^ p`, left-padded with zeros to
exactly `p` digits (the fractional part of a fixed-point rendering). -/
def padDigits (p n : ℕ) : List Char :=
  List.replicate (p - (natChars (n % 10 ^ p)).length) '0' ++ natChars (n % 10 ^ p)

/-- The fixed-point decimal rendering of the rational `n / 10 ^ p` (negated
when `neg` is set) with exactly `p` digits after the point. -/
def decChars (neg : Bool) (n p : ℕ) : List Char :=
  (if neg then ['-'] else []) ++ natChars (n / 10 ^ p) ++ '.' :: padDigits p n

/-- Does the string `cs` parse back (`str::parse::<f64>`) to exactly the
double `f`?  The round-trip test of the host's shortest-decimal search. -/
def rtCheck (f : F64) (cs : List Char) : Bool :=
  match parseF64 cs with
  | some g => f64Eq g f
  | none => false

/-- The `p`-fractional-digit decimal nearest to `am / 2 ^ t` (round to
nearest, ties to even), as a scaled integer numerator over `10 ^ p`. -/
def dispCand1 (am t p : ℕ) : ℤ :=
  roundHalfEven ((am * 10 ^ p : ℕ) : ℤ) ((pow2 t : ℕ) : ℤ)

/-- The `p`-fractional-digit decimal bracketing `am / 2 ^ t` on the side
opposite to `dispCand1` (the only other decimal of that length that can
possibly round-trip). -/
def dispCand2 (am t p : ℕ) : ℤ :=
  if dispCand1 am t p * ((pow2 t : ℕ) : ℤ) ≤ ((am * 10 ^ p : ℕ) : ℤ)
  then dispCand1 am t p + 1 else dispCand1 am t p - 1

/-- One step of the shortest-round-trip search at `p` fractional digits:
return the nearest `p`-digit decimal if it parses back to `f`, else the
bracketing decimal on the other side if that one does, else nothing. -/
def dispTry (f : F64) (neg : Bool) (am t p : ℕ) : Option (List Char) :=
  if rtCheck f (decChars neg (dispCand1 am t p).toNat p) then
    some (decChars neg (dispCand1 am t p).toNat p)
  else if rtCheck f (decChars neg (dispCand2 am t p).toNat p) then
    some (decChars neg (dispCand2 am t p).toNat p)
  else none

/-- The search loop behind the host's shortest-round-trip `Display`: try
`p, p+1, ...` fractional digits and return the first rendering that parses
back to `f` exactly.  The fallback at exhausted fuel is the exact decimal
expansion of `am / 2 ^ t` (which always parses back exactly, so with the
fuel used below it is never reached). -/
def dispGo (f : F64) (neg : Bool) (am t : ℕ) : ℕ → ℕ → List Char
  | 0, _ => decChars neg (am * 5 ^ t) t
  | fuel + 1, p =>
    match dispTry f neg am t p with
    | some cs => cs
    | none => dispGo f neg am t fuel (p + 1)

/-- The shortest fixed-point decimal rendering of the non-integral double
`m * 2 ^ (-t)` that parses back to exactly that double — the host `Display`
output for doubles with a fractional part (which is always printed in
positional notation with a `.`). -/
def dispShortest (m : ℤ) (t : ℕ) : List Char :=
  dispGo (.finite m (-(t : ℤ))) (decide (m < 0)) m.natAbs t t 1

/-- Modelled from the spec: Rust's `Display` for `f64` (`format!("{}", f)`),
which the specification describes as "the host's shortest-round-trip
decimal".  The host implementation lives in the Rust standard library, not
in this repository.  The model returns the exact decimal digits for NaN,
the infinities and integral doubles of magnitude below `2^53` — on which it
agrees with the host, since for such values the shortest round-tripping
decimal without an exponent is the exact integer.  Non-integral doubles go
through `dispShortest`: the shortest fixed-point decimal that parses back
to exactly the same double, preferring the nearer of the two bracketing
decimals at each length — the host's shortest-round-trip output, which for
a double with a fractional part is always positional and contains a `.`.
Integral doubles of magnitude at least `2^53` keep their exact integer
digits, where the host may shorten trailing digits; no theorem in this
file evaluates the model there. -/
def displayF64 : F64 → List Char
  | .nan => ['N', 'a', 'N']
  | .inf => ['i', 'n', 'f']
  | .neginf => ['-', 'i', 'n', 'f']
  | .finite m e =>
    if dyadicIsInt m e ∧ (dyadicTrunc m e).natAbs < pow2 53 then
      intChars (dyadicTrunc m e)
    else if 0 ≤ e then
      intChars (dyadicTrunc m e)
    else
      dispShortest m (-e).toNat

/-- Embedding of `format_float`. -/
def format_float (f : F64) : List Char :=
  match f with
  | .nan => ['n', 'a', 'n']
  | .inf => ['i', 'n', 'f']
  | .neginf => ['-', 'i', 'n', 'f']
  | .finite m e =>
    if dyadicIsInt m e ∧ ratCompare (dyadicNum m.natAbs e) (dyadicDen e) (10 ^ 15) 1 = .lt then
      intChars (f64ToI64 (.finite m e)) ++ ['.', '0']
    else
      let s := displayF64 (.finite m e)
      if ¬ s.contains '.' ∧ ¬ s.contains 'e' ∧ ¬ s.contains 'E' then s ++ ['.', '0']
      else s

mutual
/-- Embedding of `format_value` (top-level `Display` rendering). -/
def format_value : Value → List Char
  | .none => ['N', 'o', 'n', 'e']
  | .bool b => if b then ['T', 'r', 'u', 'e'] else ['F', 'a', 'l', 's', 'e']
  | .int n => intChars n
  | .float f => format_float f
  | .str s => s
  | .array items _ =>
      '[' :: List.intercalate [',', ' '] (format_repr_list items) ++ [']']
  | .tuple items =>
      let parts := format_repr_list items
      match parts with
      | [x] => '(' :: x ++ [',', ')']
      | _ => '(' :: List.intercalate [',', ' '] parts ++ [')']
  | .map entries _ _ =>
      Char.ofNat 123 :: List.intercalate [',', ' '] (format_repr_pairs entries) ++ [Char.ofNat 125]
  | .set items _ _ =>
      let parts := format_repr_list items
      match parts with
      | [] => ['s', 'e', 't', '(', ')']
      | _ => Char.ofNat 123 :: List.intercalate [',', ' '] parts ++ [Char.ofNat 125]
  | .record entries _ _ =>
      Char.ofNat 123 :: List.intercalate [',', ' '] (format_repr_pairs entries) ++ [Char.ofNat 125]
  | .deque items _ =>
      'd' :: 'e' :: 'q' :: 'u' :: 'e' :: '(' :: '[' ::
        List.intercalate [',', ' '] (format_repr_list items) ++ [']', ')']
  | .heap _ _ _ => ['<', 'h', 'e', 'a', 'p', '>']
/-- Embedding of `format_value_repr` (container-embedded rendering:
strings single-quoted). -/
def format_value_repr : Value → List Char
  | .str s => '\'' :: s ++ ['\'']
  | v => format_value v
/-- Repr renderings of the members of a `VList`. -/
def format_repr_list : VList → List (List Char)
  | .nil => []
  | .cons v tl => format_value_repr v :: format_repr_list tl
/-- `"k: v"` renderings of the entries of a `VPairs`. -/
def format_repr_pairs : VPairs → List (List Char)
  | .nil => []
  | .cons k v tl =>
      (format_value_repr k ++ ':' :: ' ' :: format_value_repr v) :: format_repr_pairs tl
end

/-- Embedding of `is_truthy`. -/
def is_truthy : Value → Bool
  | .none => false
  | .bool b => b
  | .int n => n ≠ 0
  | .float f => !f64Eq f (.finite 0 0)
  | .str s => s ≠ []
  | .array items _ => items.length ≠ 0
  | .tuple items => items.length ≠ 0
  | .map entries _ _ => entries.length ≠ 0
  | .set items _ _ => items.length ≠ 0
  | .record _ _ _ => true
  | .deque items _ => items.length ≠ 0
  | .heap entries _ _ => entries.length > 0

/-! ## Structural equality (claim-side notion)

The round-trip claim C5 speaks of the parse result being "structurally
equal" to the original value.  `struct_eq` is that notion: deep equality of
the observable structure, with container handle addresses and the internal
side indexes (which a freshly parsed container re-derives) ignored, and
floats compared by IEEE value. -/

mutual
/-- Deep structural equality of two values, ignoring handle identity. -/
def struct_eq (a b : Value) : Bool :=
  match a, b with
  | .none, .none => true
  | .bool x, .bool y => x = y
  | .int x, .int y => x = y
  | .float x, .float y => f64Eq x y
  | .str x, .str y => x = y
  | .array a1 _, .array a2 _ => struct_eq_list a1 a2
  | .tuple t1, .tuple t2 => struct_eq_list t1 t2
  | .map m1 _ _, .map m2 _ _ => struct_eq_pairs m1 m2
  | .set s1 _ _, .set s2 _ _ => struct_eq_list s1 s2
  | .record r1 _ _, .record r2 _ _ => struct_eq_pairs r1 r2
  | .deque d1 _, .deque d2 _ => struct_eq_list d1 d2
  | .heap h1 _ _, .heap h2 _ _ => struct_eq_heap h1 h2
  | _, _ => false
termination_by structural a
/-- Structural equality of `VList`s (length included). -/
def struct_eq_list (a b : VList) : Bool :=
  match a, b with
  | .nil, .nil => true
  | .cons x tx, .cons y ty => struct_eq x y && struct_eq_list tx ty
  | _, _ => false
termination_by structural a
/-- Structural equality of `VPairs` in order. -/
def struct_eq_pairs (a b : VPairs) : Bool :=
  match a, b with
  | .nil, .nil => true
  | .cons k1 v1 t1, .cons k2 v2 t2 =>
      struct_eq k1 k2 && struct_eq v1 v2 && struct_eq_pairs t1 t2
  | _, _ => false
termination_by structural a
/-- Structural equality of heap entry lists. -/
def struct_eq_heap (a b : VHeapEntries) : Bool :=
  match a, b with
  | .nil, .nil => true
  | .cons p1 c1 v1 t1, .cons p2 c2 v2 t2 =>
      f64Eq p1 p2 && c1 = c2 && struct_eq v1 v2 && struct_eq_heap t1 t2
  | _, _ => false
termination_by structural a
end

/-! ## Ordered map and ordered set operations -/

/-- `HashMap<String, usize>` lookup in the ordered map's side index. -/
def indexLookup (idx : List (List Char × ℕ)) (k : List Char) : Option ℕ :=
  match idx with
  | [] => none
  | (k', i) :: tl => if k' = k then some i else indexLookup tl k

/-- Replace the value of the `i`-th entry (`self.entries[idx].1 = value`). -/
def pairsSetAt : VPairs → ℕ → Value → VPairs
  | .nil, _, _ => .nil
  | .cons k _ tl, 0, value => .cons k value tl
  | .cons k v tl, i + 1, value => .cons k v (pairsSetAt tl i value)

/-- Append an entry at the end of a `VPairs`. -/
def pairsPush : VPairs → Value → Value → VPairs
  | .nil, k, v => .cons k v .nil
  | .cons k' v' tl, k, v => .cons k' v' (pairsPush tl k v)

/-- Embedding of `OrderedMap::set`: update in place when the serialized key
is already present, append otherwise. -/
def omSet (entries : VPairs) (idx : List (List Char × ℕ)) (key value : Value) :
    VPairs × List (List Char × ℕ) :=
  let skey := serialize_value key
  match indexLookup idx skey with
  | some i => (pairsSetAt entries i value, idx)
  | none => (pairsPush entries key value, idx ++ [(skey, entries.length)])

/-- Embedding of `OrderedSet::add`. -/
def osAdd (items : VList) (idx : List (List Char)) (item : Value) :
    VList × List (List Char) :=
  let skey := serialize_value item
  if idx.contains skey then (items, idx)
  else (items.append (.cons item .nil), idx ++ [skey])

/-- Embedding of `OrderedSet::has`. -/
def osHas (idx : List (List Char)) (item : Value) : Bool :=
  idx.contains (serialize_value item)

/-- `Vec::retain` keeping the items whose serialization differs from
`skey`. -/
def vlistRetainNe (skey : List Char) : VList → VList
  | .nil => .nil
  | .cons v tl =>
      if serialize_value v = skey then vlistRetainNe skey tl
      else .cons v (vlistRetainNe skey tl)

/-- Remove `skey` from a `HashSet<String>` index. -/
def indexRemove (skey : List Char) : List (List Char) → List (List Char)
  | [] => []
  | k :: tl => if k = skey then tl else k :: indexRemove skey tl

/-- Embedding of `OrderedSet::remove`: if the serialization is present in
the index, drop it from the index and retain the other items; otherwise do
nothing. -/
def osRemove (items : VList) (idx : List (List Char)) (item : Value) :
    VList × List (List Char) :=
  let skey := serialize_value item
  if idx.contains skey then
    (vlistRetainNe skey items, indexRemove skey idx)
  else (items, idx)

/-- Embedding of `set_remove`: dispatch on the `Value` variant, panicking
(`none`) on non-sets. -/
def set_remove : Value → Value → Option Value
  | .set items idx addr, item =>
      let r := osRemove items idx item
      some (.set r.1 r.2 addr)
  | _, _ => none

/-! ## Arithmetic operations (claim-relevant arms) -/

/-- Embedding of the `(Value::Int, Value::Int)` arm of `op_floor_divide`:
`(*x as f64 / *y as f64).floor() as i64`, guarded by a division-by-zero
panic.  The source computes through `f64`, so the conversions and the
correctly-rounded division are modelled exactly. -/
def op_floor_divide (x y : ℤ) : Option ℤ :=
  if y = 0 then none
  else some (f64ToI64 (f64Floor (f64Div (f64OfInt x) (f64OfInt y))))

/-- Embedding of the `(Value::Int, Value::Int)` arm of `op_modulo`:
`x.rem_euclid(*y)` (the always-non-negative Euclidean remainder), guarded
by a division-by-zero panic. -/
def op_modulo (x y : ℤ) : Option ℤ :=
  if y = 0 then none else some (x.emod y)

/-! ## Numeric conversions (`value_to_int`, `as_int`) -/

/-- Embedding of `value_to_int` (the strict v1.9 conversion): Int passes
through, Float is cast with `as i64`, Str goes through `parse::<i64>`,
everything else (including Bool) panics. -/
def value_to_int : Value → Option Value
  | .int n => some (.int n)
  | .float f => some (.int (f64ToI64 f))
  | .str s =>
      match parseI64 s with
      | some n => some (.int n)
      | none => none
  | _ => none

/-- Embedding of `as_int` (the legacy conversion): also accepts Bool, and
for strings falls back to float parsing followed by an `as i64` cast. -/
def as_int : Value → Option ℤ
  | .int n => some n
  | .float f => some (f64ToI64 f)
  | .bool b => some (if b then 1 else 0)
  | .str s =>
      match parseI64 s with
      | some n => some n
      | none =>
        match parseF64 s with
        | some f => some (f64ToI64 f)
        | none => none
  | _ => none

/-! ## The stable min-heap (`CoreILHeap`) -/

/-- A heap entry `(priority, counter, value)`. -/
abbrev HeapEntryT := F64 × ℕ × Value

/-- Embedding of `HeapEntry::cmp`: the comparison is reversed (so that
Rust's max-`BinaryHeap` behaves as a min-heap on `(priority, counter)`),
with `partial_cmp` falling back to `Equal` for NaN. -/
def heap_entry_cmp (a b : HeapEntryT) : Ordering :=
  match f64PartialCmp b.1 a.1 with
  | some .eq => compare b.2.1 a.2.1
  | none => compare b.2.1 a.2.1
  | some o => o

/-- State of a `CoreILHeap`: the multiset of entries (modelled as the list
in insertion order — `BinaryHeap`'s internal arrangement is unobservable
through `pop`/`peek` because they return a greatest element) and the
monotone counter. -/
structure CoreILHeap where
  entries : List HeapEntryT
  counter : ℕ

/-- Embedding of `CoreILHeap::new`. -/
def CoreILHeap.new : CoreILHeap := ⟨[], 0⟩

/-- Embedding of `CoreILHeap::push`: tag the value with the current counter
and increment it. -/
def CoreILHeap.push (h : CoreILHeap) (priority : F64) (value : Value) : CoreILHeap :=
  ⟨h.entries ++ [(priority, h.counter, value)], h.counter + 1⟩

/-- Select a greatest entry (w.r.t. `heap_entry_cmp`) and return it with the
remaining entries; `BinaryHeap::pop` returns such an element.  When the
greatest element is unique — which claim C6's hypotheses guarantee, since
counters are distinct and NaN priorities are excluded — this is exactly the
popped element, so the selection order among ties is immaterial. -/
def heapPopMax : List HeapEntryT → Option (HeapEntryT × List HeapEntryT)
  | [] => none
  | x :: tl =>
    match heapPopMax tl with
    | none => some (x, [])
    | some (b, rest) =>
      if heap_entry_cmp x b = .lt then some (b, x :: rest) else some (x, tl)

/-- Embedding of `CoreILHeap::pop` (panics on an empty heap). -/
def CoreILHeap.pop (h : CoreILHeap) : Option (Value × CoreILHeap) :=
  match heapPopMax h.entries with
  | none => none
  | some (e, rest) => some (e.2.2, ⟨rest, h.counter⟩)

/-- Embedding of `CoreILHeap::peek`. -/
def CoreILHeap.peek (h : CoreILHeap) : Option Value :=
  match heapPopMax h.entries with
  | none => none
  | some (e, _) => some e.2.2

/-- Push a whole list of `(priority, value)` pairs in order. -/
def CoreILHeap.pushAll (h : CoreILHeap) : List (F64 × Value) → CoreILHeap
  | [] => h
  | (p, v) :: tl => (h.push p v).pushAll tl

/-- Repeatedly pop entries (entry-level drain; `fuel` bounds the number of
pops). -/
def heapDrainGo : ℕ → List HeapEntryT → List HeapEntryT
  | 0, _ => []
  | fuel + 1, l =>
    match heapPopMax l with
    | none => []
    | some (e, rest) => e :: heapDrainGo fuel rest

/-- All entries of a heap in pop order. -/
def CoreILHeap.drainEntries (h : CoreILHeap) : List HeapEntryT :=
  heapDrainGo h.entries.length h.entries

/-- The values returned by popping a heap until empty (the observable
output of a `heap_pop` sequence). -/
def CoreILHeap.drainValues (h : CoreILHeap) : List Value :=
  (h.drainEntries).map (fun e => e.2.2)

/-- Strict "pops before": ascending priority, ties broken by ascending
counter — the order claim C6 asserts for the pop sequence. -/
def entryLe (a b : HeapEntryT) : Prop :=
  f64PartialCmp a.1 b.1 = some .lt ∨ (f64Eq a.1 b.1 ∧ a.2.1 ≤ b.2.1)

/-! ## JSON -/

/-- The token type of the JSON lexer. -/
inductive JsonToken where
  | lbrace | rbrace | lbracket | rbracket | colon | comma
  | stringVal (s : List Char)
  | numberVal (s : List Char)
  | tru | fls | nul
deriving Repr, DecidableEq

/-- ASCII whitespace as `char::is_ascii_whitespace` defines it. -/
def isAsciiWs (c : Char) : Bool :=
  c = ' ' ∨ c = '\t' ∨ c = '\n' ∨ c = '\x0C' ∨ c = '\r'

/-- Embedding of `JsonLexer::lex_string` (the opening quote already
consumed): returns the unescaped contents and the input after the closing
quote, `none` on an unterminated string, an unterminated escape, or a
truncated `\uXXXX` (an out-of-bounds index panic in the source).  Unknown
escapes `\c` are `s.push(c)`: the character is taken literally.  `\uXXXX`
pushes the decoded code point when `char::from_u32` accepts it and pushes
nothing otherwise (`from_str_radix` failures decode as 0 via
`unwrap_or(0)`). -/
def lex_string : ℕ → List Char → Option (List Char × List Char)
  | 0, _ => none
  | fuel + 1, cs =>
    match cs with
    | [] => none
    | '"' :: rest => some ([], rest)
    | '\\' :: rest =>
      match rest with
      | [] => none
      | e :: rest2 =>
        if e = 'u' then
          match rest2 with
          | h1 :: h2 :: h3 :: h4 :: rest3 =>
            let n := (hexToNat [h1, h2, h3, h4]).getD 0
            let produced : List Char := if n.isValidChar then [Char.ofNat n] else []
            (lex_string fuel rest3).map (fun r => (produced ++ r.1, r.2))
          | _ => none
        else
          let produced : Char :=
            if e = '"' then '"'
            else if e = '\\' then '\\'
            else if e = '/' then '/'
            else if e = 'b' then '\x08'
            else if e = 'f' then '\x0C'
            else if e = 'n' then '\n'
            else if e = 'r' then '\r'
            else if e = 't' then '\t'
            else e
          (lex_string fuel rest2).map (fun r => (produced :: r.1, r.2))
    | c :: rest => (lex_string fuel rest).map (fun r => (c :: r.1, r.2))

/-- Embedding of `JsonLexer::lex_number`: greedily take an optional minus,
digits, an optional fraction and an optional exponent; the token text is
the raw lexeme. -/
def lex_number (cs : List Char) : List Char × List Char :=
  let sn : List Char × List Char :=
    match cs with
    | '-' :: tl => (['-'], tl)
    | _ => ([], cs)
  let d1 := sn.2.takeWhile isDigit10
  let r1 := sn.2.dropWhile isDigit10
  let fr : List Char × List Char :=
    match r1 with
    | '.' :: tl => ('.' :: tl.takeWhile isDigit10, tl.dropWhile isDigit10)
    | _ => ([], r1)
  let ex : List Char × List Char :=
    match fr.2 with
    | c :: tl =>
      if c = 'e' ∨ c = 'E' then
        match tl with
        | '+' :: u => (c :: '+' :: u.takeWhile isDigit10, u.dropWhile isDigit10)
        | '-' :: u => (c :: '-' :: u.takeWhile isDigit10, u.dropWhile isDigit10)
        | u => (c :: u.takeWhile isDigit10, u.dropWhile isDigit10)
      else ([], fr.2)
    | [] => ([], fr.2)
  (sn.1 ++ d1 ++ fr.1 ++ ex.1, ex.2)

/-- Embedding of the lexer loop (`JsonParser::new` collecting
`next_token`s): produces the whole token list, `none` on any lexing panic.
`fuel` only needs to exceed the input length. -/
def tokenize : ℕ → List Char → Option (List JsonToken)
  | 0, _ => none
  | fuel + 1, cs =>
    let cs := cs.dropWhile isAsciiWs
    match cs with
    | [] => some []
    | c :: rest =>
      if c = Char.ofNat 123 then (tokenize fuel rest).map (.lbrace :: ·)
      else if c = Char.ofNat 125 then (tokenize fuel rest).map (.rbrace :: ·)
      else if c = '[' then (tokenize fuel rest).map (.lbracket :: ·)
      else if c = ']' then (tokenize fuel rest).map (.rbracket :: ·)
      else if c = ':' then (tokenize fuel rest).map (.colon :: ·)
      else if c = ',' then (tokenize fuel rest).map (.comma :: ·)
      else if c = '"' then
        match lex_string (rest.length + 1) rest with
        | none => none
        | some (s, rest2) => (tokenize fuel rest2).map (.stringVal s :: ·)
      else if c = 't' then
        if cs.take 4 = ['t', 'r', 'u', 'e'] then (tokenize fuel (cs.drop 4)).map (.tru :: ·)
        else none
      else if c = 'f' then
        if cs.take 5 = ['f', 'a', 'l', 's', 'e'] then (tokenize fuel (cs.drop 5)).map (.fls :: ·)
        else none
      else if c = 'n' then
        if cs.take 4 = ['n', 'u', 'l', 'l'] then (tokenize fuel (cs.drop 4)).map (.nul :: ·)
        else none
      else if c = '-' ∨ isDigit10 c then
        let r := lex_number cs
        (tokenize fuel r.2).map (.numberVal r.1 :: ·)
      else none

/-- Number-token conversion in `JsonParser::parse_value`: a lexeme with a
`.`, `e` or `E` goes through `parse::<f64>` and becomes a Float, any other
lexeme through `parse::<i64>` and becomes an Int; parse failures panic. -/
def json_number_value (s : List Char) : Option Value :=
  if s.contains '.' ∨ s.contains 'e' ∨ s.contains 'E' then
    match parseF64 s with
    | some f => some (.float f)
    | none => none
  else
    match parseI64 s with
    | some n => some (.int n)
    | none => none

mutual
/-- Embedding of `JsonParser::parse_value` over the token stream: returns
the parsed value and the remaining tokens, `none` on any parse panic.
`fuel` only needs to exceed the number of tokens, since every step consumes
at least one token.  The bodies of the source's `parse_object` and
`parse_array` (the empty-container fast path followed by the member loop)
are inlined here so that the mutual recursion is structural on the fuel;
the named wrappers are defined right after this block. -/
def parse_value : ℕ → List JsonToken → Option (Value × List JsonToken)
  | 0, _ => none
  | fuel + 1, ts =>
    match ts with
    | .lbrace :: rest =>
      (match rest with
       | .rbrace :: rest2 => some (.map .nil [] 0, rest2)
       | _ => parse_members fuel rest .nil [])
    | .lbracket :: rest =>
      (match rest with
       | .rbracket :: rest2 => some (.array .nil 0, rest2)
       | _ => parse_elems fuel rest .nil)
    | .stringVal s :: rest => some (.str s, rest)
    | .numberVal s :: rest =>
      match json_number_value s with
      | some v => some (v, rest)
      | none => none
    | .tru :: rest => some (.bool true, rest)
    | .fls :: rest => some (.bool false, rest)
    | .nul :: rest => some (.none, rest)
    | _ => none
/-- The member loop of `JsonParser::parse_object`: parse `"key": value`
pairs separated by commas, inserting them with `OrderedMap::set`; a fresh
`Rc` is modelled by address 0. -/
def parse_members : ℕ → List JsonToken → VPairs → List (List Char × ℕ) →
    Option (Value × List JsonToken)
  | 0, _, _, _ => none
  | fuel + 1, ts, entries, idx =>
    match ts with
    | .stringVal k :: .colon :: rest =>
      match parse_value fuel rest with
      | none => none
      | some (v, rest2) =>
        let st := omSet entries idx (.str k) v
        match rest2 with
        | .comma :: rest3 => parse_members fuel rest3 st.1 st.2
        | .rbrace :: rest3 => some (.map st.1 st.2 0, rest3)
        | _ => none
    | _ => none
/-- The element loop of `JsonParser::parse_array`. -/
def parse_elems : ℕ → List JsonToken → VList → Option (Value × List JsonToken)
  | 0, _, _ => none
  | fuel + 1, ts, items =>
    match parse_value fuel ts with
    | none => none
    | some (v, rest) =>
      let items := items.append (.cons v .nil)
      match rest with
      | .comma :: rest2 => parse_elems fuel rest2 items
      | .rbracket :: rest2 => some (.array items 0, rest2)
      | _ => none
end

/-- Embedding of `JsonParser::parse_object` (the `{` token already
consumed). -/
def parse_object (fuel : ℕ) (ts : List JsonToken) : Option (Value × List JsonToken) :=
  match ts with
  | .rbrace :: rest => some (.map .nil [] 0, rest)
  | _ => parse_members fuel ts .nil []

/-- Embedding of `JsonParser::parse_array` (the `[` token already
consumed). -/
def parse_array (fuel : ℕ) (ts : List JsonToken) : Option (Value × List JsonToken) :=
  match ts with
  | .rbracket :: rest => some (.array .nil 0, rest)
  | _ => parse_elems fuel ts .nil

/-- Embedding of `json_parse_val`: lex the whole input, then parse one
value (any trailing tokens are ignored, as in the source). -/
def json_parse_val : Value → Option Value
  | .str s =>
    match tokenize (s.length + 1) s with
    | none => none
    | some toks =>
      match parse_value (toks.length + 1) toks with
      | some (v, _) => some v
      | none => none
  | _ => none

/-- JSON string escaping of one character (`json_serialize`'s Str arm). -/
def jsonEscapeChar (c : Char) : List Char :=
  if c = '"' then ['\\', '"']
  else if c = '\\' then ['\\', '\\']
  else if c = '\n' then ['\\', 'n']
  else if c = '\r' then ['\\', 'r']
  else if c = '\t' then ['\\', 't']
  else if c.toNat < 32 then '\\' :: 'u' :: hex4 c.toNat
  else [c]

/-- The Float arm of `json_serialize`: integral doubles below `10^15` print
as `<int>.0`, everything else through the host `Display` (note: unlike
`format_float`, no `.0` is appended to the `Display` output). -/
def json_serialize_float (f : F64) : List Char :=
  match f with
  | .finite m e =>
    if dyadicIsInt m e ∧ ratCompare (dyadicNum m.natAbs e) (dyadicDen e) ((10 : ℤ) ^ 15) 1 = .lt then
      intChars (f64ToI64 (.finite m e)) ++ ['.', '0']
    else displayF64 (.finite m e)
  | f => displayF64 f

mutual
/-- Embedding of `json_serialize` (the serializer): `indent = none` is the
compact mode, `indent = some w` pretty-prints with width `w`. -/
def json_serialize : Value → Option ℕ → ℕ → List Char
  | .none, _, _ => ['n', 'u', 'l', 'l']
  | .bool b, _, _ => if b then ['t', 'r', 'u', 'e'] else ['f', 'a', 'l', 's', 'e']
  | .int n, _, _ => intChars n
  | .float f, _, _ => json_serialize_float f
  | .str s, _, _ => '"' :: (s.map jsonEscapeChar).flatten ++ ['"']
  | .array items _, indent, depth =>
    match items with
    | .nil => ['[', ']']
    | _ =>
      match indent with
      | some ind =>
        let inner := List.replicate (ind * (depth + 1)) ' '
        let outer := List.replicate (ind * depth) ' '
        let parts := (json_serialize_list items (some ind) (depth + 1)).map (inner ++ ·)
        '[' :: '\n' :: List.intercalate [',', '\n'] parts ++ '\n' :: outer ++ [']']
      | none =>
        '[' :: List.intercalate [',', ' '] (json_serialize_list items none depth) ++ [']']
  | .map entries _ _, indent, depth =>
    match entries with
    | .nil => [Char.ofNat 123, Char.ofNat 125]
    | _ =>
      match indent with
      | some ind =>
        let inner := List.replicate (ind * (depth + 1)) ' '
        let outer := List.replicate (ind * depth) ' '
        let parts := (json_serialize_pairs entries (some ind) (depth + 1)).map (inner ++ ·)
        Char.ofNat 123 :: '\n' :: List.intercalate [',', '\n'] parts ++
          '\n' :: outer ++ [Char.ofNat 125]
      | none =>
        Char.ofNat 123 :: List.intercalate [',', ' '] (json_serialize_pairs entries none depth) ++
          [Char.ofNat 125]
  | .tuple items, _, _ =>
    '"' :: ((format_value (.tuple items)).map jsonEscapeChar).flatten ++ ['"']
  | .set items idx addr, _, _ =>
    '"' :: ((format_value (.set items idx addr)).map jsonEscapeChar).flatten ++ ['"']
  | .record entries idx addr, _, _ =>
    '"' :: ((format_value (.record entries idx addr)).map jsonEscapeChar).flatten ++ ['"']
  | .deque items addr, _, _ =>
    '"' :: ((format_value (.deque items addr)).map jsonEscapeChar).flatten ++ ['"']
  | .heap entries c addr, _, _ =>
    '"' :: ((format_value (.heap entries c addr)).map jsonEscapeChar).flatten ++ ['"']
/-- Serializations of the members of a `VList`. -/
def json_serialize_list : VList → Option ℕ → ℕ → List (List Char)
  | .nil, _, _ => []
  | .cons v tl, indent, depth =>
      json_serialize v indent depth :: json_serialize_list tl indent depth
/-- `"k: v"` serializations of the entries of a `VPairs`. -/
def json_serialize_pairs : VPairs → Option ℕ → ℕ → List (List Char)
  | .nil, _, _ => []
  | .cons k v tl, indent, depth =>
      (json_serialize k indent depth ++ ':' :: ' ' :: json_serialize v indent depth) ::
        json_serialize_pairs tl indent depth
end

/-- Embedding of `json_stringify_val`. -/
def json_stringify_val (v pretty : Value) : Value :=
  .str (json_serialize v (if is_truthy pretty then some 2 else none) 0)

/-! ## Regex engine -/

/-- The instruction set of the NFA regex compiler. -/
inductive RxInst where
  | lit (c : Char)
  | litCI (lo hi : Char)
  | dot
  | anchorStart
  | anchorEnd
  | cls (ranges : List (Char × Char)) (neg : Bool)
  | split (a b : ℕ)
  | jump (t : ℕ)
  | accept
deriving Repr, DecidableEq

/-- Embedding of `rx_parse_class` (the `[` already consumed): returns the
ranges, the negation flag and the remaining pattern after the closing `]`.
The fuel only needs to exceed the remaining pattern length. -/
def rx_parse_class_go : ℕ → List Char → List (Char × Char) → List (Char × Char) × List Char
  | 0, cs, acc => (acc, cs)
  | fuel + 1, cs, acc =>
    match cs with
    | [] => (acc, [])
    | ']' :: rest => (acc, rest)
    | ch :: rest =>
      -- compute the range start (escapes handled first), then look for `-`
      let esc : Option (Option Char × List Char) :=
        if ch = '\\' then
          match rest with
          | e :: rest2 =>
            if e = 'd' then some (none, rest2)  -- pushes ('0','9') directly
            else if e = 'w' then some (none, rest2)
            else if e = 's' then some (none, rest2)
            else some (some e, rest2)
          | [] => some (some ch, rest)  -- `\\` at end: start is `\\` itself
        else some (some ch, rest)
      match esc with
      | some (none, rest2) =>
        let ranges :=
          match rest with
        | 'd' :: _ => [('0', '9')]
          | 'w' :: _ => [('a', 'z'), ('A', 'Z'), ('0', '9'), ('_', '_')]
          | _ => [(' ', ' '), ('\t', '\t'), ('\n', '\n'), ('\r', '\r')]
        rx_parse_class_go fuel rest2 (acc ++ ranges)
      | some (some start, rest2) =>
        match rest2 with
        | '-' :: e :: rest3 =>
          if e ≠ ']' then rx_parse_class_go fuel rest3 (acc ++ [(start, e)])
          else rx_parse_class_go fuel rest2 (acc ++ [(start, start)])
        | _ => rx_parse_class_go fuel rest2 (acc ++ [(start, start)])
      | none => (acc, cs)

/-- Embedding of `rx_parse_class` including the leading `^` negation. -/
def rx_parse_class (cs : List Char) : (List (Char × Char) × Bool) × List Char :=
  match cs with
  | '^' :: rest =>
    let r := rx_parse_class_go (rest.length + 1) rest []
    ((r.1, true), r.2)
  | _ =>
    let r := rx_parse_class_go (cs.length + 1) cs []
    ((r.1, false), r.2)

/-- Embedding of `rx_apply_quant`: append `sub` to `target`, wrapped by the
quantifier found at the head of the remaining pattern (if any).  Split and
Jump targets are produced exactly as the source computes them — including
the fact that `*`'s Split targets `1` and `blen + 2` are only correct when
`target` was empty. -/
def rx_apply_quant (cs : List Char) (sub target : List RxInst) :
    List RxInst × List Char :=
  let blen := sub.length
  match cs with
  | '*' :: rest =>
    let gr : Bool × List Char :=
      match rest with
      | '?' :: rest2 => (false, rest2)
      | _ => (true, rest)
    let split : RxInst := if gr.1 then .split 1 (blen + 2) else .split (blen + 2) 1
    let t1 := target ++ [split] ++ sub
    let jt := t1.length - blen - 1
    (t1 ++ [.jump jt], gr.2)
  | '+' :: rest =>
    let gr : Bool × List Char :=
      match rest with
      | '?' :: rest2 => (false, rest2)
      | _ => (true, rest)
    let start := target.length
    let t1 := target ++ sub
    let split : RxInst := if gr.1 then .split start (t1.length + 1) else .split (t1.length + 1) start
    (t1 ++ [split], gr.2)
  | '?' :: rest =>
    let gr : Bool × List Char :=
      match rest with
      | '?' :: rest2 => (false, rest2)
      | _ => (true, rest)
    let spos := target.length
    let bstart := spos + 1
    let after := spos + 1 + blen
    let split : RxInst := if gr.1 then .split bstart after else .split after bstart
    (target ++ [split] ++ sub, gr.2)
  | _ => (target ++ sub, cs)

/-- Embedding of `rx_build_alt`: chain the alternatives with Split/Jump
(the targets are as the source computes them, correct only for the first
branch of a top-level alternation). -/
def rx_build_alt : List (List RxInst) → List RxInst
  | [] => []
  | [b] => b
  | b :: rest =>
    let remaining := rx_build_alt rest
    let blen := b.length
    let right := 1 + blen + 1
    .split 1 right :: b ++ [.jump (right + remaining.length)] ++ remaining

/-- The case-insensitive literal instruction for `c` (`LitCI` with the
simple lower/upper case pair) or a plain literal. -/
def rx_lit_inst (ci : Bool) (c : Char) : RxInst :=
  if ci ∧ c.isAlpha then .litCI c.toLower c.toUpper else .lit c

/-- Embedding of `rx_compile_inner`: compile until the end of the pattern
(or an unconsumed `)` when inside a group), returning the instructions and
the remaining pattern.  The accumulator `alts` holds the completed
alternation branches, `cur` the branch being built.  `fuel` bounds the
number of steps; `2 * length + 4` always suffices because every recursive
call either consumes a character or descends past a `(`. -/
def rx_compile_inner : ℕ → List Char → Bool → Bool → List (List RxInst) →
    List RxInst → List RxInst × List Char
  | 0, cs, _, _, alts, cur => (rx_build_alt (alts ++ [cur]), cs)
  | fuel + 1, cs, ci, in_group, alts, cur =>
    match cs with
    | [] => (rx_build_alt (alts ++ [cur]), [])
    | ')' :: rest =>
      if in_group then (rx_build_alt (alts ++ [cur]), ')' :: rest)
      else
        let r := rx_apply_quant rest [rx_lit_inst ci ')'] cur
        rx_compile_inner fuel r.2 ci in_group alts r.1
    | '|' :: rest => rx_compile_inner fuel rest ci in_group (alts ++ [cur]) []
    | '(' :: rest =>
      let inner := rx_compile_inner fuel rest ci true [] []
      let rest2 :=
        match inner.2 with
        | ')' :: r2 => r2
        | r2 => r2
      let r := rx_apply_quant rest2 inner.1 cur
      rx_compile_inner fuel r.2 ci in_group alts r.1
    | '[' :: rest =>
      let pc := rx_parse_class rest
      let r := rx_apply_quant pc.2 [.cls pc.1.1 pc.1.2] cur
      rx_compile_inner fuel r.2 ci in_group alts r.1
    | '.' :: rest =>
      let r := rx_apply_quant rest [.dot] cur
      rx_compile_inner fuel r.2 ci in_group alts r.1
    | '^' :: rest => rx_compile_inner fuel rest ci in_group alts (cur ++ [.anchorStart])
    | '$' :: rest => rx_compile_inner fuel rest ci in_group alts (cur ++ [.anchorEnd])
    | '\\' :: rest =>
      match rest with
      | [] => (rx_build_alt (alts ++ [cur]), [])  -- trailing backslash panics; modelled as stop
      | e :: rest2 =>
        let sub : List RxInst :=
          if e = 'd' then [.cls [('0', '9')] false]
          else if e = 'D' then [.cls [('0', '9')] true]
          else if e = 'w' then [.cls [('a', 'z'), ('A', 'Z'), ('0', '9'), ('_', '_')] false]
          else if e = 'W' then [.cls [('a', 'z'), ('A', 'Z'), ('0', '9'), ('_', '_')] true]
          else if e = 's' then [.cls [(' ', ' '), ('\t', '\t'), ('\n', '\n'), ('\r', '\r')] false]
          else if e = 'S' then [.cls [(' ', ' '), ('\t', '\t'), ('\n', '\n'), ('\r', '\r')] true]
          else [rx_lit_inst ci e]
        let r := rx_apply_quant rest2 sub cur
        rx_compile_inner fuel r.2 ci in_group alts r.1
    | c :: rest =>
      let r := rx_apply_quant rest [rx_lit_inst ci c] cur
      rx_compile_inner fuel r.2 ci in_group alts r.1

/-- Embedding of `rx_compile`: compile the pattern and append `Match`. -/
def rx_compile (pattern : List Char) (ci : Bool) : List RxInst :=
  (rx_compile_inner (2 * pattern.length + 4) pattern ci false [] []).1 ++ [.accept]

/-- Class membership test of the executor: fold the scrutinised character
(and, in case-insensitive mode, the range bounds) to lower case and test
the ranges, honouring negation. -/
def rx_class_test (ranges : List (Char × Char)) (neg : Bool) (ci : Bool) (c : Char) : Bool :=
  let c := if ci then c.toLower else c
  let inClass := ranges.any (fun r =>
    let lo := if ci then r.1.toLower else r.1
    let hi := if ci then r.2.toLower else r.2
    lo ≤ c ∧ c ≤ hi)
  inClass ≠ neg

/-- Embedding of `rx_add_thread`: epsilon-closure insertion of a program
counter into a thread list.  The source recurses without bounding epsilon
cycles (a malformed program with a Split/Jump cycle overflows the Rust
stack); `fuel` cuts such cycles off, and `insts.length + 1` makes the model
exact for every acyclic closure. -/
def rx_add_thread (insts : List RxInst) (pos : ℕ) : ℕ → List ℕ → ℕ → List ℕ
  | 0, threads, _ => threads
  | fuel + 1, threads, pc =>
    if h : pc < insts.length then
      if threads.contains pc then threads
      else
        match insts[pc] with
        | .split a b =>
          rx_add_thread insts pos fuel (rx_add_thread insts pos fuel threads a) b
        | .jump t => rx_add_thread insts pos fuel threads t
        | .anchorStart =>
          if pos = 0 then rx_add_thread insts pos fuel threads (pc + 1) else threads
        | _ => threads ++ [pc]
    else threads

/-- One step of the BFS executor: process every thread of `cur` at input
position `p`, producing the next thread list and the updated best match
end.  `AnchorEnd` collects deferred additions into `cur` exactly as the
source does; the source then immediately clears `cur`, so the additions are
discarded — the model reproduces that by dropping them. -/
def rx_step (insts : List RxInst) (input : List Char) (ci : Bool) (p : ℕ) :
    List ℕ → List ℕ × Option ℕ → List ℕ × Option ℕ
  | [], st => st
  | pc :: tl, (nxt, best) =>
    let st : List ℕ × Option ℕ :=
      if h : pc < insts.length then
        match insts[pc] with
        | .accept =>
          (nxt, if best.isNone ∨ (∃ b, best = some b ∧ p > b) then some p else best)
        | .lit c =>
          if hp : p < input.length then
            if input[p] = c then
              (rx_add_thread insts (p + 1) (insts.length + 1) nxt (pc + 1), best)
            else (nxt, best)
          else (nxt, best)
        | .litCI lo hi =>
          if hp : p < input.length then
            if input[p] = lo ∨ input[p] = hi then
              (rx_add_thread insts (p + 1) (insts.length + 1) nxt (pc + 1), best)
            else (nxt, best)
          else (nxt, best)
        | .dot =>
          if hp : p < input.length then
            if input[p] ≠ '\n' then
              (rx_add_thread insts (p + 1) (insts.length + 1) nxt (pc + 1), best)
            else (nxt, best)
          else (nxt, best)
        | .cls ranges neg =>
          if hp : p < input.length then
            if rx_class_test ranges neg ci (input[p]) then
              (rx_add_thread insts (p + 1) (insts.length + 1) nxt (pc + 1), best)
            else (nxt, best)
          else (nxt, best)
        | _ => (nxt, best)
      else (nxt, best)
    rx_step insts input ci p tl st

/-- The position loop of `rx_match_at`: runs until the thread list is empty
or the position passes `input.len() + 1`. -/
def rx_match_loop (insts : List RxInst) (input : List Char) (ci : Bool) :
    ℕ → List ℕ → ℕ → Option ℕ → Option ℕ
  | 0, _, _, best => best
  | fuel + 1, cur, p, best =>
    if cur = [] then best
    else
      let st := rx_step insts input ci p cur ([], best)
      let p' := p + 1
      if p' > input.length + 1 then st.2
      else rx_match_loop insts input ci fuel st.1 p' st.2

/-- Embedding of `rx_match_at`: longest match end at `start`, if any. -/
def rx_match_at (insts : List RxInst) (input : List Char) (start : ℕ) (ci : Bool) :
    Option ℕ :=
  let cur := rx_add_thread insts start (insts.length + 1) [] 0
  rx_match_loop insts input ci (input.length + 2) cur start none

/-- Embedding of `rx_search`: try every starting offset. -/
def rx_search (insts : List RxInst) (input : List Char) (ci : Bool) : Bool :=
  (List.range (input.length + 1)).any (fun s => (rx_match_at insts input s ci).isSome)

/-- Embedding of the scan loop of `rx_find_all`: collect non-empty matches
left to right, advancing one position past zero-width or failed match
attempts.  The slice `chars[p..end]` panics in Rust when `end` exceeds the
input length, so that case is `none`. -/
def rx_find_all_go (insts : List RxInst) (input : List Char) (ci : Bool) :
    ℕ → ℕ → Option (List (List Char))
  | 0, _ => some []
  | fuel + 1, p =>
    if p > input.length then some []
    else
      match rx_match_at insts input p ci with
      | some e =>
        if e > p then
          if e ≤ input.length then
            (rx_find_all_go insts input ci fuel e).map
              (((input.drop p).take (e - p)) :: ·)
          else none
        else rx_find_all_go insts input ci fuel (p + 1)
      | none => rx_find_all_go insts input ci fuel (p + 1)

/-- Embedding of `rx_find_all`. -/
def rx_find_all (insts : List RxInst) (input : List Char) (ci : Bool) :
    Option (List (List Char)) :=
  rx_find_all_go insts input ci (input.length + 2) 0

/-- Embedding of `rx_get_flags`: a `"i"` in the flags string. -/
def rx_get_flags : Value → Bool
  | .str f => f.contains 'i'
  | _ => false

/-- Embedding of `regex_find_all_val`: compile the pattern and collect all
matches into a fresh Array of Str values; panics (`none`) when the string
or pattern is not a Str, or when the scan panics. -/
def regex_find_all_val (string pattern flags : Value) : Option Value :=
  match string, pattern with
  | .str s, .str p =>
    let ci := rx_get_flags flags
    let insts := rx_compile p ci
    match rx_find_all insts s ci with
    | some ms => some (.array (VList.ofList (ms.map .str)) 0)
    | none => none
  | _, _ => none

/-! ## Claim-support definitions

The definitions below are not part of the runtime embedding: they are the
apparatus the claims are stated and proved with (restriction predicates,
a read-back parser for the key serialization, and the token image of the
JSON serializer). -/

mutual
/-- The float-free hashable fragment: None, Bool, Int, Str and Tuples of
such.  (Claim C2's fragment also contains Float; the counterexamples show
the claim fails on floats and across types, and the amended claim is about
this fragment.) -/
def hashable_scalar : Value → Bool
  | .none => true
  | .bool _ => true
  | .int _ => true
  | .str _ => true
  | .tuple items => hashable_scalar_list items
  | _ => false
/-- All members of a `VList` lie in the float-free hashable fragment. -/
def hashable_scalar_list : VList → Bool
  | .nil => true
  | .cons v tl => hashable_scalar v && hashable_scalar_list tl
end

/-- Read a decimal natural number prefix (at least one digit). -/
def readNatPrefix (cs : List Char) : Option (ℕ × List Char) :=
  let ds := cs.takeWhile isDigit10
  if ds = [] then none else some (charsToNat ds, cs.dropWhile isDigit10)

/-- Take a prefix of exactly `n` UTF-8 bytes (the string payload of a
length-framed `S` key). -/
def takeUtf8 : ℕ → List Char → Option (List Char × List Char)
  | 0, cs => some ([], cs)
  | _ + 1, [] => none
  | n + 1, c :: cs =>
    if c.utf8Size ≤ n + 1 then
      (takeUtf8 (n + 1 - c.utf8Size) cs).map (fun r => (c :: r.1, r.2))
    else none

mutual
/-- Read-back parser for `serialize_value` restricted to the float-free
hashable fragment: a left inverse of the serialization, used to prove the
serialization injective.  `fuel` bounds the recursion; any fuel above the
input length is enough. -/
def readValue : ℕ → List Char → Option (Value × List Char)
  | 0, _ => none
  | fuel + 1, cs =>
    match cs with
    | 'N' :: r => some (.none, r)
    | 'B' :: '1' :: r => some (.bool true, r)
    | 'B' :: '0' :: r => some (.bool false, r)
    | 'I' :: r =>
      (match r with
       | [] => none
       | c :: r2 =>
         if c = '-' then (readNatPrefix r2).map (fun p => (.int (-(p.1 : ℤ)), p.2))
         else (readNatPrefix (c :: r2)).map (fun p => (.int (p.1 : ℤ), p.2)))
    | 'S' :: r =>
      (match readNatPrefix r with
       | some (len, ':' :: r2) => (takeUtf8 len r2).map (fun p => (.str p.1, p.2))
       | _ => none)
    | 'T' :: '(' :: r =>
      (match r with
       | [] => readElems fuel [] .nil
       | c :: r2 =>
         if c = ')' then some (.tuple .nil, r2)
         else readElems fuel (c :: r2) .nil)
    | _ => none
/-- Element loop of `readValue` for tuple bodies. -/
def readElems : ℕ → List Char → VList → Option (Value × List Char)
  | 0, _, _ => none
  | fuel + 1, cs, acc =>
    match readValue fuel cs with
    | some (v, ',' :: r2) => readElems fuel r2 (acc.append (.cons v .nil))
    | some (v, ')' :: r2) => some (.tuple (acc.append (.cons v .nil)), r2)
    | _ => none
end

/-- No duplicates in a list of strings (the key-distinctness condition of
the amended round-trip claim). -/
def distinctStrs : List (List Char) → Bool
  | [] => true
  | s :: tl => !tl.contains s && distinctStrs tl

mutual
/-- The value fragment for which the amended JSON round-trip claim C5 is
proved: None, Bool, in-range Ints, finite Floats that are either integral
of magnitude below `10^15` (the floats the serializer prints as `<int>.0`)
or non-integral and given as an IEEE double (mantissa magnitude below
`2^53`, exponent at least `-1074`; these print through the host `Display`),
Strs, Arrays of such, and Maps whose keys are pairwise distinct Strs. -/
def jsonRT : Value → Bool
  | .none => true
  | .bool _ => true
  | .int n => decide (-i64Bound ≤ n) && decide (n ≤ i64Bound - 1)
  | .float f =>
    (match f with
     | .finite m e =>
       (dyadicIsInt m e &&
         (ratCompare (dyadicNum m.natAbs e) (dyadicDen e) ((10 : ℤ) ^ 15) 1 = .lt)) ||
       (!dyadicIsInt m e && (decide (m.natAbs < 2 ^ 53) && decide (-1074 ≤ e)))
     | _ => false)
  | .str _ => true
  | .array items _ => jsonRT_list items
  | .map entries _ _ => jsonRT_pairs entries && distinctStrs (jsonKeyStrs entries)
  | _ => false
/-- `jsonRT` for all members of a `VList`. -/
def jsonRT_list : VList → Bool
  | .nil => true
  | .cons v tl => jsonRT v && jsonRT_list tl
/-- Keys are Strs and values satisfy `jsonRT`. -/
def jsonRT_pairs : VPairs → Bool
  | .nil => true
  | .cons k v tl =>
    (match k with
     | .str _ => true
     | _ => false) && jsonRT v && jsonRT_pairs tl
/-- The raw key strings of a `VPairs` (non-Str keys contribute nothing;
`jsonRT_pairs` rules them out). -/
def jsonKeyStrs : VPairs → List (List Char)
  | .nil => []
  | .cons k _ tl =>
    (match k with
     | .str s => [s]
     | _ => []) ++ jsonKeyStrs tl
end

mutual
/-- The token image of the compact JSON serialization of a value: the
list of tokens its output lexes to (proved as `tokenize_serialize` for the
`jsonRT` fragment). -/
def jtokens : Value → List JsonToken
  | .none => [.nul]
  | .bool b => if b then [.tru] else [.fls]
  | .int n => [.numberVal (intChars n)]
  | .float f => [.numberVal (json_serialize_float f)]
  | .str s => [.stringVal s]
  | .array items _ =>
    (match items with
     | .nil => [.lbracket, .rbracket]
     | _ => .lbracket :: List.intercalate [.comma] (jtokens_list items) ++ [.rbracket])
  | .map entries _ _ =>
    (match entries with
     | .nil => [.lbrace, .rbrace]
     | _ => .lbrace :: List.intercalate [.comma] (jtokens_pairs entries) ++ [.rbrace])
  | v => [.stringVal (format_value v)]
/-- Token images of the members of a `VList`. -/
def jtokens_list : VList → List (List JsonToken)
  | .nil => []
  | .cons v tl => jtokens v :: jtokens_list tl
/-- Token images (`"k" : v`) of the entries of a `VPairs`. -/
def jtokens_pairs : VPairs → List (List JsonToken)
  | .nil => []
  | .cons k v tl =>
    (.stringVal (match k with | .str s => s | _ => format_value k) :: .colon :: jtokens v) ::
      jtokens_pairs tl
end

/-- The entries a sequence of pushes `(p_i, v_i)` creates, starting at
counter `c`: entry `i` carries counter `c + i`. -/
def pushedEntries : ℕ → List (F64 × Value) → List HeapEntryT
  | _, [] => []
  | c, (p, v) :: tl => (p, c, v) :: pushedEntries (c + 1) tl

/-- The exact rational value of a finite double (`0` for the special
values); proof-side valuation used to transfer ordering facts to `ℚ`. -/
def f64QVal : F64 → ℚ
  | .finite m e => (m : ℚ) * 2 ^ e
  | _ => 0

/-- Order key of a non-NaN double in `WithBot (WithTop ℚ)`: `-∞` at the
bottom, finite values in the middle, `+∞` at the top (NaN, excluded by
every use, is sent to the bottom). -/
def f64EKey : F64 → WithBot (WithTop ℚ)
  | .finite m e => ((((m : ℚ) * 2 ^ e : ℚ) : WithTop ℚ) : WithBot (WithTop ℚ))
  | .inf => ((⊤ : WithTop ℚ) : WithBot (WithTop ℚ))
  | .neginf => ⊥
  | .nan => ⊥

mutual
/-- Structural size of a value, decreasing into array and map members; the
measure that the tokenizer round-trip induction is carried on. -/
def vsize : Value → ℕ
  | .array items _ => vsizeL items + 1
  | .map entries _ _ => vsizeP entries + 1
  | _ => 1
/-- Size of a `VList`. -/
def vsizeL : VList → ℕ
  | .nil => 1
  | .cons v tl => vsize v + vsizeL tl + 1
/-- Size of a `VPairs`. -/
def vsizeP : VPairs → ℕ
  | .nil => 1
  | .cons _ v tl => vsize v + vsizeP tl + 1
end

/-- Append two `VPairs`. -/
def vpairsApp : VPairs → VPairs → VPairs
  | .nil, ys => ys
  | .cons k v tl, ys => .cons k v (vpairsApp tl ys)

/-! # Theorems

First the general-purpose lemmas, then, claim by claim, the theorems named
in the verification results. -/

theorem pow2_eq (k : ℕ) : pow2 k = 2 ^ k := by
  simp [pow2, Nat.shiftLeft_eq]

/-- C1: for every Int `a` and nonzero Int `b` the claim asserts
`floor_divide(a,b) * b + modulo(a,b) = a` and `sign(modulo(a,b)) =
sign(b)` when the remainder is nonzero.  The code violates both at
`a = 7`, `b = -3`: `op_floor_divide` returns `-3` and `op_modulo` (which
uses `rem_euclid`, contradicting its own comment "result has same sign as
divisor") returns `1`, so `(-3) * (-3) + 1 = 10 ≠ 7` and the remainder is
positive while the divisor is negative. -/
theorem c1_floor_modulo_identity_violated :
    op_floor_divide 7 (-3) = some (-3) ∧ op_modulo 7 (-3) = some 1 ∧
    (-3 : ℤ) * (-3) + 1 ≠ 7 ∧ Int.sign 1 ≠ Int.sign (-3) := by
  exact ⟨by decide, by decide, by decide, by decide⟩

/-- C3: the claim asserts `floor_divide(a,b)` equals the exact mathematical
floor of `a / b` over the whole 64-bit signed range.  The code computes
through `f64`, which is lossy beyond `2^53`: at `a = 2^53 + 1`, `b = 1` the
conversion `a as f64` rounds to `2^53` (ties to even), so the code returns
`9007199254740992` while the exact floor is `9007199254740993`. -/
theorem c3_floor_divide_not_exact_beyond_2_53 :
    op_floor_divide 9007199254740993 1 = some 9007199254740992 ∧
    Int.fdiv 9007199254740993 1 = 9007199254740993 ∧
    (9007199254740992 : ℤ) ≠ 9007199254740993 := by
  exact ⟨by decide, by decide, by decide⟩

/-- C4: the claim asserts `values_equal(a, a)` for every NaN-free value of
all twelve variants, including Record, Deque and Heap.  The source's final
`_ => false` catch-all covers the Record/Record, Deque/Deque and Heap/Heap
cases, so reflexivity fails for those three variants even on empty,
NaN-free containers. -/
theorem c4_values_equal_not_reflexive_on_record_deque_heap :
    values_equal (.record .nil [] 0) (.record .nil [] 0) = false ∧
    values_equal (.deque .nil 0) (.deque .nil 0) = false ∧
    values_equal (.heap .nil 0 0) (.heap .nil 0 0) = false := by
  exact ⟨rfl, rfl, rfl⟩

/-- C9: removing an absent element from a set is a silent no-op — when the
serialization of `x` is not in the set's index, `set_remove` succeeds and
returns the set with items and index unchanged. -/
theorem c9_set_remove_absent_is_noop (items : VList) (idx : List (List Char))
    (addr : ℕ) (x : Value) (h : idx.contains (serialize_value x) = false) :
    set_remove (.set items idx addr) x = some (.set items idx addr) := by
  have h' : serialize_value x ∉ idx := by simpa using h
  simp [set_remove, osRemove, h']

/-- Witness for C9 at a concrete set and element. -/
theorem c9_set_remove_absent_is_noop_witness :
    set_remove (.set (.cons (.int 1) .nil) [['I', '1']] 7) (.int 2) =
      some (.set (.cons (.int 1) .nil) [['I', '1']] 7) :=
  c9_set_remove_absent_is_noop (.cons (.int 1) .nil) [['I', '1']] 7 (.int 2) (by decide)

/-- C8 counterexample: the claim asserts `to_int` on every Float truncates
toward zero.  At `f = 2^64` (an exactly representable double) truncation
toward zero is `2^64`, but the `as i64` cast saturates, so both conversion
paths return `2^63 - 1` instead. -/
theorem c8_to_int_saturates_out_of_range :
    value_to_int (.float (.finite 1 64)) = some (.int 9223372036854775807) ∧
    as_int (.float (.finite 1 64)) = some 9223372036854775807 ∧
    dyadicTrunc 1 64 = 18446744073709551616 ∧
    (9223372036854775807 : ℤ) ≠ 18446744073709551616 := by
  exact ⟨rfl, rfl, by decide, by decide⟩

/-- C8 (amended): on every finite Float whose truncation toward zero lies
in the `i64` range, both the strict `value_to_int` path and the legacy
`as_int` path return exactly that truncation. -/
theorem c8_to_int_truncates_toward_zero (m e : ℤ)
    (h1 : -i64Bound ≤ dyadicTrunc m e) (h2 : dyadicTrunc m e ≤ i64Bound - 1) :
    value_to_int (.float (.finite m e)) = some (.int (dyadicTrunc m e)) ∧
    as_int (.float (.finite m e)) = some (dyadicTrunc m e) := by
  have hsat : i64Sat (dyadicTrunc m e) = dyadicTrunc m e := by
    unfold i64Sat
    rw [if_neg (by omega), if_neg (by omega)]
  exact ⟨by simp [value_to_int, f64ToI64, hsat], by simp [as_int, f64ToI64, hsat]⟩

/-- Witness for C8 (amended) at `f = 3.5 = 7 * 2^(-1)`: truncation toward
zero gives `3` on both paths. -/
theorem c8_to_int_truncates_toward_zero_witness :
    value_to_int (.float (.finite 7 (-1))) = some (.int 3) ∧
    as_int (.float (.finite 7 (-1))) = some 3 :=
  c8_to_int_truncates_toward_zero 7 (-1) (by decide) (by decide)

/-- C7 counterexample: the claim asserts that a string literal containing a
backslash escape outside the supported set makes parsing fail.  At the
four-character input `"\x"` the parser instead succeeds and returns the
string `x`: the lexer's catch-all escape arm is `c => s.push(c)`. -/
theorem c7_unknown_escape_parses :
    json_parse_val (.str ['"', '\\', 'x', '"']) = some (.str ['x']) := rfl

/-- C7 (amended): for every character `c` outside the supported escape set
(`"`, `\`, `/`, `b`, `f`, `n`, `r`, `t`, `u`), the input `"\c"` parses
successfully to the one-character string `c` — the unknown escape is taken
literally rather than rejected. -/
theorem c7_unknown_escape_taken_literally (c : Char)
    (h : c ∉ (['"', '\\', '/', 'b', 'f', 'n', 'r', 't', 'u'] : List Char)) :
    json_parse_val (.str ['"', '\\', c, '"']) = some (.str [c]) := by
  simp only [List.mem_cons, not_or] at h
  obtain ⟨h1, h2, h3, h4, h5, h6, h7, h8, h9, -⟩ := h
  have hlex : lex_string 4 ['\\', c, '"'] = some ([c], []) := by
    simp [lex_string, h9, h1, h2, h3, h4, h5, h6, h7, h8]
  have e1 : tokenize 5 ['"', '\\', c, '"']
      = match lex_string 4 ['\\', c, '"'] with
        | none => none
        | some (s, rest2) => (tokenize 4 rest2).map (.stringVal s :: ·) := rfl
  have htok : tokenize 5 ['"', '\\', c, '"'] = some [.stringVal [c]] := by
    rw [e1, hlex]; rfl
  have e2 : json_parse_val (.str ['"', '\\', c, '"'])
      = match tokenize 5 ['"', '\\', c, '"'] with
        | none => none
        | some toks =>
          match parse_value (toks.length + 1) toks with
          | some (v, _) => some v
          | none => none := rfl
  rw [e2, htok]; rfl

/-- Witness for the amended C7 at `c = 'x'`. -/
theorem c7_unknown_escape_taken_literally_witness :
    json_parse_val (.str ['"', '\\', 'x', '"']) = some (.str ['x']) ∧
    ('x' : Char) ∉ (['"', '\\', '/', 'b', 'f', 'n', 'r', 't', 'u'] : List Char) :=
  ⟨c7_unknown_escape_taken_literally 'x' (by decide), by decide⟩

/-- The scan loop of `rx_find_all` only records slices `chars[p..end]` with
`p < end ≤ length`, which are never empty. -/
theorem rx_find_all_go_no_empty (insts : List RxInst) (input : List Char) (ci : Bool) :
    ∀ fuel p ms, rx_find_all_go insts input ci fuel p = some ms →
      ∀ m ∈ ms, m ≠ [] := by
  intro fuel
  induction fuel with
  | zero =>
    intro p ms h m hm
    simp only [rx_find_all_go] at h
    cases h
    simp at hm
  | succ fuel ih =>
    intro p ms h m hm
    simp only [rx_find_all_go] at h
    split at h
    · cases h
      simp at hm
    · rename_i hp
      split at h
      · rename_i e hmatch
        split at h
        · rename_i he
          split at h
          · rename_i hle
            cases hrec : rx_find_all_go insts input ci fuel e with
            | none => rw [hrec] at h; cases h
            | some ms' =>
              rw [hrec] at h
              simp only [Option.map_some'] at h
              cases h
              rcases List.mem_cons.mp hm with hm1 | hm2
              · subst hm1
                intro hcon
                have hlen := congrArg List.length hcon
                simp [List.length_take, List.length_drop] at hlen
                omega
              · exact ih e ms' hrec m hm2
          · cases h
        · exact ih (p + 1) ms h m hm
      · exact ih (p + 1) ms h m hm

/-- C10: `regex_find_all` never returns an empty string — whenever
`regex_find_all_val` returns an array, every element is a non-empty Str,
because the scan loop only records matches of at least one code point and
advances past zero-width matches without recording them. -/
theorem c10_regex_find_all_no_empty_strings (s p : List Char) (flags out : Value)
    (h : regex_find_all_val (.str s) (.str p) flags = some out) :
    ∃ ms : List (List Char),
      out = .array (VList.ofList (ms.map Value.str)) 0 ∧ ∀ m ∈ ms, m ≠ [] := by
  simp only [regex_find_all_val] at h
  cases hfa : rx_find_all (rx_compile p (rx_get_flags flags)) s (rx_get_flags flags) with
  | none => rw [hfa] at h; cases h
  | some ms =>
    rw [hfa] at h
    cases h
    exact ⟨ms, rfl, rx_find_all_go_no_empty _ _ _ _ _ _ hfa⟩

/-- Witness for C10 at the specification's seed scenario
`find_all("a12b34c", "\d+", "")`, whose two matches are `"12"` and
`"34"`. -/
theorem c10_regex_find_all_no_empty_strings_witness :
    ∃ ms : List (List Char),
      (.array (VList.ofList ([['1', '2'], ['3', '4']].map Value.str)) 0 : Value) =
        .array (VList.ofList (ms.map Value.str)) 0 ∧ ∀ m ∈ ms, m ≠ [] :=
  c10_regex_find_all_no_empty_strings "a12b34c".toList ['\\', 'd', '+'] (.str [])
    (.array (VList.ofList ([['1', '2'], ['3', '4']].map Value.str)) 0) rfl

theorem dyadicDen_pos (e : ℤ) : 0 < dyadicDen e := by
  unfold dyadicDen
  split
  · norm_num
  · rw [pow2_eq]; positivity

theorem dyadic_qval (m e : ℤ) :
    ((dyadicNum m e : ℚ)) / ((dyadicDen e : ℚ)) = (m : ℚ) * 2 ^ e := by
  unfold dyadicNum dyadicDen
  split
  · rename_i h
    have h2 : (2 : ℚ) ^ e = (2 : ℚ) ^ (e.toNat : ℕ) := by
      rw [← zpow_natCast]; congr 1; omega
    rw [h2]
    push_cast [pow2_eq]
    ring
  · rename_i h
    have h2 : (2 : ℚ) ^ e = ((2 : ℚ) ^ ((-e).toNat : ℕ))⁻¹ := by
      rw [← zpow_natCast, ← zpow_neg]; congr 1; omega
    rw [h2]
    push_cast [pow2_eq]
    rw [div_eq_mul_inv]

theorem ratCompare_eq_compare (a₁ b₁ a₂ b₂ : ℤ) (h1 : 0 < b₁) (h2 : 0 < b₂) :
    ratCompare a₁ b₁ a₂ b₂ = compare ((a₁ : ℚ) / b₁) ((a₂ : ℚ) / b₂) := by
  have hb1 : (0 : ℚ) < b₁ := by exact_mod_cast h1
  have hb2 : (0 : ℚ) < b₂ := by exact_mod_cast h2
  unfold ratCompare
  rcases lt_trichotomy ((a₁ : ℚ) / b₁) ((a₂ : ℚ) / b₂) with h | h | h
  · rw [compare_lt_iff_lt.mpr h]
    refine compare_lt_iff_lt.mpr ?_
    have := (div_lt_div_iff₀ hb1 hb2).mp h
    exact_mod_cast this
  · rw [compare_eq_iff_eq.mpr h]
    refine compare_eq_iff_eq.mpr ?_
    have := (div_eq_div_iff (by positivity) (by positivity)).mp h
    exact_mod_cast this
  · rw [compare_gt_iff_gt.mpr h]
    refine compare_gt_iff_gt.mpr ?_
    have := (div_lt_div_iff₀ hb2 hb1).mp h
    exact_mod_cast this

theorem compare_wcoe (q₁ q₂ : ℚ) :
    compare (((q₁ : WithTop ℚ) : WithBot (WithTop ℚ))) (((q₂ : WithTop ℚ) : WithBot (WithTop ℚ)))
      = compare q₁ q₂ := by
  rcases lt_trichotomy q₁ q₂ with h | h | h
  · rw [compare_lt_iff_lt.mpr h, compare_lt_iff_lt.mpr (by exact_mod_cast h)]
  · rw [compare_eq_iff_eq.mpr h, compare_eq_iff_eq.mpr (by exact_mod_cast h)]
  · rw [compare_gt_iff_gt.mpr h, compare_gt_iff_gt.mpr (by exact_mod_cast h)]

theorem f64Key_compare (x y : F64) (hx : x ≠ .nan) (hy : y ≠ .nan) :
    f64PartialCmp x y = some (compare (f64EKey x) (f64EKey y)) := by
  cases x with
  | nan => exact absurd rfl hx
  | finite m₁ e₁ =>
    cases y with
    | nan => exact absurd rfl hy
    | finite m₂ e₂ =>
      show some (ratCompare _ _ _ _) = _
      rw [ratCompare_eq_compare _ _ _ _ (dyadicDen_pos _) (dyadicDen_pos _),
        dyadic_qval, dyadic_qval]
      rw [show f64EKey (.finite m₁ e₁) = (((m₁ : ℚ) * 2 ^ e₁ : ℚ) : WithTop ℚ) from rfl,
        show f64EKey (.finite m₂ e₂) = (((m₂ : ℚ) * 2 ^ e₂ : ℚ) : WithTop ℚ) from rfl,
        compare_wcoe]
    | inf =>
      rw [compare_lt_iff_lt.mpr (WithBot.coe_lt_coe.mpr (WithTop.coe_lt_top _))]; rfl
    | neginf =>
      rw [compare_gt_iff_gt.mpr (WithBot.bot_lt_coe _)]; rfl
  | inf =>
    cases y with
    | nan => exact absurd rfl hy
    | finite m₂ e₂ =>
      rw [compare_gt_iff_gt.mpr (WithBot.coe_lt_coe.mpr (WithTop.coe_lt_top _))]; rfl
    | inf =>
      rw [compare_eq_iff_eq.mpr rfl]; rfl
    | neginf =>
      rw [compare_gt_iff_gt.mpr (WithBot.bot_lt_coe _)]; rfl
  | neginf =>
    cases y with
    | nan => exact absurd rfl hy
    | finite m₂ e₂ =>
      rw [compare_lt_iff_lt.mpr (WithBot.bot_lt_coe _)]; rfl
    | inf =>
      rw [compare_lt_iff_lt.mpr (WithBot.bot_lt_coe _)]; rfl
    | neginf =>
      rw [compare_eq_iff_eq.mpr rfl]; rfl

theorem f64Eq_iff_cmp (x y : F64) : f64Eq x y = true ↔ f64PartialCmp x y = some .eq := by
  cases x <;> cases y <;> simp [f64Eq, f64PartialCmp]

theorem f64Eq_iff_key (x y : F64) (hx : x ≠ .nan) (hy : y ≠ .nan) :
    f64Eq x y = true ↔ f64EKey x = f64EKey y := by
  rw [f64Eq_iff_cmp, f64Key_compare x y hx hy]
  simp [compare_eq_iff_eq]

theorem entryLe_iff (x y : HeapEntryT) (hx : x.1 ≠ .nan) (hy : y.1 ≠ .nan) :
    entryLe x y ↔
      (f64EKey x.1 < f64EKey y.1 ∨ (f64EKey x.1 = f64EKey y.1 ∧ x.2.1 ≤ y.2.1)) := by
  unfold entryLe
  rw [f64Key_compare x.1 y.1 hx hy, f64Eq_iff_key x.1 y.1 hx hy]
  simp [compare_lt_iff_lt]

theorem entryLe_trans {x y z : HeapEntryT} (hx : x.1 ≠ .nan) (hy : y.1 ≠ .nan)
    (hz : z.1 ≠ .nan) (h1 : entryLe x y) (h2 : entryLe y z) : entryLe x z := by
  rw [entryLe_iff x y hx hy] at h1
  rw [entryLe_iff y z hy hz] at h2
  rw [entryLe_iff x z hx hz]
  rcases h1 with h1 | ⟨h1, h1c⟩ <;> rcases h2 with h2 | ⟨h2, h2c⟩
  · exact Or.inl (lt_trans h1 h2)
  · exact Or.inl (h2 ▸ h1)
  · exact Or.inl (h1 ▸ h2)
  · exact Or.inr ⟨h1.trans h2, le_trans h1c h2c⟩

theorem heap_entry_cmp_not_lt {x y : HeapEntryT} (hx : x.1 ≠ .nan) (hy : y.1 ≠ .nan)
    (h : heap_entry_cmp x y ≠ .lt) : entryLe x y := by
  unfold heap_entry_cmp at h
  rw [f64Key_compare y.1 x.1 hy hx] at h
  rw [entryLe_iff x y hx hy]
  rcases hc : compare (f64EKey y.1) (f64EKey x.1) with _ | _ | _
  · rw [hc] at h
    simp at h
  · rw [hc] at h
    simp only at h
    right
    refine ⟨(compare_eq_iff_eq.mp hc).symm, ?_⟩
    have : ¬ y.2.1 < x.2.1 := fun hlt => h (compare_lt_iff_lt.mpr hlt)
    omega
  · exact Or.inl (compare_gt_iff_gt.mp hc)

theorem heap_entry_cmp_lt {x y : HeapEntryT} (hx : x.1 ≠ .nan) (hy : y.1 ≠ .nan)
    (h : heap_entry_cmp x y = .lt) : entryLe y x := by
  unfold heap_entry_cmp at h
  rw [f64Key_compare y.1 x.1 hy hx] at h
  rw [entryLe_iff y x hy hx]
  rcases hc : compare (f64EKey y.1) (f64EKey x.1) with _ | _ | _
  · exact Or.inl (compare_lt_iff_lt.mp hc)
  · rw [hc] at h
    simp only at h
    exact Or.inr ⟨compare_eq_iff_eq.mp hc, le_of_lt (compare_lt_iff_lt.mp h)⟩
  · rw [hc] at h
    simp at h

theorem heapPopMax_eq_none {l : List HeapEntryT} (h : heapPopMax l = none) : l = [] := by
  cases l with
  | nil => rfl
  | cons a tl =>
    unfold heapPopMax at h
    rcases h2 : heapPopMax tl with - | ⟨b, rest⟩ <;> rw [h2] at h
    · cases h
    · simp only at h
      split at h <;> cases h

theorem heapPopMax_spec :
    ∀ (l : List HeapEntryT) (x : HeapEntryT) (rest : List HeapEntryT),
      heapPopMax l = some (x, rest) →
        l.Perm (x :: rest) ∧
          ((∀ z ∈ l, z.1 ≠ F64.nan) → ∀ y ∈ rest, entryLe x y) := by
  intro l
  induction l with
  | nil => intro x rest h; cases h
  | cons a tl ih =>
    intro x rest h
    unfold heapPopMax at h
    rcases h2 : heapPopMax tl with - | ⟨b, r⟩ <;> rw [h2] at h
    · have htl : tl = [] := heapPopMax_eq_none h2
      subst htl
      simp only [Option.some.injEq, Prod.mk.injEq] at h
      obtain ⟨rfl, rfl⟩ := h
      exact ⟨List.Perm.refl _, fun _ y hy => absurd hy (List.not_mem_nil y)⟩
    · obtain ⟨hperm, hmin⟩ := ih b r h2
      have hbmem : b ∈ tl := hperm.mem_iff.mpr (List.mem_cons_self b r)
      simp only at h
      split at h
      · rename_i hcmp
        simp only [Option.some.injEq, Prod.mk.injEq] at h
        obtain ⟨rfl, rfl⟩ := h
        constructor
        · exact (hperm.cons a).trans (List.Perm.swap b a r)
        · intro hnan y hy
          have hbnan : b.1 ≠ F64.nan := hnan b (List.mem_cons_of_mem a hbmem)
          have hanan : a.1 ≠ F64.nan := hnan a (List.mem_cons_self a tl)
          rcases List.mem_cons.mp hy with hy | hy
          · subst hy
            exact heap_entry_cmp_lt hanan hbnan hcmp
          · exact hmin (fun z hz => hnan z (List.mem_cons_of_mem a hz)) y hy
      · rename_i hcmp
        simp only [Option.some.injEq, Prod.mk.injEq] at h
        obtain ⟨rfl, rfl⟩ := h
        constructor
        · exact List.Perm.refl _
        · intro hnan y hy
          have hanan : a.1 ≠ F64.nan := hnan a (List.mem_cons_self a tl)
          have hbnan : b.1 ≠ F64.nan := hnan b (List.mem_cons_of_mem a hbmem)
          have hynan : y.1 ≠ F64.nan := hnan y (List.mem_cons_of_mem a hy)
          have hab : entryLe a b := heap_entry_cmp_not_lt hanan hbnan hcmp
          rcases List.mem_cons.mp (hperm.mem_iff.mp hy) with hy2 | hy2
          · subst hy2; exact hab
          · exact entryLe_trans hanan hbnan hynan hab
              (hmin (fun z hz => hnan z (List.mem_cons_of_mem a hz)) y hy2)

theorem heapDrainGo_spec :
    ∀ (fuel : ℕ) (l : List HeapEntryT), l.length ≤ fuel →
      (∀ z ∈ l, z.1 ≠ F64.nan) →
      (heapDrainGo fuel l).Perm l ∧ (heapDrainGo fuel l).Pairwise entryLe := by
  intro fuel
  induction fuel with
  | zero =>
    intro l hlen _
    have : l = [] := List.length_eq_zero.mp (Nat.le_zero.mp hlen)
    subst this
    exact ⟨List.Perm.refl _, List.Pairwise.nil⟩
  | succ fuel ih =>
    intro l hlen hnan
    cases l with
    | nil =>
      simp only [heapDrainGo, heapPopMax]
      exact ⟨List.Perm.refl _, List.Pairwise.nil⟩
    | cons a tl =>
      unfold heapDrainGo
      rcases hpop : heapPopMax (a :: tl) with - | ⟨e, rest⟩
      · cases heapPopMax_eq_none hpop
      · obtain ⟨hperm, hmin⟩ := heapPopMax_spec (a :: tl) e rest hpop
        have hln : rest.length ≤ fuel := by
          have hle := hperm.length_eq
          simp only [List.length_cons] at hle hlen
          omega
        have hnr : ∀ z ∈ rest, z.1 ≠ F64.nan := fun z hz =>
          hnan z (hperm.mem_iff.mpr (List.mem_cons_of_mem e hz))
        obtain ⟨ihp, ihpw⟩ := ih rest hln hnr
        refine ⟨(ihp.cons e).trans hperm.symm, ?_⟩
        refine List.Pairwise.cons ?_ ihpw
        intro y hy
        exact hmin hnan y (ihp.mem_iff.mp hy)

theorem pushAll_entries (ps : List (F64 × Value)) :
    ∀ (l : List HeapEntryT) (c : ℕ),
      (CoreILHeap.mk l c).pushAll ps =
        CoreILHeap.mk (l ++ pushedEntries c ps) (c + ps.length) := by
  induction ps with
  | nil => intro l c; simp [CoreILHeap.pushAll, pushedEntries]
  | cons pv tl ih =>
    intro l c
    obtain ⟨p, v⟩ := pv
    show (CoreILHeap.mk (l ++ [(p, c, v)]) (c + 1)).pushAll tl = _
    rw [ih]
    simp [pushedEntries, List.append_assoc]
    omega

theorem pushedEntries_nonan (ps : List (F64 × Value)) :
    ∀ (c : ℕ), (∀ pv ∈ ps, f64IsNan pv.1 = false) →
      ∀ z ∈ pushedEntries c ps, z.1 ≠ F64.nan := by
  induction ps with
  | nil => intro c _ z hz; cases hz
  | cons pv tl ih =>
    intro c h z hz
    rcases List.mem_cons.mp hz with hz | hz
    · subst hz
      have := h pv (List.mem_cons_self pv tl)
      intro hc
      rw [hc] at this
      cases pv.1 <;> simp_all [f64IsNan]
    · exact ih (c + 1) (fun q hq => h q (List.mem_cons_of_mem pv hq)) z hz

/-- C6: pushing `(p_i, v_i)` pairs with non-NaN priorities onto a fresh
heap and popping until empty yields exactly the pushed entries (values with
their priorities and push indexes), in ascending order of priority with
ties broken by ascending push index; the popped value sequence is the value
projection of that entry sequence. -/
theorem c6_heap_pops_ascending_priority_then_insertion
    (ps : List (F64 × Value)) (h : ∀ pv ∈ ps, f64IsNan pv.1 = false) :
    (CoreILHeap.new.pushAll ps).drainValues
        = ((CoreILHeap.new.pushAll ps).drainEntries).map (fun e => e.2.2) ∧
    ((CoreILHeap.new.pushAll ps).drainEntries).Perm (pushedEntries 0 ps) ∧
    ((CoreILHeap.new.pushAll ps).drainEntries).Pairwise entryLe := by
  have hpush : CoreILHeap.new.pushAll ps =
      CoreILHeap.mk (pushedEntries 0 ps) ps.length := by
    have := pushAll_entries ps [] 0
    simpa [CoreILHeap.new] using this
  have hnan := pushedEntries_nonan ps 0 h
  obtain ⟨hperm, hpw⟩ := heapDrainGo_spec (pushedEntries 0 ps).length
    (pushedEntries 0 ps) le_rfl hnan
  refine ⟨rfl, ?_, ?_⟩
  · rw [hpush]
    exact hperm
  · rw [hpush]
    exact hpw

/-- Witness for C6 at the specification's seed scenario 5: push
`(3,"c"), (1,"a"), (3,"d"), (2,"b")`, pop all. -/
theorem c6_heap_pops_ascending_priority_then_insertion_witness :
    (CoreILHeap.new.pushAll
        [(F64.finite 3 0, Value.str ['c']), (F64.finite 1 0, Value.str ['a']),
         (F64.finite 3 0, Value.str ['d']), (F64.finite 2 0, Value.str ['b'])]).drainValues
        = ((CoreILHeap.new.pushAll
              [(F64.finite 3 0, Value.str ['c']), (F64.finite 1 0, Value.str ['a']),
               (F64.finite 3 0, Value.str ['d']), (F64.finite 2 0, Value.str ['b'])]).drainEntries).map
            (fun e => e.2.2) ∧
    ((CoreILHeap.new.pushAll
        [(F64.finite 3 0, Value.str ['c']), (F64.finite 1 0, Value.str ['a']),
         (F64.finite 3 0, Value.str ['d']), (F64.finite 2 0, Value.str ['b'])]).drainEntries).Perm
        (pushedEntries 0
          [(F64.finite 3 0, Value.str ['c']), (F64.finite 1 0, Value.str ['a']),
           (F64.finite 3 0, Value.str ['d']), (F64.finite 2 0, Value.str ['b'])]) ∧
    ((CoreILHeap.new.pushAll
        [(F64.finite 3 0, Value.str ['c']), (F64.finite 1 0, Value.str ['a']),
         (F64.finite 3 0, Value.str ['d']), (F64.finite 2 0, Value.str ['b'])]).drainEntries).Pairwise
        entryLe :=
  c6_heap_pops_ascending_priority_then_insertion
    [(F64.finite 3 0, Value.str ['c']), (F64.finite 1 0, Value.str ['a']),
     (F64.finite 3 0, Value.str ['d']), (F64.finite 2 0, Value.str ['b'])] (by decide)

theorem log2go_spec :
    ∀ (fuel n lo hi : ℕ), pow2 lo ≤ n → n < pow2 hi → lo < hi → hi - lo ≤ pow2 fuel →
      pow2 (log2go n lo hi fuel) ≤ n ∧ n < pow2 (log2go n lo hi fuel + 1) := by
  intro fuel
  induction fuel with
  | zero =>
    intro n lo hi hlo hhi hlt hgap
    have : hi = lo + 1 := by simp [pow2] at hgap; omega
    subst this
    simpa [log2go] using ⟨hlo, hhi⟩
  | succ fuel ih =>
    intro n lo hi hlo hhi hlt hgap
    unfold log2go
    by_cases hnarrow : hi - lo ≤ 1
    · have : hi = lo + 1 := by omega
      subst this
      simpa using ⟨hlo, hhi⟩
    · rw [if_neg hnarrow]
      simp only
      have hp2 : pow2 (fuel + 1) = 2 * pow2 fuel := by
        simp [pow2_eq, Nat.pow_succ]; ring
      by_cases hmid : pow2 ((lo + hi) / 2) ≤ n
      · rw [if_pos hmid]
        exact ih n ((lo + hi) / 2) hi hmid hhi (by omega) (by omega)
      · rw [if_neg hmid]
        exact ih n lo ((lo + hi) / 2) hlo (by omega) (by omega) (by omega)

theorem natLog2_spec (n : ℕ) (h1 : 1 ≤ n) (h2 : n < pow2 65536) :
    pow2 (natLog2 n) ≤ n ∧ n < pow2 (natLog2 n + 1) := by
  refine log2go_spec 17 n 0 65536 (by simpa [pow2] using h1) h2 (by norm_num) ?_
  rw [pow2_eq]
  norm_num

theorem digitFuel_spec (n : ℕ) : n < 10 ^ digitFuel n := by
  unfold digitFuel
  split
  · rename_i h
    rcases Nat.eq_zero_or_pos n with rfl | hpos
    · positivity
    · obtain ⟨-, hup⟩ := natLog2_spec n hpos h
      set k := natLog2 n with hk
      calc n < pow2 (k + 1) := hup
        _ = 2 ^ (k + 1) := pow2_eq _
        _ ≤ 2 ^ (3 * (k / 3) + 3) := Nat.pow_le_pow_right (by norm_num) (by omega)
        _ = 8 ^ (k / 3 + 1) := by rw [show (8 : ℕ) = 2 ^ 3 from rfl, ← Nat.pow_mul]; ring_nf
        _ ≤ 10 ^ (k / 3 + 1) := Nat.pow_le_pow_left (by norm_num) _
        _ ≤ 10 ^ (k / 3 + 2) := Nat.pow_le_pow_right (by norm_num) (by omega)
  · calc n < 10 ^ n := Nat.lt_pow_self (by norm_num) n
      _ ≤ 10 ^ (n + 1) := Nat.pow_le_pow_right (by norm_num) (by omega)

theorem digitsGo_spec :
    ∀ (fuel n : ℕ), n < 10 ^ fuel →
      (∀ d ∈ digitsGo fuel n, d < 10) ∧
        (digitsGo fuel n).foldr (fun d acc => d + 10 * acc) 0 = n ∧
        (n ≠ 0 → digitsGo fuel n ≠ []) := by
  intro fuel
  induction fuel with
  | zero =>
    intro n hn
    interval_cases n
    simp [digitsGo]
  | succ fuel ih =>
    intro n hn
    by_cases h0 : n = 0
    · subst h0; simp [digitsGo]
    · obtain ⟨hdig, hval, -⟩ := ih (n / 10) (by
        have : 10 ^ (fuel + 1) = 10 ^ fuel * 10 := by ring
        rw [this] at hn
        omega)
      simp only [digitsGo, if_neg h0]
      refine ⟨?_, ?_, fun _ => by simp⟩
      · intro d hd
        rcases List.mem_cons.mp hd with rfl | hd
        · omega
        · exact hdig d hd
      · simp only [List.foldr_cons, hval]
        omega

theorem digitVal_digitChar10 (d : ℕ) (h : d < 10) : digitVal (digitChar10 d) = d := by
  interval_cases d <;> decide

theorem isDigit10_digitChar10 (d : ℕ) (h : d < 10) : isDigit10 (digitChar10 d) = true := by
  interval_cases d <;> decide

theorem charsToNat_rev_digits (ds : List ℕ) (h : ∀ d ∈ ds, d < 10) :
    charsToNat ((ds.reverse).map digitChar10) = ds.foldr (fun d acc => d + 10 * acc) 0 := by
  induction ds with
  | nil => rfl
  | cons d tl ih =>
    have hd : d < 10 := h d (List.mem_cons_self d tl)
    have htl : ∀ x ∈ tl, x < 10 := fun x hx => h x (List.mem_cons_of_mem d hx)
    simp only [List.reverse_cons, List.map_append, List.map_cons, List.map_nil]
    unfold charsToNat
    rw [List.foldl_append]
    have ihv := ih htl
    unfold charsToNat at ihv
    rw [ihv]
    simp [digitVal_digitChar10 d hd, List.foldr_cons]
    ring

theorem charsToNat_natChars (n : ℕ) : charsToNat (natChars n) = n := by
  unfold natChars
  split
  · rename_i h; subst h; decide
  · obtain ⟨hdig, hval, -⟩ := digitsGo_spec (digitFuel n) n (digitFuel_spec n)
    rw [charsToNat_rev_digits _ hdig, hval]

theorem natChars_all_digits (n : ℕ) : (natChars n).all isDigit10 = true := by
  unfold natChars
  split
  · decide
  · obtain ⟨hdig, -, -⟩ := digitsGo_spec (digitFuel n) n (digitFuel_spec n)
    rw [List.all_eq_true]
    intro c hc
    rw [List.mem_map] at hc
    obtain ⟨d, hd, rfl⟩ := hc
    exact isDigit10_digitChar10 d (hdig d (List.mem_reverse.mp hd))

theorem natChars_ne_nil (n : ℕ) : natChars n ≠ [] := by
  unfold natChars
  split
  · simp
  · rename_i h
    obtain ⟨-, -, hne⟩ := digitsGo_spec (digitFuel n) n (digitFuel_spec n)
    simpa using hne h

theorem takeWhile_digit_prefix (ds rest : List Char) (hds : ds.all isDigit10 = true)
    (hrest : ∀ c, rest.head? = some c → isDigit10 c = false) :
    (ds ++ rest).takeWhile isDigit10 = ds ∧ (ds ++ rest).dropWhile isDigit10 = rest := by
  induction ds with
  | nil =>
    simp only [List.nil_append]
    cases rest with
    | nil => simp
    | cons c tl =>
      have := hrest c rfl
      simp [List.takeWhile_cons, List.dropWhile_cons, this]
  | cons d tl ih =>
    rw [List.all_cons] at hds
    obtain ⟨hd, htl⟩ := Bool.and_eq_true_iff.mp hds
    obtain ⟨ht, hdr⟩ := ih htl
    simp [List.takeWhile_cons, List.dropWhile_cons, hd, ht, hdr]

theorem readNatPrefix_natChars (n : ℕ) (rest : List Char)
    (hrest : ∀ c, rest.head? = some c → isDigit10 c = false) :
    readNatPrefix (natChars n ++ rest) = some (n, rest) := by
  obtain ⟨ht, hd⟩ := takeWhile_digit_prefix (natChars n) rest (natChars_all_digits n) hrest
  unfold readNatPrefix
  rw [ht, hd, if_neg (natChars_ne_nil n), charsToNat_natChars]

theorem takeUtf8_exact (s rest : List Char) : takeUtf8 (utf8Len s) (s ++ rest) = some (s, rest) := by
  induction s with
  | nil => simp [utf8Len, takeUtf8]
  | cons c tl ih =>
    have hpos : 0 < c.utf8Size := Char.utf8Size_pos c
    have hsplit : utf8Len (c :: tl) = (c.utf8Size - 1 + utf8Len tl) + 1 := by
      unfold utf8Len
      simp only [List.map_cons, List.sum_cons]
      omega
    rw [hsplit]
    show takeUtf8 _ (c :: (tl ++ rest)) = _
    unfold takeUtf8
    rw [if_pos (by omega)]
    have harg : c.utf8Size - 1 + utf8Len tl + 1 - c.utf8Size = utf8Len tl := by omega
    rw [harg, ih]
    rfl

theorem vlist_append_assoc : ∀ (a : VList) (v : Value) (tl : VList),
    (a.append (.cons v .nil)).append tl = a.append (.cons v tl)
  | .nil, _, _ => rfl
  | .cons x xs, v, tl => by
    simp only [VList.append]
    rw [vlist_append_assoc xs v tl]

theorem follow_not_digit {rest : List Char}
    (hr : ∀ c, rest.head? = some c → c = ',' ∨ c = ')') :
    ∀ c, rest.head? = some c → isDigit10 c = false := by
  intro c hc
  rcases hr c hc with rfl | rfl <;> decide

theorem ser_head_kind (v : Value) (h : hashable_scalar v = true) :
    ∃ c r, serialize_value v = c :: r ∧ (c = 'N' ∨ c = 'B' ∨ c = 'I' ∨ c = 'S' ∨ c = 'T') := by
  cases v with
  | none => exact ⟨'N', _, rfl, by simp⟩
  | bool b => cases b <;> exact ⟨'B', _, rfl, by simp⟩
  | int n => exact ⟨'I', _, rfl, by simp⟩
  | str s => exact ⟨'S', _, rfl, by simp⟩
  | tuple items => exact ⟨'T', _, rfl, by simp⟩
  | float f => simp [hashable_scalar] at h
  | array items addr => simp [hashable_scalar] at h
  | map e i a => simp [hashable_scalar] at h
  | set e i a => simp [hashable_scalar] at h
  | record e i a => simp [hashable_scalar] at h
  | deque e a => simp [hashable_scalar] at h
  | heap e c a => simp [hashable_scalar] at h

theorem intercalate_cons_cons' {α : Type} (s : List α) (a b : List α)
    (t : List (List α)) :
    List.intercalate s (a :: b :: t) = a ++ s ++ List.intercalate s (b :: t) := by
  simp [List.intercalate, List.intersperse]

theorem intercalate_single {α : Type} (s : List α) (a : List α) :
    List.intercalate s [a] = a := by
  simp [List.intercalate, List.intersperse]

theorem intercalate_cons_ne {α : Type} (s a : List α) (t : List (List α)) (h : t ≠ []) :
    List.intercalate s (a :: t) = a ++ s ++ List.intercalate s t := by
  cases t with
  | nil => exact absurd rfl h
  | cons b t2 => exact intercalate_cons_cons' s a b t2

theorem serialize_value_list_cons_ne (w : Value) (ws : VList) :
    serialize_value_list (.cons w ws) ≠ [] := fun h => List.noConfusion h

theorem read_roundtrip_aux :
    ∀ fuel : ℕ,
      (∀ (v : Value) (rest : List Char), hashable_scalar v = true →
        (serialize_value v ++ rest).length < fuel →
        (∀ c, rest.head? = some c → c = ',' ∨ c = ')') →
        readValue fuel (serialize_value v ++ rest) = some (v, rest)) ∧
      (∀ (v0 : Value) (tl : VList) (acc : VList) (rest : List Char),
        hashable_scalar_list (.cons v0 tl) = true →
        (List.intercalate [','] (serialize_value_list (.cons v0 tl)) ++ ')' :: rest).length + 1 < fuel →
        readElems fuel
            (List.intercalate [','] (serialize_value_list (.cons v0 tl)) ++ ')' :: rest) acc
          = some (.tuple (acc.append (.cons v0 tl)), rest)) := by
  intro fuel
  induction fuel with
  | zero =>
    refine ⟨fun v rest _ hlen _ => absurd hlen (by omega), fun v0 tl acc rest _ hlen => absurd hlen (by omega)⟩
  | succ fuel ih =>
    obtain ⟨ihV, ihE⟩ := ih
    have stepI : ∀ xs : List Char, readValue (fuel + 1) ('I' :: xs) =
        (match xs with
         | [] => none
         | c :: r2 =>
           if c = '-' then (readNatPrefix r2).map (fun (p : ℕ × List Char) => (Value.int (-(p.1 : ℤ)), p.2))
           else (readNatPrefix (c :: r2)).map (fun (p : ℕ × List Char) => (Value.int (p.1 : ℤ), p.2))) :=
      fun _ => rfl
    have stepS : ∀ xs : List Char, readValue (fuel + 1) ('S' :: xs) =
        (match readNatPrefix xs with
         | some (len, ':' :: r2) => (takeUtf8 len r2).map (fun (p : List Char × List Char) => (Value.str p.1, p.2))
         | _ => none) :=
      fun _ => rfl
    have stepT : ∀ xs : List Char, readValue (fuel + 1) ('T' :: '(' :: xs) =
        (match xs with
         | [] => readElems fuel [] .nil
         | c :: r2 =>
           if c = ')' then some (Value.tuple .nil, r2)
           else readElems fuel (c :: r2) .nil) :=
      fun _ => rfl
    have stepE : ∀ (xs : List Char) (acc : VList), readElems (fuel + 1) xs acc =
        (match readValue fuel xs with
         | some (v, ',' :: r2) => readElems fuel r2 (acc.append (.cons v .nil))
         | some (v, ')' :: r2) => some (Value.tuple (acc.append (.cons v .nil)), r2)
         | _ => none) :=
      fun _ _ => rfl
    constructor
    · -- readValue round-trip
      intro v rest hh hlen hr
      cases v with
      | none => rfl
      | bool b => cases b <;> rfl
      | float f => simp [hashable_scalar] at hh
      | array items addr => simp [hashable_scalar] at hh
      | map e i a => simp [hashable_scalar] at hh
      | set e i a => simp [hashable_scalar] at hh
      | record e i a => simp [hashable_scalar] at hh
      | deque e a => simp [hashable_scalar] at hh
      | heap e c a => simp [hashable_scalar] at hh
      | int n =>
        rcases le_or_lt 0 n with hn | hn
        · have hic : intChars n = natChars n.toNat := by
            unfold intChars
            rw [if_neg (by omega)]
          obtain ⟨c0, cr, hc⟩ := List.exists_cons_of_ne_nil (natChars_ne_nil n.toNat)
          have hc0d : isDigit10 c0 = true := by
            have hall := natChars_all_digits n.toNat
            rw [hc, List.all_cons] at hall
            exact (Bool.and_eq_true_iff.mp hall).1
          have hc0 : ¬ (c0 = '-') := fun h => by rw [h] at hc0d; cases hc0d
          have e1 : readValue (fuel + 1) ('I' :: ((c0 :: cr) ++ rest)) =
              (if c0 = '-' then (readNatPrefix (cr ++ rest)).map (fun (p : ℕ × List Char) => (Value.int (-(p.1 : ℤ)), p.2))
               else (readNatPrefix ((c0 :: cr) ++ rest)).map (fun (p : ℕ × List Char) => (Value.int (p.1 : ℤ), p.2))) := rfl
          show readValue (fuel + 1) ('I' :: intChars n ++ rest) = _
          rw [List.cons_append, hic, hc, e1]
          rw [if_neg hc0]
          rw [← hc, readNatPrefix_natChars n.toNat rest (follow_not_digit hr)]
          simp only [Option.map_some']
          rw [Int.toNat_of_nonneg hn]
        · have hic : intChars n = '-' :: natChars (-n).toNat := by
            unfold intChars
            rw [if_pos hn]
          have e1 : readValue (fuel + 1) ('I' :: (('-' :: natChars (-n).toNat) ++ rest)) =
              (readNatPrefix (natChars (-n).toNat ++ rest)).map
                (fun (p : ℕ × List Char) => (Value.int (-(p.1 : ℤ)), p.2)) := rfl
          show readValue (fuel + 1) ('I' :: intChars n ++ rest) = _
          rw [List.cons_append, hic, e1]
          rw [readNatPrefix_natChars (-n).toNat rest (follow_not_digit hr)]
          simp only [Option.map_some']
          rw [show (((-n).toNat : ℕ) : ℤ) = -n by omega, neg_neg]
      | str s =>
        show readValue (fuel + 1) (('S' :: natChars (utf8Len s)) ++ (':' :: s) ++ rest) = _
        have hassoc : ('S' :: natChars (utf8Len s)) ++ (':' :: s) ++ rest
            = 'S' :: (natChars (utf8Len s) ++ (':' :: (s ++ rest))) := by simp
        rw [hassoc, stepS]
        have hrp : readNatPrefix (natChars (utf8Len s) ++ (':' :: (s ++ rest)))
            = some (utf8Len s, ':' :: (s ++ rest)) := by
          refine readNatPrefix_natChars _ _ ?_
          intro c hc
          simp only [List.head?_cons, Option.some.injEq] at hc
          subst hc
          decide
        rw [hrp]
        show (takeUtf8 (utf8Len s) (s ++ rest)).map _ = _
        rw [takeUtf8_exact]
        rfl
      | tuple items =>
        cases items with
        | nil => rfl
        | cons v0 tl =>
          have hhl : hashable_scalar_list (.cons v0 tl) = true := by
            rw [show hashable_scalar (.tuple (.cons v0 tl))
              = hashable_scalar_list (.cons v0 tl) from rfl] at hh
            exact hh
          have hh0 : hashable_scalar v0 = true := by
            rw [show hashable_scalar_list (.cons v0 tl)
              = (hashable_scalar v0 && hashable_scalar_list tl) from rfl] at hhl
            exact (Bool.and_eq_true_iff.mp hhl).1
          obtain ⟨c0, cr, hc, hkind⟩ := ser_head_kind v0 hh0
          obtain ⟨tl2, hic⟩ :
              ∃ tl2, List.intercalate [','] (serialize_value_list (.cons v0 tl)) = c0 :: tl2 := by
            cases tl with
            | nil =>
              refine ⟨cr, ?_⟩
              rw [show serialize_value_list (VList.cons v0 .nil) = [serialize_value v0] from rfl,
                intercalate_single, hc]
            | cons w ws =>
              refine ⟨cr ++ [','] ++ List.intercalate [','] (serialize_value_list (.cons w ws)), ?_⟩
              rw [show serialize_value_list (VList.cons v0 (.cons w ws))
                = serialize_value v0 :: serialize_value_list (.cons w ws) from rfl,
                intercalate_cons_ne _ _ _ (serialize_value_list_cons_ne w ws), hc]
              simp
          have hc0 : ¬ (c0 = ')') := by
            rcases hkind with rfl | rfl | rfl | rfl | rfl <;> decide
          show readValue (fuel + 1)
            (('T' :: '(' :: List.intercalate [','] (serialize_value_list (.cons v0 tl))) ++ [')'] ++ rest) = _
          have hassoc : ('T' :: '(' :: List.intercalate [','] (serialize_value_list (.cons v0 tl))) ++ [')'] ++ rest
              = 'T' :: '(' :: (List.intercalate [','] (serialize_value_list (.cons v0 tl)) ++ ')' :: rest) := by
            simp
          have e2 : readValue (fuel + 1) ('T' :: '(' :: (c0 :: (tl2 ++ ')' :: rest))) =
              (if c0 = ')' then some (Value.tuple .nil, tl2 ++ ')' :: rest)
               else readElems fuel (c0 :: (tl2 ++ ')' :: rest)) .nil) := rfl
          rw [hassoc, hic, List.cons_append, e2, if_neg hc0, ← List.cons_append, ← hic]
          have hlen' : (List.intercalate [','] (serialize_value_list (.cons v0 tl)) ++ ')' :: rest).length + 1 < fuel := by
            have h2 : ((('T' :: '(' :: List.intercalate [','] (serialize_value_list (.cons v0 tl))) ++ [')']) ++ rest).length < fuel + 1 := hlen
            simp only [List.length_append, List.length_cons, List.length_singleton] at h2 ⊢
            omega
          rw [ihE v0 tl .nil rest hhl hlen']
          rfl
    · -- readElems round-trip
      intro v0 tl acc rest hhl hlen
      have hh0 : hashable_scalar v0 = true := by
        rw [show hashable_scalar_list (.cons v0 tl)
          = (hashable_scalar v0 && hashable_scalar_list tl) from rfl] at hhl
        exact (Bool.and_eq_true_iff.mp hhl).1
      obtain ⟨c0, cr, hc, hkind⟩ := ser_head_kind v0 hh0
      cases tl with
      | nil =>
        have hic : List.intercalate [','] (serialize_value_list (.cons v0 .nil))
            = serialize_value v0 := by
          rw [show serialize_value_list (VList.cons v0 .nil) = [serialize_value v0] from rfl,
            intercalate_single]
        rw [hic, stepE]
        have hv : readValue fuel (serialize_value v0 ++ ')' :: rest) = some (v0, ')' :: rest) := by
          refine ihV v0 (')' :: rest) hh0 ?_ ?_
          · rw [hic] at hlen
            omega
          · intro c hcc
            simp only [List.head?_cons, Option.some.injEq] at hcc
            subst hcc
            right
            rfl
        rw [hv]
        rfl
      | cons w ws =>
        have hic : List.intercalate [','] (serialize_value_list (.cons v0 (.cons w ws)))
            = serialize_value v0 ++ (',' :: List.intercalate [','] (serialize_value_list (.cons w ws))) := by
          rw [show serialize_value_list (VList.cons v0 (.cons w ws))
            = serialize_value v0 :: serialize_value_list (.cons w ws) from rfl,
            intercalate_cons_ne _ _ _ (serialize_value_list_cons_ne w ws)]
          simp
        rw [hic, stepE]
        have hassoc : (serialize_value v0 ++ (',' :: List.intercalate [','] (serialize_value_list (.cons w ws)))) ++ ')' :: rest
            = serialize_value v0 ++ (',' :: (List.intercalate [','] (serialize_value_list (.cons w ws)) ++ ')' :: rest)) := by
          simp
        rw [hassoc]
        have hlen2 : (serialize_value v0 ++ (',' :: (List.intercalate [','] (serialize_value_list (.cons w ws)) ++ ')' :: rest))).length < fuel := by
          rw [hic] at hlen
          simp only [List.length_append, List.length_cons] at hlen ⊢
          omega
        have hv : readValue fuel (serialize_value v0 ++ (',' :: (List.intercalate [','] (serialize_value_list (.cons w ws)) ++ ')' :: rest)))
            = some (v0, ',' :: (List.intercalate [','] (serialize_value_list (.cons w ws)) ++ ')' :: rest)) := by
          refine ihV v0 _ hh0 hlen2 ?_
          intro c hcc
          simp only [List.head?_cons, Option.some.injEq] at hcc
          subst hcc
          left
          rfl
        rw [hv]
        have hws : hashable_scalar_list (.cons w ws) = true := by
          rw [show hashable_scalar_list (.cons v0 (.cons w ws))
            = (hashable_scalar v0 && hashable_scalar_list (.cons w ws)) from rfl] at hhl
          exact (Bool.and_eq_true_iff.mp hhl).2
        have hlen3 : (List.intercalate [','] (serialize_value_list (.cons w ws)) ++ ')' :: rest).length + 1 < fuel := by
          rw [hic] at hlen
          have hser : (serialize_value v0).length = cr.length + 1 := by rw [hc]; rfl
          simp only [List.length_append, List.length_cons] at hlen ⊢
          omega
        show readElems fuel _ (acc.append (.cons v0 .nil)) = _
        rw [ihE w ws (acc.append (.cons v0 .nil)) rest hws hlen3, vlist_append_assoc]

/-- C2 (counterexample): `values_equal` calls `Int 1` and `Bool true` equal
(cross-type numeric comparison), but `serialize_value` tags them with
different type prefixes, so the two keys differ: the claimed equivalence
between key equality and `values_equal` fails, and cross-type numerically
equal values do NOT serialize to the same key string. -/
theorem c2_cross_type_equal_values_serialize_differently :
    values_equal (.int 1) (.bool true) = true ∧
    serialize_value (.int 1) ≠ serialize_value (.bool true) := by
  refine ⟨rfl, ?_⟩
  decide

/-- C2 (amended): on the float-free hashable fragment (None, Bool, Int, Str
and Tuples of such), `serialize_value` is injective with respect to
structural equality: two values of the fragment get the same key string
exactly when they are equal.  (The original claim's `values_equal` must be
replaced by structural equality because of the cross-type arms, and Floats
must be excluded because the fixed-point key format collides.) -/
theorem c2_serialize_key_injective_on_scalar_fragment
    (a b : Value) (ha : hashable_scalar a = true) (hb : hashable_scalar b = true) :
    serialize_value a = serialize_value b ↔ a = b := by
  constructor
  · intro h
    have hra := (read_roundtrip_aux ((serialize_value a).length + 1)).1 a []
      ha (by simp) (by intro c hc; simp at hc)
    have hrb := (read_roundtrip_aux ((serialize_value a).length + 1)).1 b []
      hb (by rw [← h]; simp) (by intro c hc; simp at hc)
    rw [List.append_nil] at hra hrb
    rw [← h] at hrb
    have hab := hra.symm.trans hrb
    exact ((Prod.mk.injEq _ _ _ _).mp (Option.some.injEq _ _ |>.mp hab)).1
  · intro h
    rw [h]

/-- C2 witness: the amended theorem applied to the tuple `(-3, "a")` and the
Int `5`, whose keys indeed differ. -/
theorem c2_serialize_key_injective_on_scalar_fragment_witness :
    hashable_scalar (.tuple (.cons (.int (-3)) (.cons (.str ['a']) .nil))) = true ∧
    hashable_scalar (.int 5) = true ∧
    (serialize_value (.tuple (.cons (.int (-3)) (.cons (.str ['a']) .nil))) = serialize_value (.int 5) ↔
      (.tuple (.cons (.int (-3)) (.cons (.str ['a']) .nil)) : Value) = .int 5) :=
  ⟨rfl, rfl, c2_serialize_key_injective_on_scalar_fragment _ _ rfl rfl⟩

theorem pow2_cast_q (t : ℤ) (h : 0 ≤ t) : ((pow2 t.toNat : ℕ) : ℚ) = (2:ℚ) ^ t := by
  rw [pow2_eq]
  push_cast
  rw [← zpow_natCast]
  congr 1
  omega

theorem pow2_cast_z (t : ℤ) (h : 0 ≤ t) : ((pow2 t.toNat : ℕ) : ℤ) = (2:ℤ) ^ t.toNat := by
  rw [pow2_eq]
  push_cast
  rfl

theorem ratFloorLog2_spec (a b : ℤ) (ha : 0 < a) (hb : 0 < b)
    (haB : a.toNat < pow2 65536) (hbB : b.toNat < pow2 65536) :
    (2:ℚ) ^ (ratFloorLog2 a b) * b ≤ a ∧ (a:ℚ) < 2 ^ (ratFloorLog2 a b + 1) * b := by
  have hpa : pow2 (natLog2 a.toNat) ≤ a.toNat ∧ a.toNat < pow2 (natLog2 a.toNat + 1) :=
    natLog2_spec a.toNat (by omega) haB
  have hpb : pow2 (natLog2 b.toNat) ≤ b.toNat ∧ b.toNat < pow2 (natLog2 b.toNat + 1) :=
    natLog2_spec b.toNat (by omega) hbB
  set al := natLog2 a.toNat with hal
  set bl := natLog2 b.toNat with hbl
  have qA1 : (2:ℚ) ^ ((al : ℤ)) ≤ a := by
    have h0 := hpa.1
    rw [pow2_eq] at h0
    have h1 : (((2:ℕ)^al : ℕ) : ℤ) ≤ a := by omega
    rw [zpow_natCast]
    have h2 : (((2:ℕ)^al : ℕ) : ℚ) ≤ (a:ℚ) := by exact_mod_cast h1
    push_cast at h2
    exact h2
  have qA2 : (a:ℚ) < 2 ^ ((al : ℤ) + 1) := by
    have h0 := hpa.2
    rw [pow2_eq] at h0
    have h1 : a < (((2:ℕ)^(al+1) : ℕ) : ℤ) := by omega
    rw [show ((al : ℤ) + 1) = ((al + 1 : ℕ) : ℤ) by push_cast; ring, zpow_natCast]
    have h2 : (a:ℚ) < (((2:ℕ)^(al+1) : ℕ) : ℚ) := by exact_mod_cast h1
    push_cast at h2
    exact h2
  have qB1 : (2:ℚ) ^ ((bl : ℤ)) ≤ b := by
    have h0 := hpb.1
    rw [pow2_eq] at h0
    have h1 : (((2:ℕ)^bl : ℕ) : ℤ) ≤ b := by omega
    rw [zpow_natCast]
    have h2 : (((2:ℕ)^bl : ℕ) : ℚ) ≤ (b:ℚ) := by exact_mod_cast h1
    push_cast at h2
    exact h2
  have qB2 : (b:ℚ) < 2 ^ ((bl : ℤ) + 1) := by
    have h0 := hpb.2
    rw [pow2_eq] at h0
    have h1 : b < (((2:ℕ)^(bl+1) : ℕ) : ℤ) := by omega
    rw [show ((bl : ℤ) + 1) = ((bl + 1 : ℕ) : ℤ) by push_cast; ring, zpow_natCast]
    have h2 : (b:ℚ) < (((2:ℕ)^(bl+1) : ℕ) : ℚ) := by exact_mod_cast h1
    push_cast at h2
    exact h2
  have hqb : (0:ℚ) < b := by exact_mod_cast hb
  set e0 : ℤ := (al : ℤ) - (bl : ℤ) with he0
  -- the two shared bounds
  have upperShared : (a:ℚ) < 2 ^ (e0 + 1) * b := by
    calc (a:ℚ) < 2 ^ ((al : ℤ) + 1) := qA2
      _ = 2 ^ (e0 + 1) * 2 ^ ((bl : ℤ)) := by
          rw [← zpow_add₀ (by norm_num : (2:ℚ) ≠ 0)]
          congr 1
          omega
      _ ≤ 2 ^ (e0 + 1) * b := by
          refine mul_le_mul_of_nonneg_left qB1 ?_
          positivity
  have lowerShared : (2:ℚ) ^ (e0 - 1) * b ≤ a := by
    calc (2:ℚ) ^ (e0 - 1) * b ≤ 2 ^ (e0 - 1) * 2 ^ ((bl : ℤ) + 1) := by
          refine mul_le_mul_of_nonneg_left qB2.le ?_
          positivity
      _ = 2 ^ ((al : ℤ)) := by
          rw [← zpow_add₀ (by norm_num : (2:ℚ) ≠ 0)]
          congr 1
          omega
      _ ≤ a := qA1
  show (2:ℚ) ^ (ratFloorLog2 a b) * b ≤ a ∧ (a:ℚ) < 2 ^ (ratFloorLog2 a b + 1) * b
  unfold ratFloorLog2
  simp only [← hal, ← hbl, ← he0]
  by_cases hsgn : 0 ≤ e0
  · rw [if_pos hsgn]
    by_cases htest : b * ((pow2 e0.toNat : ℕ) : ℤ) ≤ a
    · rw [if_pos htest]
      constructor
      · have : (b:ℚ) * 2 ^ e0 ≤ a := by
          have := htest
          have hc : ((b * ((pow2 e0.toNat : ℕ) : ℤ) : ℤ) : ℚ) ≤ ((a : ℤ) : ℚ) := by
            exact_mod_cast this
          push_cast at hc
          rw [pow2_cast_q e0 hsgn] at hc
          exact hc
        linarith [this]
      · exact upperShared
    · rw [if_neg htest]
      constructor
      · exact lowerShared
      · have : (a:ℚ) < b * 2 ^ e0 := by
          push_neg at htest
          have hc : ((a : ℤ) : ℚ) < ((b * ((pow2 e0.toNat : ℕ) : ℤ) : ℤ) : ℚ) := by
            exact_mod_cast htest
          push_cast at hc
          rw [pow2_cast_q e0 hsgn] at hc
          exact hc
        calc (a:ℚ) < b * 2 ^ e0 := this
          _ = 2 ^ (e0 - 1 + 1) * b := by rw [show e0 - 1 + 1 = e0 by ring]; ring
  · rw [if_neg hsgn]
    push_neg at hsgn
    have hneg : 0 ≤ -e0 := by omega
    have h2pos : (0:ℚ) < 2 ^ (-e0) := by positivity
    by_cases htest : b ≤ a * ((pow2 (-e0).toNat : ℕ) : ℤ)
    · rw [if_pos htest]
      constructor
      · have hq : (b:ℚ) ≤ a * 2 ^ (-e0) := by
          have hc : ((b : ℤ) : ℚ) ≤ ((a * ((pow2 (-e0).toNat : ℕ) : ℤ) : ℤ) : ℚ) := by
            exact_mod_cast htest
          push_cast at hc
          rw [pow2_cast_q (-e0) hneg] at hc
          exact hc
        have := mul_le_mul_of_nonneg_left hq (by positivity : (0:ℚ) ≤ 2 ^ e0)
        calc (2:ℚ) ^ e0 * b ≤ 2 ^ e0 * (a * 2 ^ (-e0)) := this
          _ = a * (2 ^ e0 * 2 ^ (-e0)) := by ring
          _ = a := by
              rw [← zpow_add₀ (by norm_num : (2:ℚ) ≠ 0)]
              simp
      · exact upperShared
    · rw [if_neg htest]
      constructor
      · exact lowerShared
      · have hq : (a:ℚ) * 2 ^ (-e0) < b := by
          push_neg at htest
          have hc : ((a * ((pow2 (-e0).toNat : ℕ) : ℤ) : ℤ) : ℚ) < ((b : ℤ) : ℚ) := by
            exact_mod_cast htest
          push_cast at hc
          rw [pow2_cast_q (-e0) hneg] at hc
          exact hc
        have := mul_lt_mul_of_pos_left hq (by positivity : (0:ℚ) < 2 ^ e0)
        have heq : (2:ℚ) ^ e0 * (a * 2 ^ (-e0)) = a := by
          rw [show (2:ℚ) ^ e0 * ((a:ℚ) * 2 ^ (-e0)) = a * (2 ^ e0 * 2 ^ (-e0)) by ring,
            ← zpow_add₀ (by norm_num : (2:ℚ) ≠ 0)]
          simp
        rw [heq] at this
        calc (a:ℚ) < 2 ^ e0 * b := this
          _ = 2 ^ (e0 - 1 + 1) * b := by rw [show e0 - 1 + 1 = e0 by ring]

theorem roundHalfEven_exact (a b : ℤ) (hb : 0 < b) (h : b ∣ a) :
    roundHalfEven a b = a.ediv b := by
  unfold roundHalfEven
  have hr : a.emod b = 0 := Int.emod_eq_zero_of_dvd h
  rw [hr]
  rw [if_pos (by omega)]

theorem rndF64_exact_int (k b : ℤ) (hb : 0 < b) (hk : k ≠ 0)
    (hklt : k.natAbs < 2 ^ 53)
    (hB : (k.natAbs * b.toNat : ℕ) < pow2 65536) (hbB : b.toNat < pow2 65536) :
    ∃ m e : ℤ, rndF64 (k * b) b = .finite m e ∧ (m : ℚ) * 2 ^ e = (k : ℚ) := by
  have ha0 : k * b ≠ 0 := by
    intro h
    rcases mul_eq_zero.mp h with h | h
    · exact hk h
    · omega
  -- the absolute numerator
  set kp : ℤ := |k| with hkp
  have hkp0 : 0 < kp := by
    rw [hkp]
    exact abs_pos.mpr hk
  have hkplt : kp < 2 ^ 53 := by
    have : kp = (k.natAbs : ℤ) := by rw [hkp]; exact (Int.abs_eq_natAbs k)
    rw [this]
    exact_mod_cast hklt
  have hnval : (if 0 < k * b then k * b else -(k * b)) = kp * b := by
    rw [hkp]
    rcases lt_or_gt_of_ne hk with hneg | hpos
    · rw [if_neg (by nlinarith), abs_of_neg hneg]; ring
    · rw [if_pos (by positivity), abs_of_pos hpos]
  have hnB : (kp * b).toNat < pow2 65536 := by
    have hnn : 0 ≤ kp * b := by positivity
    have h1 : (kp * b).natAbs = k.natAbs * b.natAbs := by
      rw [hkp, Int.natAbs_mul, Int.natAbs_abs]
    have h2 : b.natAbs = b.toNat := by omega
    rw [h2] at h1
    omega
  obtain ⟨hlo, hhi⟩ := ratFloorLog2_spec (kp * b) b (by positivity) hb hnB hbB
  set e : ℤ := ratFloorLog2 (kp * b) b with he
  have hqb : (0:ℚ) < b := by exact_mod_cast hb
  have hqkp : (0:ℚ) < kp := by exact_mod_cast hkp0
  -- bounds on kp alone
  have hklo : (2:ℚ) ^ e ≤ kp := by
    have := hlo
    push_cast at this
    nlinarith [this]
  have hkhi : (kp:ℚ) < 2 ^ (e + 1) := by
    have := hhi
    push_cast at this
    nlinarith [this]
  have he0 : 0 ≤ e := by
    by_contra hlt
    push_neg at hlt
    have h1 : (kp:ℚ) < 2 ^ (e+1) := hkhi
    have h2 : (2:ℚ) ^ (e+1) ≤ 2 ^ (0:ℤ) := by
      refine zpow_le_zpow_right₀ (by norm_num) (by omega)
    have h3 : (1:ℚ) ≤ kp := by exact_mod_cast hkp0
    rw [zpow_zero] at h2
    linarith
  have he52 : e ≤ 52 := by
    by_contra hgt
    push_neg at hgt
    have h1 : (2:ℚ) ^ (53:ℤ) ≤ 2 ^ e := by
      refine zpow_le_zpow_right₀ (by norm_num) (by omega)
    have h2 : (kp:ℚ) < 2 ^ (53:ℤ) := by
      rw [show ((53:ℤ)) = ((53:ℕ):ℤ) by rfl, zpow_natCast]
      exact_mod_cast hkplt
    linarith
  have hs : (if 0 < k * b then (1:ℤ) else -1) * kp = k := by
    rw [hkp]
    rcases lt_or_gt_of_ne hk with hneg | hpos
    · rw [if_neg (by nlinarith), abs_of_neg hneg]; ring
    · rw [if_pos (by positivity), abs_of_pos hpos]; ring
  have hkhiZ : kp < 2 ^ (e + 1).toNat := by
    have h1 : (kp:ℚ) < 2 ^ (e + 1) := hkhi
    rw [show ((e + 1):ℤ) = (((e + 1).toNat : ℕ) : ℤ) by omega, zpow_natCast] at h1
    exact_mod_cast h1
  unfold rndF64
  rw [if_neg ha0]
  simp only [hnval, ← he]
  rw [show max (e - 52) (-1074) = e - 52 from max_eq_left (by omega)]
  by_cases hcase : 0 ≤ e - 52
  · -- e = 52, unit exponent 0
    have he52' : e = 52 := by omega
    rw [if_pos hcase, show (e - 52).toNat = 0 by omega]
    rw [show ((pow2 0 : ℕ) : ℤ) = 1 from rfl, mul_one]
    rw [roundHalfEven_exact (kp * b) b hb ⟨kp, by ring⟩]
    have hm : (kp * b).ediv b = kp := Int.mul_ediv_cancel kp (by omega)
    rw [hm]
    rw [if_neg (by
      push_neg
      have h1 : ((pow2 (1024 - (e - 52)).toNat : ℕ) : ℤ) = 2 ^ (1024 - (e - 52)).toNat := by
        rw [pow2_eq]; push_cast; rfl
      rw [h1]
      calc kp < 2 ^ (e + 1).toNat := hkhiZ
        _ ≤ 2 ^ (1024 - (e - 52)).toNat := by
            refine pow_le_pow_right₀ (by norm_num) (by omega)
      )]
    refine ⟨k, e - 52, ?_, ?_⟩
    · rw [hs]
    · rw [show e - 52 = 0 by omega]
      simp
  · -- e < 52, negative unit exponent
    rw [if_neg hcase]
    have hdvd : b ∣ (kp * b) * ((pow2 (-(e - 52)).toNat : ℕ) : ℤ) :=
      ⟨kp * ((pow2 (-(e - 52)).toNat : ℕ) : ℤ), by ring⟩
    rw [roundHalfEven_exact _ b hb hdvd]
    have hm : ((kp * b) * ((pow2 (-(e - 52)).toNat : ℕ) : ℤ)).ediv b
        = kp * ((pow2 (-(e - 52)).toNat : ℕ) : ℤ) := by
      rw [show (kp * b) * ((pow2 (-(e - 52)).toNat : ℕ) : ℤ)
        = (kp * ((pow2 (-(e - 52)).toNat : ℕ) : ℤ)) * b by ring]
      exact Int.mul_ediv_cancel _ (by omega)
    rw [hm]
    have hPz : ((pow2 (-(e - 52)).toNat : ℕ) : ℤ) = 2 ^ (-(e - 52)).toNat := by
      rw [pow2_eq]; push_cast; rfl
    rw [if_neg (by
      push_neg
      have h1 : ((pow2 (1024 - (e - 52)).toNat : ℕ) : ℤ) = 2 ^ (1024 - (e - 52)).toNat := by
        rw [pow2_eq]; push_cast; rfl
      rw [h1, hPz]
      calc kp * 2 ^ (-(e - 52)).toNat
          < 2 ^ (e + 1).toNat * 2 ^ (-(e - 52)).toNat := by
            refine mul_lt_mul_of_pos_right hkhiZ (by positivity)
        _ = 2 ^ ((e + 1).toNat + (-(e - 52)).toNat) := by rw [pow_add]
        _ = 2 ^ (53 : ℕ) := by congr 1; omega
        _ ≤ 2 ^ (1024 - (e - 52)).toNat := by
            refine pow_le_pow_right₀ (by norm_num) (by omega)
      )]
    refine ⟨(if 0 < k * b then (1:ℤ) else -1) * (kp * ((pow2 (-(e - 52)).toNat : ℕ) : ℤ)),
      e - 52, rfl, ?_⟩
    have hPq : ((((pow2 (-(e - 52)).toNat : ℕ) : ℤ)) : ℚ) = (2:ℚ) ^ (-(e - 52)) := by
      rw [show ((((pow2 (-(e - 52)).toNat : ℕ) : ℤ)) : ℚ)
        = (((pow2 (-(e - 52)).toNat : ℕ)) : ℚ) by push_cast; rfl]
      exact pow2_cast_q (-(e - 52)) (by omega)
    rw [Int.cast_mul, Int.cast_mul, hPq]
    have hcancel : (2:ℚ) ^ (-(e - 52)) * 2 ^ (e - 52) = 1 := by
      rw [← zpow_add₀ (by norm_num : (2:ℚ) ≠ 0)]
      simp
    have hsq : (((if 0 < k * b then (1:ℤ) else -1) : ℤ) : ℚ) * kp = k := by
      exact_mod_cast hs
    calc (((if 0 < k * b then (1:ℤ) else -1) : ℤ) : ℚ) * ((kp : ℚ) * 2 ^ (-(e - 52))) * 2 ^ (e - 52)
        = ((((if 0 < k * b then (1:ℤ) else -1) : ℤ) : ℚ) * kp) * (2 ^ (-(e - 52)) * 2 ^ (e - 52)) := by
          ring
      _ = (k : ℚ) * 1 := by rw [hcancel, hsq]
      _ = k := by ring

theorem dyadicIsInt_val (m e : ℤ) (h : dyadicIsInt m e = true) :
    ((dyadicTrunc m e : ℤ) : ℚ) = (m : ℚ) * 2 ^ e := by
  unfold dyadicIsInt at h
  have hz : dyadicTrunc m e * dyadicDen e = dyadicNum m e := by
    exact_mod_cast of_decide_eq_true h
  have hden : (0:ℚ) < dyadicDen e := by exact_mod_cast dyadicDen_pos e
  rw [← dyadic_qval m e, eq_div_iff (ne_of_gt hden)]
  exact_mod_cast hz

theorem f64Eq_of_qval (m1 e1 m2 e2 : ℤ) (h : (m1:ℚ) * 2 ^ e1 = (m2:ℚ) * 2 ^ e2) :
    f64Eq (.finite m1 e1) (.finite m2 e2) = true := by
  simp only [f64Eq]
  rw [ratCompare_eq_compare _ _ _ _ (dyadicDen_pos _) (dyadicDen_pos _),
    dyadic_qval, dyadic_qval, h]
  simp [compare_eq_iff_eq]

theorem ratCompare_lt_val {a1 b1 a2 b2 : ℤ} (h1 : 0 < b1) (h2 : 0 < b2)
    (h : ratCompare a1 b1 a2 b2 = .lt) : (a1:ℚ) / b1 < (a2:ℚ) / b2 := by
  rw [ratCompare_eq_compare a1 b1 a2 b2 h1 h2] at h
  exact compare_lt_iff_lt.mp h

theorem jsonFloat_facts (m e : ℤ)
    (hint : dyadicIsInt m e = true)
    (hlt : ratCompare (dyadicNum (m.natAbs : ℤ) e) (dyadicDen e) ((10:ℤ)^15) 1 = .lt) :
    f64ToI64 (.finite m e) = dyadicTrunc m e ∧
    (dyadicTrunc m e).natAbs < 10 ^ 15 ∧
    ((dyadicTrunc m e : ℤ) : ℚ) = (m : ℚ) * 2 ^ e ∧
    json_serialize_float (.finite m e) = intChars (dyadicTrunc m e) ++ ['.', '0'] := by
  have hval := dyadicIsInt_val m e hint
  have habs : ((dyadicTrunc m e).natAbs : ℚ) < 10 ^ 15 := by
    have h1 : ((dyadicNum (m.natAbs : ℤ) e : ℤ) : ℚ) / ((dyadicDen e : ℤ) : ℚ) < ((10:ℤ)^15 : ℚ) / ((1:ℤ) : ℚ) :=
      ratCompare_lt_val (dyadicDen_pos e) one_pos hlt
    rw [dyadic_qval] at h1
    have h2 : ((m.natAbs : ℤ) : ℚ) * 2 ^ e = |((dyadicTrunc m e : ℤ) : ℚ)| := by
      rw [hval, abs_mul, abs_of_pos (by positivity : (0:ℚ) < 2 ^ e)]
      push_cast
      ring
    rw [h2] at h1
    rw [Int.cast_natAbs]
    simpa using h1
  have hnatlt : (dyadicTrunc m e).natAbs < 10 ^ 15 := by exact_mod_cast habs
  refine ⟨?_, hnatlt, hval, ?_⟩
  · show i64Sat (dyadicTrunc m e) = dyadicTrunc m e
    unfold i64Sat i64Bound
    rw [if_neg (by omega), if_neg (by omega)]
  · have e1 : json_serialize_float (.finite m e)
        = (if dyadicIsInt m e = true ∧
              ratCompare (dyadicNum (m.natAbs : ℤ) e) (dyadicDen e) ((10:ℤ)^15) 1 = Ordering.lt
           then intChars (f64ToI64 (.finite m e)) ++ ['.', '0']
           else displayF64 (.finite m e)) := rfl
    rw [e1, if_pos ⟨hint, hlt⟩]
    congr 1
    show intChars (i64Sat (dyadicTrunc m e)) = _
    unfold i64Sat i64Bound
    rw [if_neg (by omega), if_neg (by omega)]

theorem digit_ne {c : Char} (h : isDigit10 c = true) {d : Char}
    (hd : isDigit10 d = false) : c ≠ d := by
  intro he
  subst he
  rw [h] at hd
  cases hd

theorem intChars_of_nonneg (n : ℤ) (h : 0 ≤ n) : intChars n = natChars n.toNat := by
  unfold intChars
  rw [if_neg (by omega)]

theorem intChars_of_neg (n : ℤ) (h : n < 0) : intChars n = '-' :: natChars (-n).toNat := by
  unfold intChars
  rw [if_pos h]

theorem toLower_digit (c : Char) (h : isDigit10 c = true) : c.toLower = c := by
  have hn : 48 ≤ c.toNat ∧ c.toNat ≤ 57 := by
    unfold isDigit10 at h
    exact of_decide_eq_true h
  unfold Char.toLower
  rw [if_neg (by omega)]

theorem map_toLower_digits (ds : List Char) (h : ds.all isDigit10 = true) :
    ds.map Char.toLower = ds := by
  induction ds with
  | nil => rfl
  | cons c tl ih =>
    rw [List.all_cons] at h
    obtain ⟨hc, htl⟩ := Bool.and_eq_true_iff.mp h
    rw [List.map_cons, toLower_digit c hc, ih htl]

theorem map_toLower_numlit (k : ℤ) :
    (intChars k ++ ['.', '0']).map Char.toLower = intChars k ++ ['.', '0'] := by
  rw [List.map_append]
  congr 1
  · rcases le_or_lt 0 k with h | h
    · rw [intChars_of_nonneg k h]
      exact map_toLower_digits _ (natChars_all_digits _)
    · rw [intChars_of_neg k h, List.map_cons,
        map_toLower_digits _ (natChars_all_digits _)]
      rfl

theorem parseI64_intChars (n : ℤ) (h1 : -i64Bound ≤ n) (h2 : n ≤ i64Bound - 1) :
    parseI64 (intChars n) = some n := by
  rcases le_or_lt 0 n with hs | hs
  · rw [intChars_of_nonneg n hs]
    obtain ⟨c0, cr, hc⟩ := List.exists_cons_of_ne_nil (natChars_ne_nil n.toNat)
    have hc0 : isDigit10 c0 = true := by
      have hall := natChars_all_digits n.toNat
      rw [hc, List.all_cons] at hall
      exact (Bool.and_eq_true_iff.mp hall).1
    unfold parseI64
    split
    · rename_i rest heq
      rw [hc] at heq
      exact absurd (List.head_eq_of_cons_eq heq) (digit_ne hc0 (show isDigit10 '-' = false by decide))
    · rename_i rest heq
      rw [hc] at heq
      exact absurd (List.head_eq_of_cons_eq heq) (digit_ne hc0 (show isDigit10 '+' = false by decide))
    · simp only []
      rw [if_pos ⟨natChars_ne_nil n.toNat, natChars_all_digits n.toNat⟩, charsToNat_natChars]
      rw [if_pos ⟨by omega, by omega⟩, Int.toNat_of_nonneg hs]
      rfl
  · rw [intChars_of_neg n hs]
    unfold parseI64
    simp only []
    rw [if_pos ⟨natChars_ne_nil (-n).toNat, natChars_all_digits (-n).toNat⟩, charsToNat_natChars]
    simp only [if_true]
    have hcond : -i64Bound ≤ -(((-n).toNat : ℕ) : ℤ) ∧ -(((-n).toNat : ℕ) : ℤ) ≤ i64Bound - 1 := by
      constructor <;> omega
    rw [if_pos hcond]
    congr 1
    omega

theorem charsToNat_append0 (ds : List Char) :
    charsToNat (ds ++ ['0']) = 10 * charsToNat ds := by
  unfold charsToNat
  rw [List.foldl_append]
  simp [digitVal]
  ring

theorem intChars_mem (n : ℤ) (c : Char) (h : c ∈ intChars n) :
    isDigit10 c = true ∨ c = '-' := by
  rcases le_or_lt 0 n with hs | hs
  · rw [intChars_of_nonneg n hs] at h
    left
    exact List.all_eq_true.mp (natChars_all_digits n.toNat) c h
  · rw [intChars_of_neg n hs] at h
    rcases List.mem_cons.mp h with rfl | h2
    · right; rfl
    · left; exact List.all_eq_true.mp (natChars_all_digits (-n).toNat) c h2

theorem intChars_not_contains (n : ℤ) (c : Char) (hc : isDigit10 c = false)
    (hm : c ≠ '-') : (intChars n).contains c = false := by
  rw [Bool.eq_false_iff]
  intro h
  have hmem : c ∈ intChars n := by
    rw [List.contains_eq_any_beq] at h
    obtain ⟨x, hx, hbeq⟩ := List.any_eq_true.mp h
    rw [show c = x from eq_of_beq hbeq]
    exact hx
  rcases intChars_mem n c hmem with h2 | h2
  · rw [h2] at hc; cases hc
  · exact hm h2

theorem json_number_value_intChars (n : ℤ) (h1 : -i64Bound ≤ n) (h2 : n ≤ i64Bound - 1) :
    json_number_value (intChars n) = some (.int n) := by
  unfold json_number_value
  rw [if_neg (by
    rintro (h | h | h) <;>
      rw [intChars_not_contains n _ (by decide) (by decide)] at h <;> cases h)]
  rw [parseI64_intChars n h1 h2]

theorem parseF64_intDot0 (k : ℤ) :
    parseF64 (intChars k ++ ['.', '0']) = some (rndF64 (k * 10) 10) := by
  unfold parseF64
  simp only [map_toLower_numlit k]
  rcases le_or_lt 0 k with hs | hs
  · rw [intChars_of_nonneg k hs]
    obtain ⟨c0, cr, hc⟩ := List.exists_cons_of_ne_nil (natChars_ne_nil k.toNat)
    have hc0 : isDigit10 c0 = true := by
      have hall := natChars_all_digits k.toNat
      rw [hc, List.all_cons] at hall
      exact (Bool.and_eq_true_iff.mp hall).1
    obtain ⟨ht, hd⟩ := takeWhile_digit_prefix (natChars k.toNat) ['.', '0']
      (natChars_all_digits k.toNat) (by intro c h; simp at h; subst h; decide)
    split
    · rename_i tl heq
      rw [hc, List.cons_append] at heq
      exact absurd (List.head_eq_of_cons_eq heq) (digit_ne hc0 (by decide))
    · rename_i tl heq
      rw [hc, List.cons_append] at heq
      exact absurd (List.head_eq_of_cons_eq heq) (digit_ne hc0 (by decide))
    · rw [if_neg (by
        rintro (h | h) <;>
        rw [hc, List.cons_append] at h <;>
        exact absurd (List.head_eq_of_cons_eq h) (digit_ne hc0 (by decide)))]
      rw [if_neg (by
        intro h
        rw [hc, List.cons_append] at h
        exact absurd (List.head_eq_of_cons_eq h) (digit_ne hc0 (by decide)))]
      simp only [ht, hd, List.takeWhile_cons, List.dropWhile_cons,
        show isDigit10 '0' = true from rfl, show isDigit10 '.' = false from rfl,
        List.takeWhile_nil, List.dropWhile_nil, if_true, if_false,
        List.length_cons, List.length_nil]
      rw [if_neg (by
        intro hand
        exact natChars_ne_nil k.toNat hand.1)]
      rw [charsToNat_append0, charsToNat_natChars]
      rw [if_neg (show ¬((0:ℤ) ≤ 0 - (0 + 1 : ℕ)) by norm_num)]
      refine congrArg some ?_
      congr 1
      rw [show (if false = true then (-1:ℤ) else 1) = 1 from rfl]
      push_cast
      omega
  · rw [intChars_of_neg k hs, List.cons_append]
    obtain ⟨c0, cr, hc⟩ := List.exists_cons_of_ne_nil (natChars_ne_nil (-k).toNat)
    have hc0 : isDigit10 c0 = true := by
      have hall := natChars_all_digits (-k).toNat
      rw [hc, List.all_cons] at hall
      exact (Bool.and_eq_true_iff.mp hall).1
    obtain ⟨ht, hd⟩ := takeWhile_digit_prefix (natChars (-k).toNat) ['.', '0']
      (natChars_all_digits (-k).toNat) (by intro c h; simp at h; subst h; decide)
    simp only []
    rw [if_neg (by
      rintro (h | h) <;>
      rw [hc, List.cons_append] at h <;>
      exact absurd (List.head_eq_of_cons_eq h) (digit_ne hc0 (by decide)))]
    rw [if_neg (by
      intro h
      rw [hc, List.cons_append] at h
      exact absurd (List.head_eq_of_cons_eq h) (digit_ne hc0 (by decide)))]
    simp only [ht, hd, List.takeWhile_cons, List.dropWhile_cons,
      show isDigit10 '0' = true from rfl, show isDigit10 '.' = false from rfl,
      List.takeWhile_nil, List.dropWhile_nil, if_true, if_false,
      List.length_cons, List.length_nil]
    rw [if_neg (by
      intro hand
      exact natChars_ne_nil (-k).toNat hand.1)]
    rw [charsToNat_append0, charsToNat_natChars]
    rw [if_neg (show ¬((0:ℤ) ≤ 0 - (0 + 1 : ℕ)) by norm_num)]
    refine congrArg some ?_
    congr 1
    push_cast
    omega

theorem json_number_value_intDot0 (k : ℤ) :
    json_number_value (intChars k ++ ['.', '0']) = some (.float (rndF64 (k * 10) 10)) := by
  unfold json_number_value
  rw [if_pos (Or.inl (by
    rw [List.contains_eq_any_beq, List.any_append]
    simp))]
  rw [parseF64_intDot0 k]

theorem json_float_roundtrip (m e : ℤ)
    (hint : dyadicIsInt m e = true)
    (hlt : ratCompare (dyadicNum (m.natAbs : ℤ) e) (dyadicDen e) ((10:ℤ)^15) 1 = .lt) :
    ∃ f', json_number_value (json_serialize_float (.finite m e)) = some (.float f') ∧
      f64Eq f' (.finite m e) = true := by
  obtain ⟨hto, habs, hval, hser⟩ := jsonFloat_facts m e hint hlt
  rw [hser, json_number_value_intDot0 (dyadicTrunc m e)]
  by_cases hk0 : dyadicTrunc m e = 0
  · refine ⟨rndF64 (dyadicTrunc m e * 10) 10, rfl, ?_⟩
    rw [hk0]
    rw [show rndF64 ((0:ℤ) * 10) 10 = .finite 0 0 from rfl]
    refine f64Eq_of_qval 0 0 m e ?_
    rw [← hval, hk0]
    simp
  · obtain ⟨m', e', hrnd, hv⟩ := rndF64_exact_int (dyadicTrunc m e) 10 (by norm_num) hk0
      (by omega)
      (by
        have hp : (10:ℕ) ^ 16 ≤ pow2 65536 := by decide
        have h10 : (10:ℤ).toNat = 10 := rfl
        rw [h10]
        omega)
      (by decide)
    refine ⟨.finite m' e', by rw [hrnd], f64Eq_of_qval m' e' m e (hv.trans hval)⟩

theorem pow2_intCast (k : ℕ) : ((pow2 k : ℕ) : ℤ) = 2 ^ k := by
  rw [pow2_eq]
  push_cast
  rfl

theorem digitsGo_length : ∀ (fuel n p : ℕ), n < 10 ^ p → (digitsGo fuel n).length ≤ p := by
  intro fuel
  induction fuel with
  | zero =>
    intro n p h
    simp [digitsGo]
  | succ fuel ih =>
    intro n p h
    by_cases h0 : n = 0
    · subst h0
      simp [digitsGo]
    · simp only [digitsGo, if_neg h0, List.length_cons]
      have hp1 : 1 ≤ p := by
        rcases Nat.eq_zero_or_pos p with rfl | hpos
        · omega
        · omega
      have h10 : 10 ^ p = 10 ^ (p - 1) * 10 := by
        rw [← pow_succ]
        congr 1
        omega
      have hd : n / 10 < 10 ^ (p - 1) := by omega
      have := ih (n / 10) (p - 1) hd
      omega

theorem natChars_length_le (n p : ℕ) (hp : 1 ≤ p) (h : n < 10 ^ p) :
    (natChars n).length ≤ p := by
  unfold natChars
  split
  · simpa using hp
  · rw [List.length_map, List.length_reverse]
    exact digitsGo_length _ n p h

theorem charsToNat_foldl_acc :
    ∀ (ds : List Char) (a : ℕ),
      ds.foldl (fun acc c => acc * 10 + digitVal c) a = a * 10 ^ ds.length + charsToNat ds := by
  intro ds
  induction ds with
  | nil =>
    intro a
    simp [charsToNat]
  | cons c tl ih =>
    intro a
    have h1 : (c :: tl).foldl (fun acc c => acc * 10 + digitVal c) a
        = tl.foldl (fun acc c => acc * 10 + digitVal c) (a * 10 + digitVal c) := rfl
    have h2 : charsToNat (c :: tl)
        = tl.foldl (fun acc c => acc * 10 + digitVal c) (0 * 10 + digitVal c) := rfl
    rw [h1, ih (a * 10 + digitVal c), h2, ih (0 * 10 + digitVal c)]
    simp only [List.length_cons, pow_succ]
    ring

theorem charsToNat_append (ds1 ds2 : List Char) :
    charsToNat (ds1 ++ ds2) = charsToNat ds1 * 10 ^ ds2.length + charsToNat ds2 := by
  show (ds1 ++ ds2).foldl (fun acc c => acc * 10 + digitVal c) 0 = _
  rw [List.foldl_append]
  exact charsToNat_foldl_acc ds2 _

theorem charsToNat_replicate0_append :
    ∀ (k : ℕ) (ds : List Char),
      charsToNat (List.replicate k '0' ++ ds) = charsToNat ds := by
  intro k
  induction k with
  | zero =>
    intro ds
    rfl
  | succ k ih =>
    intro ds
    show charsToNat ('0' :: (List.replicate k '0' ++ ds)) = charsToNat ds
    have h1 : charsToNat ('0' :: (List.replicate k '0' ++ ds))
        = charsToNat (List.replicate k '0' ++ ds) := rfl
    rw [h1]
    exact ih ds

theorem padDigits_all_digits (p n : ℕ) : (padDigits p n).all isDigit10 = true := by
  unfold padDigits
  rw [List.all_append]
  refine Bool.and_eq_true_iff.mpr ⟨?_, natChars_all_digits _⟩
  rw [List.all_eq_true]
  intro c hc
  rw [List.eq_of_mem_replicate hc]
  decide

theorem padDigits_length (p n : ℕ) (hp : 1 ≤ p) : (padDigits p n).length = p := by
  unfold padDigits
  rw [List.length_append, List.length_replicate]
  have h1 : (natChars (n % 10 ^ p)).length ≤ p :=
    natChars_length_le _ p hp (Nat.mod_lt _ (by positivity))
  omega

theorem charsToNat_padDigits (p n : ℕ) : charsToNat (padDigits p n) = n % 10 ^ p := by
  unfold padDigits
  rw [charsToNat_replicate0_append, charsToNat_natChars]

theorem map_toLower_decChars (neg : Bool) (n p : ℕ) :
    (decChars neg n p).map Char.toLower = decChars neg n p := by
  have hdot : Char.toLower '.' = '.' := by decide
  have hdash : Char.toLower '-' = '-' := by decide
  have hzero : Char.toLower '0' = '0' := by decide
  have h1 : (natChars (n / 10 ^ p)).map Char.toLower = natChars (n / 10 ^ p) :=
    map_toLower_digits _ (natChars_all_digits _)
  have h2 : (natChars (n % 10 ^ p)).map Char.toLower = natChars (n % 10 ^ p) :=
    map_toLower_digits _ (natChars_all_digits _)
  cases neg with
  | false =>
    have e1 : decChars false n p
        = natChars (n / 10 ^ p) ++ '.' ::
            (List.replicate (p - (natChars (n % 10 ^ p)).length) '0' ++ natChars (n % 10 ^ p)) := rfl
    rw [e1]
    simp only [List.map_append, List.map_cons, List.map_replicate, hdot, hzero, h1, h2]
  | true =>
    have e1 : decChars true n p
        = '-' :: (natChars (n / 10 ^ p) ++ '.' ::
            (List.replicate (p - (natChars (n % 10 ^ p)).length) '0' ++ natChars (n % 10 ^ p))) := rfl
    rw [e1]
    simp only [List.map_cons, List.map_append, List.map_replicate, hdot, hdash, hzero, h1, h2]

theorem parseF64_decChars (neg : Bool) (n p : ℕ) (hp : 1 ≤ p) :
    parseF64 (decChars neg n p)
      = some (rndF64 ((if neg then (-1 : ℤ) else 1) * (n : ℤ)) ((10 : ℤ) ^ p)) := by
  obtain ⟨c0, cr, hc⟩ := List.exists_cons_of_ne_nil (natChars_ne_nil (n / 10 ^ p))
  have hc0 : isDigit10 c0 = true := by
    have hall := natChars_all_digits (n / 10 ^ p)
    rw [hc, List.all_cons] at hall
    exact (Bool.and_eq_true_iff.mp hall).1
  obtain ⟨ht1, hd1⟩ := takeWhile_digit_prefix (natChars (n / 10 ^ p)) ('.' :: padDigits p n)
    (natChars_all_digits _) (by intro c h; simp at h; subst h; decide)
  have hpadapp : padDigits p n ++ ([] : List Char) = padDigits p n := List.append_nil _
  obtain ⟨ht2, hd2⟩ := takeWhile_digit_prefix (padDigits p n) [] (padDigits_all_digits p n)
    (by intro c h; simp at h)
  rw [hpadapp] at ht2 hd2
  have hlen : (padDigits p n).length = p := padDigits_length p n hp
  have hmant : charsToNat (natChars (n / 10 ^ p) ++ padDigits p n) = n := by
    rw [charsToNat_append, charsToNat_natChars, charsToNat_padDigits, hlen, mul_comm]
    exact Nat.div_add_mod n (10 ^ p)
  unfold parseF64
  simp only [map_toLower_decChars neg n p]
  cases neg with
  | false =>
    have e1 : decChars false n p = natChars (n / 10 ^ p) ++ '.' :: padDigits p n := rfl
    rw [e1]
    split
    · rename_i tl heq
      rw [hc, List.cons_append] at heq
      exact absurd (List.head_eq_of_cons_eq heq) (digit_ne hc0 (by decide))
    · rename_i tl heq
      rw [hc, List.cons_append] at heq
      exact absurd (List.head_eq_of_cons_eq heq) (digit_ne hc0 (by decide))
    · rw [if_neg (by
        rintro (h | h) <;>
        rw [hc, List.cons_append] at h <;>
        exact absurd (List.head_eq_of_cons_eq h) (digit_ne hc0 (by decide)))]
      rw [if_neg (by
        intro h
        rw [hc, List.cons_append] at h
        exact absurd (List.head_eq_of_cons_eq h) (digit_ne hc0 (by decide)))]
      simp only [ht1, hd1, ht2, hd2]
      rw [if_neg (by
        intro hand
        exact natChars_ne_nil (n / 10 ^ p) hand.1)]
      rw [hmant, hlen]
      rw [if_neg (show ¬((0:ℤ) ≤ 0 - (p:ℕ)) by omega)]
      have hT : ((-((0:ℤ) - (p:ℕ))).toNat) = p := by omega
      rw [hT]
  | true =>
    have e1 : decChars true n p = '-' :: (natChars (n / 10 ^ p) ++ '.' :: padDigits p n) := rfl
    rw [e1]
    simp only []
    rw [if_neg (by
      rintro (h | h) <;>
      rw [hc, List.cons_append] at h <;>
      exact absurd (List.head_eq_of_cons_eq h) (digit_ne hc0 (by decide)))]
    rw [if_neg (by
      intro h
      rw [hc, List.cons_append] at h
      exact absurd (List.head_eq_of_cons_eq h) (digit_ne hc0 (by decide)))]
    simp only [ht1, hd1, ht2, hd2]
    rw [if_neg (by
      intro hand
      exact natChars_ne_nil (n / 10 ^ p) hand.1)]
    rw [hmant, hlen]
    rw [if_neg (show ¬((0:ℤ) ≤ 0 - (p:ℕ)) by omega)]
    have hT : ((-((0:ℤ) - (p:ℕ))).toNat) = p := by omega
    rw [hT]

theorem decChars_contains_dot (neg : Bool) (n p : ℕ) :
    (decChars neg n p).contains '.' = true := by
  unfold decChars
  rw [List.contains_eq_any_beq, List.any_append, List.any_append]
  simp

theorem dyadicIsInt_of_nonneg (m e : ℤ) (h : 0 ≤ e) : dyadicIsInt m e = true := by
  unfold dyadicIsInt dyadicTrunc dyadicDen dyadicNum
  rw [if_pos h, if_pos h, if_pos h]
  simp

theorem dyadicIsInt_zero (e : ℤ) : dyadicIsInt 0 e = true := by
  unfold dyadicIsInt dyadicTrunc dyadicDen dyadicNum
  rcases le_or_lt 0 e with h | h
  · rw [if_pos h, if_pos h, if_pos h]
    simp
  · rw [if_neg (by omega), if_neg (by omega), if_neg (by omega)]
    simp [Int.zero_tdiv]

theorem displayF64_frac (m e : ℤ) (hni : dyadicIsInt m e = false) :
    displayF64 (.finite m e) = dispShortest m (-e).toNat ∧ e < 0 ∧ m ≠ 0 := by
  have he : e < 0 := by
    by_contra hc
    push_neg at hc
    rw [dyadicIsInt_of_nonneg m e hc] at hni
    cases hni
  have hm : m ≠ 0 := by
    rintro rfl
    rw [dyadicIsInt_zero e] at hni
    cases hni
  refine ⟨?_, he, hm⟩
  have e1 : displayF64 (.finite m e)
      = (if dyadicIsInt m e = true ∧ (dyadicTrunc m e).natAbs < pow2 53 then
           intChars (dyadicTrunc m e)
         else if 0 ≤ e then intChars (dyadicTrunc m e)
         else dispShortest m (-e).toNat) := rfl
  rw [e1, if_neg (by rintro ⟨h1, -⟩; rw [hni] at h1; cases h1), if_neg (by omega)]

theorem json_serialize_float_frac (m e : ℤ) (hni : dyadicIsInt m e = false) :
    json_serialize_float (.finite m e) = dispShortest m (-e).toNat ∧ e < 0 ∧ m ≠ 0 := by
  obtain ⟨hd, he, hm⟩ := displayF64_frac m e hni
  refine ⟨?_, he, hm⟩
  have e1 : json_serialize_float (.finite m e)
      = (if dyadicIsInt m e = true ∧
            ratCompare (dyadicNum (m.natAbs : ℤ) e) (dyadicDen e) ((10:ℤ)^15) 1 = Ordering.lt
         then intChars (f64ToI64 (.finite m e)) ++ ['.', '0']
         else displayF64 (.finite m e)) := rfl
  rw [e1, if_neg (by rintro ⟨h1, -⟩; rw [hni] at h1; cases h1), hd]

theorem rndF64_exact_dyadic (m : ℤ) (t : ℕ) (hm : m ≠ 0)
    (hma : m.natAbs < 2 ^ 53) (ht1 : 1 ≤ t) (ht : t ≤ 1074) :
    ∃ m' e' : ℤ, rndF64 (m * 5 ^ t) ((10 : ℤ) ^ t) = .finite m' e' ∧
      (m' : ℚ) * 2 ^ e' = (m : ℚ) * 2 ^ (-(t : ℤ)) := by
  have h5 : (0:ℤ) < 5 ^ t := by positivity
  have h10 : (0:ℤ) < (10:ℤ) ^ t := by positivity
  have ha0 : m * 5 ^ t ≠ 0 := by
    intro h
    rcases mul_eq_zero.mp h with h | h
    · exact hm h
    · exact absurd h (ne_of_gt h5)
  have hmabs : 0 < |m| := abs_pos.mpr hm
  set kp : ℤ := |m| * 5 ^ t with hkp
  have hkp0 : 0 < kp := by
    rw [hkp]
    exact mul_pos hmabs h5
  have hnval : (if 0 < m * 5 ^ t then m * 5 ^ t else -(m * 5 ^ t)) = kp := by
    rw [hkp]
    rcases lt_or_gt_of_ne hm with hneg | hpos
    · rw [if_neg (by nlinarith), abs_of_neg hneg]; ring
    · rw [if_pos (by positivity), abs_of_pos hpos]
  have habs_eq : kp = (m.natAbs : ℤ) * 5 ^ t := by
    rw [hkp, Int.abs_eq_natAbs]
  have hc53 : ((2:ℕ) ^ 53 * 5 ^ 1074 : ℕ) < pow2 65536 := by
    rw [pow2_eq]
    calc (2:ℕ) ^ 53 * 5 ^ 1074 ≤ 2 ^ 53 * 2 ^ 3222 := by
          refine Nat.mul_le_mul_left _ ?_
          calc (5:ℕ) ^ 1074 ≤ 8 ^ 1074 := Nat.pow_le_pow_left (by norm_num) 1074
            _ = 2 ^ 3222 := by
                rw [show (8:ℕ) = 2 ^ 3 from rfl, ← pow_mul]
      _ = 2 ^ 3275 := by rw [← pow_add]
      _ < 2 ^ 65536 := Nat.pow_lt_pow_right (by norm_num) (by norm_num)
  have hkple : kp ≤ (2:ℤ) ^ 53 * 5 ^ 1074 := by
    rw [habs_eq]
    have h1 : (m.natAbs : ℤ) ≤ 2 ^ 53 := by exact_mod_cast hma.le
    have h2 : (5:ℤ) ^ t ≤ 5 ^ 1074 := pow_le_pow_right₀ (by norm_num) ht
    exact mul_le_mul h1 h2 (by positivity) (by positivity)
  have hkpB : kp.toNat < pow2 65536 := by
    have h3 : kp ≤ (((2:ℕ) ^ 53 * 5 ^ 1074 : ℕ) : ℤ) := by
      rw [show (((2:ℕ) ^ 53 * 5 ^ 1074 : ℕ) : ℤ) = (2:ℤ) ^ 53 * 5 ^ 1074 from by push_cast; rfl]
      exact hkple
    exact lt_of_le_of_lt (Int.toNat_le.mpr h3) hc53
  have hc10 : ((10:ℕ) ^ 1074 : ℕ) < pow2 65536 := by
    rw [pow2_eq]
    calc (10:ℕ) ^ 1074 ≤ 16 ^ 1074 := Nat.pow_le_pow_left (by norm_num) 1074
      _ = 2 ^ 4296 := by
          rw [show (16:ℕ) = 2 ^ 4 from rfl, ← pow_mul]
      _ < 2 ^ 65536 := Nat.pow_lt_pow_right (by norm_num) (by norm_num)
  have htB : ((10:ℤ) ^ t).toNat < pow2 65536 := by
    have h3 : (10:ℤ) ^ t ≤ (((10:ℕ) ^ 1074 : ℕ) : ℤ) := by
      rw [show (((10:ℕ) ^ 1074 : ℕ) : ℤ) = (10:ℤ) ^ 1074 from by push_cast; rfl]
      exact pow_le_pow_right₀ (by norm_num) ht
    exact lt_of_le_of_lt (Int.toNat_le.mpr h3) hc10
  obtain ⟨hlo, -⟩ := ratFloorLog2_spec kp ((10:ℤ) ^ t) hkp0 h10 hkpB htB
  clear hc53 hc10 hkple hkpB htB
  set F : ℤ := ratFloorLog2 kp ((10:ℤ) ^ t) with hF
  have hq10 : (((10:ℤ) ^ t : ℤ) : ℚ) = 5 ^ t * 2 ^ t := by
    push_cast
    rw [show (10:ℚ) = 5 * 2 from by norm_num, mul_pow]
  have hkpq : (kp : ℚ) = |(m:ℚ)| * 5 ^ t := by
    rw [hkp]
    push_cast
    ring
  have hmlt : |m| < 2 ^ 53 := by
    rw [Int.abs_eq_natAbs]
    exact_mod_cast hma
  have hFle : F ≤ 52 - (t : ℤ) := by
    by_contra hc
    push_neg at hc
    have h5q : (0:ℚ) < 5 ^ t := by positivity
    have hlo2 : (2:ℚ) ^ F * (5 ^ t * 2 ^ t) ≤ |(m:ℚ)| * 5 ^ t := by
      rw [← hq10, ← hkpq]
      exact hlo
    have h2q : (2:ℚ) ^ F * 2 ^ t ≤ |(m:ℚ)| := by nlinarith
    have h3q : (2:ℚ) ^ (F + (t:ℤ)) ≤ |(m:ℚ)| := by
      rw [zpow_add₀ (by norm_num : (2:ℚ) ≠ 0), show (2:ℚ) ^ ((t:ℕ):ℤ) = 2 ^ t from zpow_natCast 2 t]
      exact h2q
    have h4q : (2:ℚ) ^ ((53:ℤ)) ≤ 2 ^ (F + (t:ℤ)) :=
      zpow_le_zpow_right₀ (by norm_num) (by omega)
    have h5q2 : |(m:ℚ)| < 2 ^ ((53:ℤ)) := by
      rw [show ((53:ℤ)) = ((53:ℕ):ℤ) from rfl, zpow_natCast]
      exact_mod_cast hmlt
    linarith
  unfold rndF64
  rw [if_neg ha0]
  simp only [hnval, ← hF]
  set u : ℤ := max (F - 52) (-1074) with hu
  have hut : u ≤ -(t:ℤ) := by
    rw [hu]
    refine max_le (by omega) (by omega)
  have hu0 : ¬ (0 ≤ u) := by omega
  rw [if_neg hu0]
  have hsplit : ((pow2 (-u).toNat : ℕ) : ℤ) = 2 ^ ((-u).toNat - t) * 2 ^ t := by
    rw [pow2_intCast, ← pow_add]
    congr 1
    omega
  have h25 : (10:ℤ) ^ t = 2 ^ t * 5 ^ t := by
    rw [show (10:ℤ) = 2 * 5 from rfl, mul_pow]
  have hprod : kp * ((pow2 (-u).toNat : ℕ) : ℤ)
      = (10:ℤ) ^ t * (|m| * 2 ^ ((-u).toNat - t)) := by
    rw [hsplit, hkp, h25]
    ring
  have hdvd : (10:ℤ) ^ t ∣ kp * ((pow2 (-u).toNat : ℕ) : ℤ) :=
    ⟨|m| * 2 ^ ((-u).toNat - t), hprod⟩
  rw [roundHalfEven_exact _ _ h10 hdvd]
  have hediv : (kp * ((pow2 (-u).toNat : ℕ) : ℤ)).ediv ((10:ℤ) ^ t)
      = |m| * 2 ^ ((-u).toNat - t) := by
    rw [hprod]
    exact Int.mul_ediv_cancel_left _ (ne_of_gt h10)
  rw [hediv]
  rw [if_neg (by
    push_neg
    rw [pow2_intCast]
    calc |m| * 2 ^ ((-u).toNat - t)
        < 2 ^ 53 * 2 ^ ((-u).toNat - t) := by
          refine mul_lt_mul_of_pos_right hmlt (by positivity)
      _ = 2 ^ (53 + ((-u).toNat - t)) := by rw [pow_add]
      _ ≤ 2 ^ (1024 - u).toNat := by
          refine pow_le_pow_right₀ (by norm_num) ?_
          omega)]
  refine ⟨(if 0 < m * 5 ^ t then (1:ℤ) else -1) * (|m| * 2 ^ ((-u).toNat - t)), u, rfl, ?_⟩
  have hs : (if 0 < m * 5 ^ t then (1:ℤ) else -1) * |m| = m := by
    rcases lt_or_gt_of_ne hm with hneg | hpos
    · rw [if_neg (by nlinarith), abs_of_neg hneg]; ring
    · rw [if_pos (by positivity), abs_of_pos hpos]; ring
  have hsq : (((if 0 < m * 5 ^ t then (1:ℤ) else -1) : ℤ) : ℚ) * (((|m| : ℤ)) : ℚ) = (m : ℚ) := by
    exact_mod_cast hs
  have hexp : ((((-u).toNat - t : ℕ) : ℤ)) + u = -(t:ℤ) := by omega
  rw [Int.cast_mul, Int.cast_mul]
  calc (((if 0 < m * 5 ^ t then (1:ℤ) else -1) : ℤ) : ℚ)
        * ((((|m| : ℤ)) : ℚ) * (((2:ℤ) ^ ((-u).toNat - t) : ℤ) : ℚ)) * 2 ^ u
      = ((((if 0 < m * 5 ^ t then (1:ℤ) else -1) : ℤ) : ℚ) * (((|m| : ℤ)) : ℚ))
          * ((2:ℚ) ^ ((((-u).toNat - t : ℕ) : ℤ)) * 2 ^ u) := by
        rw [show (((2:ℤ) ^ ((-u).toNat - t) : ℤ) : ℚ) = (2:ℚ) ^ ((((-u).toNat - t : ℕ) : ℤ))
          from by push_cast; rw [zpow_natCast]]
        ring
    _ = (m : ℚ) * 2 ^ (-(t:ℤ)) := by
        rw [hsq, ← zpow_add₀ (by norm_num : (2:ℚ) ≠ 0), hexp]

theorem rtCheck_exact (m : ℤ) (t : ℕ) (hm : m ≠ 0) (hma : m.natAbs < 2 ^ 53)
    (ht1 : 1 ≤ t) (ht : t ≤ 1074) :
    rtCheck (.finite m (-(t:ℤ))) (decChars (decide (m < 0)) (m.natAbs * 5 ^ t) t) = true := by
  have hparse := parseF64_decChars (decide (m < 0)) (m.natAbs * 5 ^ t) t ht1
  obtain ⟨m', e', hrnd, hval⟩ := rndF64_exact_dyadic m t hm hma ht1 ht
  have hcast : ((m.natAbs * 5 ^ t : ℕ) : ℤ) = (m.natAbs : ℤ) * 5 ^ t := by
    push_cast
    ring
  have hsgn : (if (decide (m < 0)) = true then (-1:ℤ) else 1) * ((m.natAbs : ℤ) * 5 ^ t)
      = m * 5 ^ t := by
    rcases lt_or_le m 0 with h | h
    · rw [if_pos (by simpa using h)]
      rw [show (m.natAbs : ℤ) = -m from by omega]
      ring
    · rw [if_neg (by simp only [decide_eq_true_eq]; omega)]
      rw [show (m.natAbs : ℤ) = m from by omega]
      ring
  rw [hcast, hsgn, hrnd] at hparse
  unfold rtCheck
  rw [hparse]
  exact f64Eq_of_qval m' e' m (-(t:ℤ)) hval

theorem dispTry_some (f : F64) (neg : Bool) (am t p : ℕ) (cs : List Char)
    (h : dispTry f neg am t p = some cs) :
    rtCheck f cs = true ∧ ∃ q : ℕ, cs = decChars neg q p := by
  unfold dispTry at h
  split_ifs at h with h1 h2
  · rw [Option.some.injEq] at h
    subst h
    exact ⟨h1, _, rfl⟩
  · rw [Option.some.injEq] at h
    subst h
    exact ⟨h2, _, rfl⟩

theorem dispGo_spec (f : F64) (neg : Bool) (am t : ℕ) (ht1 : 1 ≤ t)
    (hexact : rtCheck f (decChars neg (am * 5 ^ t) t) = true) :
    ∀ (fuel p : ℕ), 1 ≤ p →
      rtCheck f (dispGo f neg am t fuel p) = true ∧
        ∃ q r : ℕ, 1 ≤ r ∧ dispGo f neg am t fuel p = decChars neg q r := by
  intro fuel
  induction fuel with
  | zero =>
    intro p hp
    exact ⟨hexact, am * 5 ^ t, t, ht1, rfl⟩
  | succ fuel ih =>
    intro p hp
    cases hTry : dispTry f neg am t p with
    | none =>
      have e1 : dispGo f neg am t (fuel + 1) p = dispGo f neg am t fuel (p + 1) := by
        show (match dispTry f neg am t p with
              | some cs => cs
              | none => dispGo f neg am t fuel (p + 1)) = _
        rw [hTry]
      rw [e1]
      exact ih (p + 1) (by omega)
    | some cs =>
      have e1 : dispGo f neg am t (fuel + 1) p = cs := by
        show (match dispTry f neg am t p with
              | some cs2 => cs2
              | none => dispGo f neg am t fuel (p + 1)) = cs
        rw [hTry]
      rw [e1]
      obtain ⟨hchk, q, hq⟩ := dispTry_some f neg am t p cs hTry
      exact ⟨hchk, q, p, hp, hq⟩

theorem dispShortest_spec (m : ℤ) (t : ℕ) (hm : m ≠ 0) (hma : m.natAbs < 2 ^ 53)
    (ht1 : 1 ≤ t) (ht : t ≤ 1074) :
    rtCheck (.finite m (-(t:ℤ))) (dispShortest m t) = true ∧
      ∃ q r : ℕ, 1 ≤ r ∧ dispShortest m t = decChars (decide (m < 0)) q r := by
  have hex := rtCheck_exact m t hm hma ht1 ht
  exact dispGo_spec (.finite m (-(t:ℤ))) (decide (m < 0)) m.natAbs t ht1 hex t 1 (by omega)

theorem json_float_frac_facts (m e : ℤ) (hni : dyadicIsInt m e = false)
    (hma : m.natAbs < 2 ^ 53) (hlo : -1074 ≤ e) :
    ∃ q r : ℕ, 1 ≤ r ∧
      json_serialize_float (.finite m e) = decChars (decide (m < 0)) q r ∧
      ∃ f', json_number_value (json_serialize_float (.finite m e)) = some (.float f') ∧
        f64Eq f' (.finite m e) = true := by
  obtain ⟨hser, he, hm⟩ := json_serialize_float_frac m e hni
  have ht1 : 1 ≤ (-e).toNat := by omega
  have ht : (-e).toNat ≤ 1074 := by omega
  have het : -((((-e).toNat : ℕ)) : ℤ) = e := by omega
  obtain ⟨hchk, q, r, hr1, hshape⟩ := dispShortest_spec m (-e).toNat hm hma ht1 ht
  refine ⟨q, r, hr1, by rw [hser, hshape], ?_⟩
  rw [het] at hchk
  unfold rtCheck at hchk
  cases hpf : parseF64 (dispShortest m (-e).toNat) with
  | none =>
    rw [hpf] at hchk
    cases hchk
  | some g =>
    rw [hpf] at hchk
    refine ⟨g, ?_, hchk⟩
    rw [hser]
    unfold json_number_value
    rw [if_pos (Or.inl (by rw [hshape]; exact decChars_contains_dot _ q r))]
    rw [hpf]

theorem digit_head_facts (d : Char) (hd : isDigit10 d = true) :
    isAsciiWs d = false ∧ d ≠ Char.ofNat 123 ∧ d ≠ Char.ofNat 125 ∧ d ≠ '[' ∧ d ≠ ']' ∧
    d ≠ ':' ∧ d ≠ ',' ∧ d ≠ '"' ∧ d ≠ 't' ∧ d ≠ 'f' ∧ d ≠ 'n' := by
  have h2 : 48 ≤ d.toNat ∧ d.toNat ≤ 57 := by
    unfold isDigit10 at hd
    exact of_decide_eq_true hd
  refine ⟨?_, ?_, ?_, ?_, ?_, ?_, ?_, ?_, ?_, ?_, ?_⟩
  · unfold isAsciiWs
    refine decide_eq_false ?_
    rintro (rfl | rfl | rfl | rfl | rfl) <;> revert h2 <;> decide
  all_goals (intro heq; subst heq; revert h2; decide)

theorem lex_number_digits (ds rest : List Char) (hne : ds ≠ [])
    (hall : ds.all isDigit10 = true)
    (hr : ∀ c, rest.head? = some c → c = ',' ∨ c = ']' ∨ c = Char.ofNat 125) :
    lex_number (ds ++ rest) = (ds, rest) := by
  obtain ⟨d, ds', rfl⟩ : ∃ d ds', ds = d :: ds' := by
    cases ds with
    | nil => exact absurd rfl hne
    | cons d t => exact ⟨d, t, rfl⟩
  have hd : isDigit10 d = true := by
    rw [List.all_cons] at hall
    exact (Bool.and_eq_true_iff.mp hall).1
  have hrd : ∀ c, rest.head? = some c → isDigit10 c = false := by
    intro c hcc
    rcases hr c hcc with rfl | rfl | rfl <;> decide
  obtain ⟨ht, hdp⟩ := takeWhile_digit_prefix (d :: ds') rest hall hrd
  unfold lex_number
  split
  · rename_i tl heq
    rw [List.cons_append] at heq
    exact absurd (List.head_eq_of_cons_eq heq) (digit_ne hd (by decide))
  · simp only [ht, hdp]
    cases rest with
    | nil => simp
    | cons c tl =>
      rcases hr c rfl with rfl | rfl | rfl <;> simp

theorem tokenize_pos_nil (g : ℕ) (hg : 0 < g) : tokenize g [] = some [] := by
  cases g with
  | zero => omega
  | succ f => rfl

theorem tokenize_ws_skip (f : ℕ) (cs : List Char) :
    tokenize (f + 1) (' ' :: cs) = tokenize (f + 1) cs := rfl

theorem tokenize_number_step (f : ℕ) (d : Char) (cs : List Char)
    (hd : d = '-' ∨ isDigit10 d = true) :
    tokenize (f + 1) (d :: cs)
      = (tokenize f (lex_number (d :: cs)).2).map (JsonToken.numberVal (lex_number (d :: cs)).1 :: ·) := by
  rcases hd with rfl | hd
  · rfl
  · obtain ⟨hws, h123, h125, hlb, hrb, hcol, hcom, hq, ht, hf, hn⟩ := digit_head_facts d hd
    simp only [tokenize, List.dropWhile_cons, hws, Bool.false_eq_true, if_false]
    rw [if_neg h123, if_neg h125, if_neg hlb, if_neg hrb, if_neg hcol, if_neg hcom,
      if_neg hq, if_neg ht, if_neg hf, if_neg hn, if_pos (Or.inr hd)]

theorem tokenize_string_step (f : ℕ) (rest s rest2 : List Char)
    (hlex : lex_string (rest.length + 1) rest = some (s, rest2)) :
    tokenize (f + 1) ('"' :: rest) = (tokenize f rest2).map (.stringVal s :: ·) := by
  have e1 : tokenize (f + 1) ('"' :: rest)
      = (match lex_string (rest.length + 1) rest with
         | none => none
         | some (s, rest2) => (tokenize f rest2).map (.stringVal s :: ·)) := rfl
  rw [e1, hlex]

theorem hexVal_hexChar (d : ℕ) (h : d < 16) : hexVal (hexChar d) = some d := by
  interval_cases d <;> decide

theorem hexToNat_hex4 (n : ℕ) (h : n < 65536) : hexToNat (hex4 n) = some n := by
  unfold hex4 hexToNat
  simp only [List.foldl_cons, List.foldl_nil]
  rw [hexVal_hexChar _ (by omega), hexVal_hexChar _ (by omega),
    hexVal_hexChar _ (by omega), hexVal_hexChar _ (by omega)]
  show some ((((0 * 16 + n / 4096 % 16) * 16 + n / 256 % 16) * 16 + n / 16 % 16) * 16 + n % 16)
    = some n
  congr 1
  omega

theorem jsonEscapeChar_ne_nil (c : Char) : jsonEscapeChar c ≠ [] := by
  unfold jsonEscapeChar
  split_ifs <;> simp

theorem lex_string_escape_roundtrip :
    ∀ (fuel : ℕ) (s X : List Char),
      ((s.map jsonEscapeChar).flatten ++ '"' :: X).length < fuel →
      lex_string fuel ((s.map jsonEscapeChar).flatten ++ '"' :: X) = some (s, X) := by
  intro fuel
  induction fuel with
  | zero =>
    intro s X h
    omega
  | succ fuel ih =>
    intro s X h
    cases s with
    | nil => rfl
    | cons c s' =>
      have hfl : ((c :: s').map jsonEscapeChar).flatten
          = jsonEscapeChar c ++ (s'.map jsonEscapeChar).flatten := by simp
      rw [hfl] at h ⊢
      rw [List.append_assoc] at h ⊢
      have hYlen : ((s'.map jsonEscapeChar).flatten ++ '"' :: X).length < fuel := by
        have hec : 1 ≤ (jsonEscapeChar c).length := by
          have := jsonEscapeChar_ne_nil c
          cases hjc : jsonEscapeChar c with
          | nil => exact absurd hjc this
          | cons a b => simp [hjc]
        rw [List.length_append] at h
        omega
      have ihY := ih s' X hYlen
      unfold jsonEscapeChar
      split_ifs with h1 h2 h3 h4 h5 h6
      · subst h1
        show lex_string (fuel + 1)
          ('\\' :: '"' :: ((s'.map jsonEscapeChar).flatten ++ '"' :: X)) = _
        have e : lex_string (fuel + 1)
            ('\\' :: '"' :: ((s'.map jsonEscapeChar).flatten ++ '"' :: X))
            = (lex_string fuel ((s'.map jsonEscapeChar).flatten ++ '"' :: X)).map
                (fun r => ('"' :: r.1, r.2)) := rfl
        rw [e, ihY]
        rfl
      · subst h2
        show lex_string (fuel + 1)
          ('\\' :: '\\' :: ((s'.map jsonEscapeChar).flatten ++ '"' :: X)) = _
        have e : lex_string (fuel + 1)
            ('\\' :: '\\' :: ((s'.map jsonEscapeChar).flatten ++ '"' :: X))
            = (lex_string fuel ((s'.map jsonEscapeChar).flatten ++ '"' :: X)).map
                (fun r => ('\\' :: r.1, r.2)) := rfl
        rw [e, ihY]
        rfl
      · subst h3
        show lex_string (fuel + 1)
          ('\\' :: 'n' :: ((s'.map jsonEscapeChar).flatten ++ '"' :: X)) = _
        have e : lex_string (fuel + 1)
            ('\\' :: 'n' :: ((s'.map jsonEscapeChar).flatten ++ '"' :: X))
            = (lex_string fuel ((s'.map jsonEscapeChar).flatten ++ '"' :: X)).map
                (fun r => ('\n' :: r.1, r.2)) := rfl
        rw [e, ihY]
        rfl
      · subst h4
        show lex_string (fuel + 1)
          ('\\' :: 'r' :: ((s'.map jsonEscapeChar).flatten ++ '"' :: X)) = _
        have e : lex_string (fuel + 1)
            ('\\' :: 'r' :: ((s'.map jsonEscapeChar).flatten ++ '"' :: X))
            = (lex_string fuel ((s'.map jsonEscapeChar).flatten ++ '"' :: X)).map
                (fun r => ('\r' :: r.1, r.2)) := rfl
        rw [e, ihY]
        rfl
      · subst h5
        show lex_string (fuel + 1)
          ('\\' :: 't' :: ((s'.map jsonEscapeChar).flatten ++ '"' :: X)) = _
        have e : lex_string (fuel + 1)
            ('\\' :: 't' :: ((s'.map jsonEscapeChar).flatten ++ '"' :: X))
            = (lex_string fuel ((s'.map jsonEscapeChar).flatten ++ '"' :: X)).map
                (fun r => ('\t' :: r.1, r.2)) := rfl
        rw [e, ihY]
        rfl
      · -- \uXXXX escape for c.toNat < 32
        show lex_string (fuel + 1)
          ('\\' :: 'u' :: (hex4 c.toNat ++ ((s'.map jsonEscapeChar).flatten ++ '"' :: X))) = _
        have e : lex_string (fuel + 1)
            ('\\' :: 'u' :: (hex4 c.toNat ++ ((s'.map jsonEscapeChar).flatten ++ '"' :: X)))
            = (lex_string fuel ((s'.map jsonEscapeChar).flatten ++ '"' :: X)).map
                (fun r =>
                  ((if ((hexToNat (hex4 c.toNat)).getD 0).isValidChar
                    then [Char.ofNat ((hexToNat (hex4 c.toNat)).getD 0)] else []) ++ r.1, r.2)) := rfl
        rw [e, ihY, hexToNat_hex4 c.toNat (by omega)]
        simp only [Option.getD_some, Option.map_some']
        rw [if_pos (Or.inl (by omega : c.toNat < 55296))]
        rw [Char.ofNat_toNat]
        rfl
      · -- plain character
        show lex_string (fuel + 1)
          (c :: ((s'.map jsonEscapeChar).flatten ++ '"' :: X)) = _
        simp only [lex_string]
        rw [ihY]
        rfl

theorem tokenize_lbracket_step (f : ℕ) (cs : List Char) :
    tokenize (f + 1) ('[' :: cs) = (tokenize f cs).map (.lbracket :: ·) := rfl

theorem tokenize_rbracket_step (f : ℕ) (cs : List Char) :
    tokenize (f + 1) (']' :: cs) = (tokenize f cs).map (.rbracket :: ·) := rfl

theorem tokenize_lbrace_step (f : ℕ) (cs : List Char) :
    tokenize (f + 1) (Char.ofNat 123 :: cs) = (tokenize f cs).map (.lbrace :: ·) := rfl

theorem tokenize_rbrace_step (f : ℕ) (cs : List Char) :
    tokenize (f + 1) (Char.ofNat 125 :: cs) = (tokenize f cs).map (.rbrace :: ·) := rfl

theorem tokenize_colon_step (f : ℕ) (cs : List Char) :
    tokenize (f + 1) (':' :: cs) = (tokenize f cs).map (.colon :: ·) := rfl

theorem tokenize_comma_step (f : ℕ) (cs : List Char) :
    tokenize (f + 1) (',' :: cs) = (tokenize f cs).map (.comma :: ·) := rfl

theorem tokenize_true_step (f : ℕ) (cs : List Char) :
    tokenize (f + 1) ('t' :: 'r' :: 'u' :: 'e' :: cs) = (tokenize f cs).map (.tru :: ·) := rfl

theorem tokenize_false_step (f : ℕ) (cs : List Char) :
    tokenize (f + 1) ('f' :: 'a' :: 'l' :: 's' :: 'e' :: cs) = (tokenize f cs).map (.fls :: ·) := rfl

theorem tokenize_null_step (f : ℕ) (cs : List Char) :
    tokenize (f + 1) ('n' :: 'u' :: 'l' :: 'l' :: cs) = (tokenize f cs).map (.nul :: ·) := rfl

theorem lex_number_neg_digits (ds rest : List Char) (hne : ds ≠ [])
    (hall : ds.all isDigit10 = true)
    (hr : ∀ c, rest.head? = some c → c = ',' ∨ c = ']' ∨ c = Char.ofNat 125) :
    lex_number ('-' :: (ds ++ rest)) = ('-' :: ds, rest) := by
  have hrd : ∀ c, rest.head? = some c → isDigit10 c = false := by
    intro c hcc
    rcases hr c hcc with rfl | rfl | rfl <;> decide
  obtain ⟨ht, hdp⟩ := takeWhile_digit_prefix ds rest hall hrd
  unfold lex_number
  simp only [ht, hdp]
  cases rest with
  | nil => simp
  | cons c tl =>
    rcases hr c rfl with rfl | rfl | rfl <;> simp

theorem lex_number_intDot0 (k : ℤ) (rest : List Char)
    (hr : ∀ c, rest.head? = some c → c = ',' ∨ c = ']' ∨ c = Char.ofNat 125) :
    lex_number (intChars k ++ ('.' :: '0' :: rest)) = (intChars k ++ ['.', '0'], rest) := by
  have hrd : ∀ c, rest.head? = some c → isDigit10 c = false := by
    intro c hcc
    rcases hr c hcc with rfl | rfl | rfl <;> decide
  obtain ⟨ht2, hd2⟩ := takeWhile_digit_prefix ['0'] rest (by decide) hrd
  simp only [List.singleton_append] at ht2 hd2
  rcases le_or_lt 0 k with hs | hs
  · rw [intChars_of_nonneg k hs]
    obtain ⟨c0, cr, hc⟩ := List.exists_cons_of_ne_nil (natChars_ne_nil k.toNat)
    have hc0 : isDigit10 c0 = true := by
      have hall := natChars_all_digits k.toNat
      rw [hc, List.all_cons] at hall
      exact (Bool.and_eq_true_iff.mp hall).1
    obtain ⟨ht1, hd1⟩ := takeWhile_digit_prefix (natChars k.toNat) ('.' :: '0' :: rest)
      (natChars_all_digits k.toNat) (by intro c h; simp at h; subst h; decide)
    unfold lex_number
    split
    · rename_i tl heq
      rw [hc, List.cons_append] at heq
      exact absurd (List.head_eq_of_cons_eq heq) (digit_ne hc0 (by decide))
    · simp only [ht1, hd1, ht2, hd2]
      cases rest with
      | nil => simp
      | cons c tl =>
        rcases hr c rfl with rfl | rfl | rfl <;> simp
  · rw [intChars_of_neg k hs]
    obtain ⟨ht1, hd1⟩ := takeWhile_digit_prefix (natChars (-k).toNat) ('.' :: '0' :: rest)
      (natChars_all_digits (-k).toNat) (by intro c h; simp at h; subst h; decide)
    unfold lex_number
    simp only [List.cons_append, ht1, hd1, ht2, hd2]
    cases rest with
    | nil => simp
    | cons c tl =>
      rcases hr c rfl with rfl | rfl | rfl <;> simp

theorem tokenize_int_tok (f : ℕ) (n : ℤ) (rest : List Char) (ts : List JsonToken)
    (hr : ∀ c, rest.head? = some c → c = ',' ∨ c = ']' ∨ c = Char.ofNat 125)
    (hcont : ∀ g, rest.length < g → tokenize g rest = some ts)
    (hf : (intChars n ++ rest).length < f + 1) :
    tokenize (f + 1) (intChars n ++ rest) = some (.numberVal (intChars n) :: ts) := by
  have hlex : lex_number (intChars n ++ rest) = (intChars n, rest) := by
    rcases le_or_lt 0 n with hs | hs
    · rw [intChars_of_nonneg n hs]
      exact lex_number_digits _ _ (natChars_ne_nil _) (natChars_all_digits _) hr
    · rw [intChars_of_neg n hs, List.cons_append]
      exact lex_number_neg_digits _ _ (natChars_ne_nil _) (natChars_all_digits _) hr
  have hhead : ∃ d cs, intChars n ++ rest = d :: cs ∧ (d = '-' ∨ isDigit10 d = true) := by
    rcases le_or_lt 0 n with hs | hs
    · rw [intChars_of_nonneg n hs]
      obtain ⟨c0, cr, hc⟩ := List.exists_cons_of_ne_nil (natChars_ne_nil n.toNat)
      refine ⟨c0, cr ++ rest, by rw [hc, List.cons_append], Or.inr ?_⟩
      have hall := natChars_all_digits n.toNat
      rw [hc, List.all_cons] at hall
      exact (Bool.and_eq_true_iff.mp hall).1
    · rw [intChars_of_neg n hs, List.cons_append]
      exact ⟨'-', _, rfl, Or.inl rfl⟩
  obtain ⟨d, cs, hdc, hd⟩ := hhead
  rw [hdc]
  rw [tokenize_number_step f d cs hd, ← hdc, hlex]
  have hrest : rest.length < f := by
    have h1 : 1 ≤ (intChars n).length := by
      rcases le_or_lt 0 n with hs | hs
      · rw [intChars_of_nonneg n hs]
        cases hcc : natChars n.toNat with
        | nil => exact absurd hcc (natChars_ne_nil _)
        | cons a b => simp [hcc]
      · rw [intChars_of_neg n hs]
        simp
    rw [List.length_append] at hf
    omega
  rw [hcont f hrest]
  rfl

theorem tokenize_float_tok (f : ℕ) (k : ℤ) (rest : List Char) (ts : List JsonToken)
    (hr : ∀ c, rest.head? = some c → c = ',' ∨ c = ']' ∨ c = Char.ofNat 125)
    (hcont : ∀ g, rest.length < g → tokenize g rest = some ts)
    (hf : ((intChars k ++ ['.', '0']) ++ rest).length < f + 1) :
    tokenize (f + 1) ((intChars k ++ ['.', '0']) ++ rest)
      = some (.numberVal (intChars k ++ ['.', '0']) :: ts) := by
  have hassoc : (intChars k ++ ['.', '0']) ++ rest = intChars k ++ ('.' :: '0' :: rest) := by
    simp
  rw [hassoc] at hf ⊢
  have hlex : lex_number (intChars k ++ ('.' :: '0' :: rest)) = (intChars k ++ ['.', '0'], rest) :=
    lex_number_intDot0 k rest hr
  have hhead : ∃ d cs, intChars k ++ ('.' :: '0' :: rest) = d :: cs ∧ (d = '-' ∨ isDigit10 d = true) := by
    rcases le_or_lt 0 k with hs | hs
    · rw [intChars_of_nonneg k hs]
      obtain ⟨c0, cr, hc⟩ := List.exists_cons_of_ne_nil (natChars_ne_nil k.toNat)
      refine ⟨c0, cr ++ ('.' :: '0' :: rest), by rw [hc, List.cons_append], Or.inr ?_⟩
      have hall := natChars_all_digits k.toNat
      rw [hc, List.all_cons] at hall
      exact (Bool.and_eq_true_iff.mp hall).1
    · rw [intChars_of_neg k hs, List.cons_append]
      exact ⟨'-', _, rfl, Or.inl rfl⟩
  obtain ⟨d, cs, hdc, hd⟩ := hhead
  rw [hdc]
  rw [tokenize_number_step f d cs hd, ← hdc, hlex]
  have hrest : rest.length < f := by
    rw [List.length_append] at hf
    simp only [List.length_cons] at hf
    omega
  rw [hcont f hrest]
  rfl

theorem decChars_head (neg : Bool) (n p : ℕ) :
    ∃ d cs, decChars neg n p = d :: cs ∧ (d = '-' ∨ isDigit10 d = true) := by
  cases neg with
  | true =>
    exact ⟨'-', natChars (n / 10 ^ p) ++ '.' :: padDigits p n, rfl, Or.inl rfl⟩
  | false =>
    obtain ⟨c0, cr, hc⟩ := List.exists_cons_of_ne_nil (natChars_ne_nil (n / 10 ^ p))
    have hc0 : isDigit10 c0 = true := by
      have hall := natChars_all_digits (n / 10 ^ p)
      rw [hc, List.all_cons] at hall
      exact (Bool.and_eq_true_iff.mp hall).1
    have e1 : decChars false n p = natChars (n / 10 ^ p) ++ '.' :: padDigits p n := rfl
    refine ⟨c0, cr ++ '.' :: padDigits p n, ?_, Or.inr hc0⟩
    rw [e1, hc, List.cons_append]

theorem lex_number_decChars (neg : Bool) (n p : ℕ) (rest : List Char)
    (hr : ∀ c, rest.head? = some c → c = ',' ∨ c = ']' ∨ c = Char.ofNat 125) :
    lex_number (decChars neg n p ++ rest) = (decChars neg n p, rest) := by
  have hrd : ∀ c, rest.head? = some c → isDigit10 c = false := by
    intro c hcc
    rcases hr c hcc with rfl | rfl | rfl <;> decide
  obtain ⟨ht2, hd2⟩ := takeWhile_digit_prefix (padDigits p n) rest (padDigits_all_digits p n) hrd
  obtain ⟨ht1, hd1⟩ := takeWhile_digit_prefix (natChars (n / 10 ^ p))
    ('.' :: (padDigits p n ++ rest)) (natChars_all_digits _)
    (by intro c h; simp at h; subst h; decide)
  have e2 : decChars neg n p
      = (if neg then ['-'] else []) ++ natChars (n / 10 ^ p) ++ '.' :: padDigits p n := rfl
  cases neg with
  | false =>
    have e1 : decChars false n p ++ rest
        = natChars (n / 10 ^ p) ++ ('.' :: (padDigits p n ++ rest)) := by
      show (natChars (n / 10 ^ p) ++ '.' :: padDigits p n) ++ rest = _
      simp
    rw [e1]
    obtain ⟨c0, cr, hc⟩ := List.exists_cons_of_ne_nil (natChars_ne_nil (n / 10 ^ p))
    have hc0 : isDigit10 c0 = true := by
      have hall := natChars_all_digits (n / 10 ^ p)
      rw [hc, List.all_cons] at hall
      exact (Bool.and_eq_true_iff.mp hall).1
    unfold lex_number
    split
    · rename_i tl heq
      rw [hc, List.cons_append] at heq
      exact absurd (List.head_eq_of_cons_eq heq) (digit_ne hc0 (by decide))
    · simp only [ht1, hd1, ht2, hd2, e2]
      cases rest with
      | nil => simp
      | cons c tl =>
        rcases hr c rfl with rfl | rfl | rfl <;> simp
  | true =>
    have e1 : decChars true n p ++ rest
        = '-' :: (natChars (n / 10 ^ p) ++ ('.' :: (padDigits p n ++ rest))) := by
      show ('-' :: (natChars (n / 10 ^ p) ++ '.' :: padDigits p n)) ++ rest = _
      simp
    rw [e1]
    unfold lex_number
    simp only [ht1, hd1, ht2, hd2, e2]
    cases rest with
    | nil => simp
    | cons c tl =>
      rcases hr c rfl with rfl | rfl | rfl <;> simp

theorem tokenize_dec_tok (f : ℕ) (neg : Bool) (n p : ℕ) (rest : List Char) (ts : List JsonToken)
    (hr : ∀ c, rest.head? = some c → c = ',' ∨ c = ']' ∨ c = Char.ofNat 125)
    (hcont : ∀ g, rest.length < g → tokenize g rest = some ts)
    (hf : (decChars neg n p ++ rest).length < f + 1) :
    tokenize (f + 1) (decChars neg n p ++ rest)
      = some (.numberVal (decChars neg n p) :: ts) := by
  have hlex := lex_number_decChars neg n p rest hr
  obtain ⟨d, cs0, hdc, hd⟩ := decChars_head neg n p
  have hdc2 : decChars neg n p ++ rest = d :: (cs0 ++ rest) := by
    rw [hdc, List.cons_append]
  rw [hdc2]
  rw [tokenize_number_step f d (cs0 ++ rest) hd, ← hdc2, hlex]
  have h1 : 1 ≤ (decChars neg n p).length := by
    rw [hdc]
    simp
  have hrest : rest.length < f := by
    rw [List.length_append] at hf
    omega
  rw [hcont f hrest]
  rfl

theorem tokenize_str_tok (f : ℕ) (s rest : List Char) (ts : List JsonToken)
    (hcont : ∀ g, rest.length < g → tokenize g rest = some ts)
    (hf : (('"' :: (s.map jsonEscapeChar).flatten ++ ['"']) ++ rest).length < f + 1) :
    tokenize (f + 1) (('"' :: (s.map jsonEscapeChar).flatten ++ ['"']) ++ rest)
      = some (.stringVal s :: ts) := by
  have hassoc : ('"' :: (s.map jsonEscapeChar).flatten ++ ['"']) ++ rest
      = '"' :: ((s.map jsonEscapeChar).flatten ++ '"' :: rest) := by simp
  rw [hassoc] at hf ⊢
  have hlex : lex_string (((s.map jsonEscapeChar).flatten ++ '"' :: rest).length + 1)
      ((s.map jsonEscapeChar).flatten ++ '"' :: rest) = some (s, rest) :=
    lex_string_escape_roundtrip _ s rest (by omega)
  rw [tokenize_string_step f _ s rest hlex]
  have hrest : rest.length < f := by
    simp only [List.length_cons, List.length_append] at hf
    omega
  rw [hcont f hrest]
  rfl

theorem vsize_pos (v : Value) : 1 ≤ vsize v := by
  cases v <;> simp [vsize]

theorem json_serialize_list_cons_ne (w : Value) (ws : VList) :
    json_serialize_list (.cons w ws) none 0 ≠ [] := fun h => List.noConfusion h

theorem jtokens_list_cons_ne (w : Value) (ws : VList) :
    jtokens_list (.cons w ws) ≠ [] := fun h => List.noConfusion h

theorem json_serialize_pairs_cons_ne (k w : Value) (ws : VPairs) :
    json_serialize_pairs (.cons k w ws) none 0 ≠ [] := fun h => List.noConfusion h

theorem jtokens_pairs_cons_ne (k w : Value) (ws : VPairs) :
    jtokens_pairs (.cons k w ws) ≠ [] := fun h => List.noConfusion h

theorem tok_aux : ∀ N : ℕ,
    (∀ v : Value, vsize v ≤ N → jsonRT v = true →
      ∀ (rest : List Char) (ts : List JsonToken),
        (∀ c, rest.head? = some c → c = ',' ∨ c = ']' ∨ c = Char.ofNat 125) →
        (∀ g, rest.length < g → tokenize g rest = some ts) →
        ∀ fuel, (json_serialize v none 0 ++ rest).length < fuel →
          tokenize fuel (json_serialize v none 0 ++ rest) = some (jtokens v ++ ts)) ∧
    (∀ (w : Value) (ws : VList), vsizeL (.cons w ws) ≤ N → jsonRT_list (.cons w ws) = true →
      ∀ (rest : List Char) (ts : List JsonToken),
        (∀ g, rest.length < g → tokenize g rest = some ts) →
        ∀ fuel,
          (List.intercalate [',', ' '] (json_serialize_list (.cons w ws) none 0) ++ ']' :: rest).length < fuel →
          tokenize fuel (List.intercalate [',', ' '] (json_serialize_list (.cons w ws) none 0) ++ ']' :: rest)
            = some (List.intercalate [.comma] (jtokens_list (.cons w ws)) ++ .rbracket :: ts)) ∧
    (∀ (k0 v0 : Value) (tl : VPairs), vsizeP (.cons k0 v0 tl) ≤ N → jsonRT_pairs (.cons k0 v0 tl) = true →
      ∀ (rest : List Char) (ts : List JsonToken),
        (∀ g, rest.length < g → tokenize g rest = some ts) →
        ∀ fuel,
          (List.intercalate [',', ' '] (json_serialize_pairs (.cons k0 v0 tl) none 0) ++ Char.ofNat 125 :: rest).length < fuel →
          tokenize fuel (List.intercalate [',', ' '] (json_serialize_pairs (.cons k0 v0 tl) none 0) ++ Char.ofNat 125 :: rest)
            = some (List.intercalate [.comma] (jtokens_pairs (.cons k0 v0 tl)) ++ .rbrace :: ts)) := by
  intro N
  induction N with
  | zero =>
    refine ⟨?_, ?_, ?_⟩
    · intro v hsz
      have := vsize_pos v
      omega
    · intro w ws hsz
      have h1 : vsizeL (.cons w ws) = vsize w + vsizeL ws + 1 := rfl
      omega
    · intro k0 v0 tl hsz
      have h1 : vsizeP (.cons k0 v0 tl) = vsize v0 + vsizeP tl + 1 := rfl
      omega
  | succ N ih =>
    obtain ⟨ihA, ihB, ihC⟩ := ih
    refine ⟨?_, ?_, ?_⟩
    · -- single value
      intro v hsz hRT rest ts hfollow hcont fuel hlen
      cases v with
      | none =>
        cases fuel with
        | zero => simp at hlen
        | succ f =>
          rw [show json_serialize Value.none none 0 ++ rest
            = 'n' :: 'u' :: 'l' :: 'l' :: rest from rfl] at hlen ⊢
          simp only [List.length_cons] at hlen
          rw [tokenize_null_step f rest, hcont f (by omega)]
          rfl
      | bool b =>
        cases fuel with
        | zero => simp at hlen
        | succ f =>
          cases b with
          | true =>
            rw [show json_serialize (Value.bool true) none 0 ++ rest
              = 't' :: 'r' :: 'u' :: 'e' :: rest from rfl] at hlen ⊢
            simp only [List.length_cons] at hlen
            rw [tokenize_true_step f rest, hcont f (by omega)]
            rfl
          | false =>
            rw [show json_serialize (Value.bool false) none 0 ++ rest
              = 'f' :: 'a' :: 'l' :: 's' :: 'e' :: rest from rfl] at hlen ⊢
            simp only [List.length_cons] at hlen
            rw [tokenize_false_step f rest, hcont f (by omega)]
            rfl
      | int n =>
        cases fuel with
        | zero => simp at hlen
        | succ f =>
          have hser : json_serialize (.int n) none 0 = intChars n := rfl
          rw [hser] at hlen ⊢
          rw [tokenize_int_tok f n rest ts hfollow hcont hlen]
          rfl
      | float fv =>
        cases fv with
        | finite m e =>
          have h2 : ((dyadicIsInt m e &&
              decide (ratCompare (dyadicNum (m.natAbs : ℤ) e) (dyadicDen e) ((10:ℤ)^15) 1
                = Ordering.lt)) ||
              (!dyadicIsInt m e &&
                (decide (m.natAbs < 2 ^ 53) && decide (-1074 ≤ e)))) = true := hRT
          cases fuel with
          | zero => simp at hlen
          | succ f =>
            have hser : json_serialize (.float (.finite m e)) none 0
                = json_serialize_float (.finite m e) := rfl
            cases hii : dyadicIsInt m e with
            | true =>
              rw [hii] at h2
              simp only [Bool.true_and, Bool.not_true, Bool.false_and, Bool.or_false] at h2
              obtain ⟨-, -, -, hserf⟩ := jsonFloat_facts m e hii (of_decide_eq_true h2)
              rw [hser, hserf] at hlen ⊢
              rw [tokenize_float_tok f _ rest ts hfollow hcont hlen]
              rw [show jtokens (.float (.finite m e))
                = [.numberVal (json_serialize_float (.finite m e))] from rfl, hserf]
              rfl
            | false =>
              rw [hii] at h2
              simp only [Bool.false_and, Bool.not_false, Bool.true_and, Bool.false_or,
                Bool.and_eq_true, decide_eq_true_eq] at h2
              obtain ⟨q, r, hr1, hserf, -⟩ := json_float_frac_facts m e hii h2.1 h2.2
              rw [hser, hserf] at hlen ⊢
              rw [tokenize_dec_tok f _ q r rest ts hfollow hcont hlen]
              rw [show jtokens (.float (.finite m e))
                = [.numberVal (json_serialize_float (.finite m e))] from rfl, hserf]
              rfl
        | inf => exact Bool.noConfusion (show false = true from hRT)
        | neginf => exact Bool.noConfusion (show false = true from hRT)
        | nan => exact Bool.noConfusion (show false = true from hRT)
      | str s =>
        cases fuel with
        | zero => simp at hlen
        | succ f =>
          have hser : json_serialize (.str s) none 0
              = '"' :: (s.map jsonEscapeChar).flatten ++ ['"'] := rfl
          rw [hser] at hlen ⊢
          rw [tokenize_str_tok f s rest ts hcont hlen]
          rfl
      | array items addr =>
        cases items with
        | nil =>
          cases fuel with
          | zero => simp at hlen
          | succ f =>
            rw [show json_serialize (Value.array .nil addr) none 0 ++ rest
              = '[' :: ']' :: rest from rfl] at hlen ⊢
            simp only [List.length_cons] at hlen
            cases f with
            | zero => omega
            | succ f2 =>
              rw [tokenize_lbracket_step, tokenize_rbracket_step, hcont f2 (by omega)]
              rfl
        | cons w ws =>
          have hRTl : jsonRT_list (.cons w ws) = true := hRT
          have hsz' : vsizeL (.cons w ws) ≤ N := by
            have h1 : vsize (.array (.cons w ws) addr) = vsizeL (.cons w ws) + 1 := rfl
            omega
          cases fuel with
          | zero => simp at hlen
          | succ f =>
            have hser : json_serialize (.array (.cons w ws) addr) none 0
                = '[' :: List.intercalate [',', ' '] (json_serialize_list (.cons w ws) none 0) ++ [']'] := rfl
            rw [hser] at hlen ⊢
            have hassoc : ('[' :: List.intercalate [',', ' '] (json_serialize_list (.cons w ws) none 0) ++ [']']) ++ rest
                = '[' :: (List.intercalate [',', ' '] (json_serialize_list (.cons w ws) none 0) ++ ']' :: rest) := by
              simp
            rw [hassoc] at hlen ⊢
            simp only [List.length_cons] at hlen
            rw [tokenize_lbracket_step]
            rw [ihB w ws hsz' hRTl rest ts hcont f (by omega)]
            rw [show jtokens (.array (.cons w ws) addr)
              = .lbracket :: List.intercalate [.comma] (jtokens_list (.cons w ws)) ++ [.rbracket] from rfl]
            simp
      | map entries idx addr =>
        cases entries with
        | nil =>
          cases fuel with
          | zero => simp at hlen
          | succ f =>
            rw [show json_serialize (Value.map .nil idx addr) none 0 ++ rest
              = Char.ofNat 123 :: Char.ofNat 125 :: rest from rfl] at hlen ⊢
            simp only [List.length_cons] at hlen
            cases f with
            | zero => omega
            | succ f2 =>
              rw [tokenize_lbrace_step, tokenize_rbrace_step, hcont f2 (by omega)]
              rfl
        | cons k0 v0 tl =>
          have hRTp : jsonRT_pairs (.cons k0 v0 tl) = true := by
            have h2 : (jsonRT_pairs (.cons k0 v0 tl)
                && distinctStrs (jsonKeyStrs (.cons k0 v0 tl))) = true := hRT
            exact (Bool.and_eq_true_iff.mp h2).1
          have hsz' : vsizeP (.cons k0 v0 tl) ≤ N := by
            have h1 : vsize (.map (.cons k0 v0 tl) idx addr) = vsizeP (.cons k0 v0 tl) + 1 := rfl
            omega
          cases fuel with
          | zero => simp at hlen
          | succ f =>
            have hser : json_serialize (.map (.cons k0 v0 tl) idx addr) none 0
                = Char.ofNat 123 :: List.intercalate [',', ' '] (json_serialize_pairs (.cons k0 v0 tl) none 0) ++ [Char.ofNat 125] := rfl
            rw [hser] at hlen ⊢
            have hassoc : (Char.ofNat 123 :: List.intercalate [',', ' '] (json_serialize_pairs (.cons k0 v0 tl) none 0) ++ [Char.ofNat 125]) ++ rest
                = Char.ofNat 123 :: (List.intercalate [',', ' '] (json_serialize_pairs (.cons k0 v0 tl) none 0) ++ Char.ofNat 125 :: rest) := by
              simp
            rw [hassoc] at hlen ⊢
            simp only [List.length_cons] at hlen
            rw [tokenize_lbrace_step]
            rw [ihC k0 v0 tl hsz' hRTp rest ts hcont f (by omega)]
            rw [show jtokens (.map (.cons k0 v0 tl) idx addr)
              = .lbrace :: List.intercalate [.comma] (jtokens_pairs (.cons k0 v0 tl)) ++ [.rbrace] from rfl]
            simp
      | tuple items => exact Bool.noConfusion (show false = true from hRT)
      | set s i a => exact Bool.noConfusion (show false = true from hRT)
      | record r i a => exact Bool.noConfusion (show false = true from hRT)
      | deque d a => exact Bool.noConfusion (show false = true from hRT)
      | heap h c a => exact Bool.noConfusion (show false = true from hRT)
    · -- array elements
      intro w ws hsz hRTl rest ts hcont fuel hlen
      have hand : (jsonRT w && jsonRT_list ws) = true := hRTl
      obtain ⟨hRTw, hRTws⟩ := Bool.and_eq_true_iff.mp hand
      have hszw : vsize w ≤ N := by
        have h1 : vsizeL (.cons w ws) = vsize w + vsizeL ws + 1 := rfl
        omega
      cases ws with
      | nil =>
        have hic : List.intercalate [',', ' '] (json_serialize_list (.cons w .nil) none 0)
            = json_serialize w none 0 := by
          rw [show json_serialize_list (VList.cons w .nil) none 0
            = [json_serialize w none 0] from rfl, intercalate_single]
        rw [hic] at hlen ⊢
        have hcontR : ∀ g, (']' :: rest).length < g →
            tokenize g (']' :: rest) = some (.rbracket :: ts) := by
          intro g hg
          simp only [List.length_cons] at hg
          cases g with
          | zero => omega
          | succ g2 =>
            rw [tokenize_rbracket_step, hcont g2 (by omega)]
            rfl
        have hfollowR : ∀ c, (']' :: rest).head? = some c →
            c = ',' ∨ c = ']' ∨ c = Char.ofNat 125 := by
          intro c hcc
          simp only [List.head?_cons, Option.some.injEq] at hcc
          subst hcc
          right; left; rfl
        rw [ihA w hszw hRTw (']' :: rest) (.rbracket :: ts) hfollowR hcontR fuel hlen]
        rw [show jtokens_list (VList.cons w .nil) = [jtokens w] from rfl, intercalate_single]
      | cons w2 ws2 =>
        have hszt : vsizeL (.cons w2 ws2) ≤ N := by
          have h1 : vsizeL (.cons w (.cons w2 ws2)) = vsize w + vsizeL (.cons w2 ws2) + 1 := rfl
          omega
        have hic : List.intercalate [',', ' '] (json_serialize_list (.cons w (.cons w2 ws2)) none 0)
            = json_serialize w none 0 ++ ([',', ' ']
              ++ List.intercalate [',', ' '] (json_serialize_list (.cons w2 ws2) none 0)) := by
          rw [show json_serialize_list (VList.cons w (.cons w2 ws2)) none 0
              = json_serialize w none 0 :: json_serialize_list (.cons w2 ws2) none 0 from rfl,
            intercalate_cons_ne _ _ _ (json_serialize_list_cons_ne w2 ws2)]
          simp
        rw [hic] at hlen ⊢
        have hassoc : (json_serialize w none 0 ++ ([',', ' ']
              ++ List.intercalate [',', ' '] (json_serialize_list (.cons w2 ws2) none 0))) ++ ']' :: rest
            = json_serialize w none 0 ++ (',' :: ' '
              :: (List.intercalate [',', ' '] (json_serialize_list (.cons w2 ws2) none 0) ++ ']' :: rest)) := by
          simp
        rw [hassoc] at hlen ⊢
        have htail := ihB w2 ws2 hszt hRTws rest ts hcont
        have hcontC : ∀ g,
            (',' :: ' ' :: (List.intercalate [',', ' '] (json_serialize_list (.cons w2 ws2) none 0) ++ ']' :: rest)).length < g →
            tokenize g (',' :: ' ' :: (List.intercalate [',', ' '] (json_serialize_list (.cons w2 ws2) none 0) ++ ']' :: rest))
              = some (.comma :: (List.intercalate [.comma] (jtokens_list (.cons w2 ws2)) ++ .rbracket :: ts)) := by
          intro g hg
          simp only [List.length_cons] at hg
          cases g with
          | zero => omega
          | succ g2 =>
            rw [tokenize_comma_step]
            cases g2 with
            | zero => omega
            | succ g3 =>
              rw [tokenize_ws_skip g3]
              rw [htail (g3 + 1) (by omega)]
              rfl
        have hfollowC : ∀ c,
            (',' :: ' ' :: (List.intercalate [',', ' '] (json_serialize_list (.cons w2 ws2) none 0) ++ ']' :: rest)).head? = some c →
            c = ',' ∨ c = ']' ∨ c = Char.ofNat 125 := by
          intro c hcc
          simp only [List.head?_cons, Option.some.injEq] at hcc
          subst hcc
          left; rfl
        rw [ihA w hszw hRTw _ _ hfollowC hcontC fuel hlen]
        rw [show jtokens_list (VList.cons w (VList.cons w2 ws2))
            = jtokens w :: jtokens_list (VList.cons w2 ws2) from rfl,
          intercalate_cons_ne _ _ _ (jtokens_list_cons_ne w2 ws2)]
        simp
    · -- map entries
      intro k0 v0 tl hsz hRTp rest ts hcont fuel hlen
      cases k0 with
      | str ks =>
        have hand : ((true && jsonRT v0) && jsonRT_pairs tl) = true := hRTp
        obtain ⟨hand2, hRTtl⟩ := Bool.and_eq_true_iff.mp hand
        obtain ⟨-, hRTv⟩ := Bool.and_eq_true_iff.mp hand2
        have hszv : vsize v0 ≤ N := by
          have h1 : vsizeP (.cons (.str ks) v0 tl) = vsize v0 + vsizeP tl + 1 := rfl
          omega
        have hserK : json_serialize (.str ks) none 0
            = '"' :: (ks.map jsonEscapeChar).flatten ++ ['"'] := rfl
        cases tl with
        | nil =>
          have hpr : json_serialize_pairs (.cons (.str ks) v0 .nil) none 0
              = [json_serialize (.str ks) none 0 ++ ':' :: ' ' :: json_serialize v0 none 0] := rfl
          rw [hpr, intercalate_single] at hlen ⊢
          have hassoc : (json_serialize (.str ks) none 0 ++ ':' :: ' ' :: json_serialize v0 none 0)
                ++ Char.ofNat 125 :: rest
              = ('"' :: (ks.map jsonEscapeChar).flatten ++ ['"'])
                ++ (':' :: ' ' :: (json_serialize v0 none 0 ++ Char.ofNat 125 :: rest)) := by
            rw [hserK]
            simp
          rw [hassoc] at hlen ⊢
          have hcontB : ∀ g, (Char.ofNat 125 :: rest).length < g →
              tokenize g (Char.ofNat 125 :: rest) = some (.rbrace :: ts) := by
            intro g hg
            simp only [List.length_cons] at hg
            cases g with
            | zero => omega
            | succ g2 =>
              rw [tokenize_rbrace_step, hcont g2 (by omega)]
              rfl
          have hfollowB : ∀ c, (Char.ofNat 125 :: rest).head? = some c →
              c = ',' ∨ c = ']' ∨ c = Char.ofNat 125 := by
            intro c hcc
            simp only [List.head?_cons, Option.some.injEq] at hcc
            subst hcc
            right; right; rfl
          have hvalue := ihA v0 hszv hRTv (Char.ofNat 125 :: rest) (.rbrace :: ts) hfollowB hcontB
          have hcontColon : ∀ g,
              (':' :: ' ' :: (json_serialize v0 none 0 ++ Char.ofNat 125 :: rest)).length < g →
              tokenize g (':' :: ' ' :: (json_serialize v0 none 0 ++ Char.ofNat 125 :: rest))
                = some (.colon :: (jtokens v0 ++ .rbrace :: ts)) := by
            intro g hg
            simp only [List.length_cons] at hg
            cases g with
            | zero => omega
            | succ g2 =>
              rw [tokenize_colon_step]
              cases g2 with
              | zero => omega
              | succ g3 =>
                rw [tokenize_ws_skip g3]
                rw [hvalue (g3 + 1) (by omega)]
                rfl
          cases fuel with
          | zero => simp at hlen
          | succ f =>
            rw [tokenize_str_tok f ks _ _ hcontColon (by simpa using hlen)]
            rw [show jtokens_pairs (.cons (.str ks) v0 .nil)
              = [(.stringVal ks :: .colon :: jtokens v0)] from rfl, intercalate_single]
            simp
        | cons k1 v1 tl2 =>
          have hszt : vsizeP (.cons k1 v1 tl2) ≤ N := by
            have h1 : vsizeP (.cons (.str ks) v0 (.cons k1 v1 tl2))
                = vsize v0 + vsizeP (.cons k1 v1 tl2) + 1 := rfl
            omega
          have hic : List.intercalate [',', ' ']
              (json_serialize_pairs (.cons (.str ks) v0 (.cons k1 v1 tl2)) none 0)
              = (json_serialize (.str ks) none 0 ++ ':' :: ' ' :: json_serialize v0 none 0)
                ++ ([',', ' '] ++ List.intercalate [',', ' ']
                  (json_serialize_pairs (.cons k1 v1 tl2) none 0)) := by
            rw [show json_serialize_pairs (.cons (.str ks) v0 (.cons k1 v1 tl2)) none 0
                = (json_serialize (.str ks) none 0 ++ ':' :: ' ' :: json_serialize v0 none 0)
                  :: json_serialize_pairs (.cons k1 v1 tl2) none 0 from rfl,
              intercalate_cons_ne _ _ _ (json_serialize_pairs_cons_ne k1 v1 tl2)]
            simp
          rw [hic] at hlen ⊢
          have hassoc : ((json_serialize (.str ks) none 0 ++ ':' :: ' ' :: json_serialize v0 none 0)
                ++ ([',', ' '] ++ List.intercalate [',', ' ']
                  (json_serialize_pairs (.cons k1 v1 tl2) none 0))) ++ Char.ofNat 125 :: rest
              = ('"' :: (ks.map jsonEscapeChar).flatten ++ ['"'])
                ++ (':' :: ' ' :: (json_serialize v0 none 0
                  ++ (',' :: ' ' :: (List.intercalate [',', ' ']
                    (json_serialize_pairs (.cons k1 v1 tl2) none 0) ++ Char.ofNat 125 :: rest)))) := by
            rw [hserK]
            simp
          rw [hassoc] at hlen ⊢
          have htail := ihC k1 v1 tl2 hszt hRTtl rest ts hcont
          have hcontC : ∀ g,
              (',' :: ' ' :: (List.intercalate [',', ' ']
                (json_serialize_pairs (.cons k1 v1 tl2) none 0) ++ Char.ofNat 125 :: rest)).length < g →
              tokenize g (',' :: ' ' :: (List.intercalate [',', ' ']
                (json_serialize_pairs (.cons k1 v1 tl2) none 0) ++ Char.ofNat 125 :: rest))
                = some (.comma :: (List.intercalate [.comma] (jtokens_pairs (.cons k1 v1 tl2)) ++ .rbrace :: ts)) := by
            intro g hg
            simp only [List.length_cons] at hg
            cases g with
            | zero => omega
            | succ g2 =>
              rw [tokenize_comma_step]
              cases g2 with
              | zero => omega
              | succ g3 =>
                rw [tokenize_ws_skip g3]
                rw [htail (g3 + 1) (by omega)]
                rfl
          have hfollowC : ∀ c,
              (',' :: ' ' :: (List.intercalate [',', ' ']
                (json_serialize_pairs (.cons k1 v1 tl2) none 0) ++ Char.ofNat 125 :: rest)).head? = some c →
              c = ',' ∨ c = ']' ∨ c = Char.ofNat 125 := by
            intro c hcc
            simp only [List.head?_cons, Option.some.injEq] at hcc
            subst hcc
            left; rfl
          have hvalue := ihA v0 hszv hRTv _ _ hfollowC hcontC
          have hcontColon : ∀ g,
              (':' :: ' ' :: (json_serialize v0 none 0
                ++ (',' :: ' ' :: (List.intercalate [',', ' ']
                  (json_serialize_pairs (.cons k1 v1 tl2) none 0) ++ Char.ofNat 125 :: rest)))).length < g →
              tokenize g (':' :: ' ' :: (json_serialize v0 none 0
                ++ (',' :: ' ' :: (List.intercalate [',', ' ']
                  (json_serialize_pairs (.cons k1 v1 tl2) none 0) ++ Char.ofNat 125 :: rest))))
                = some (.colon :: (jtokens v0 ++ .comma
                  :: (List.intercalate [.comma] (jtokens_pairs (.cons k1 v1 tl2)) ++ .rbrace :: ts))) := by
            intro g hg
            simp only [List.length_cons] at hg
            cases g with
            | zero => omega
            | succ g2 =>
              rw [tokenize_colon_step]
              cases g2 with
              | zero => omega
              | succ g3 =>
                rw [tokenize_ws_skip g3]
                rw [hvalue (g3 + 1) (by omega)]
                rfl
          cases fuel with
          | zero => simp at hlen
          | succ f =>
            rw [tokenize_str_tok f ks _ _ hcontColon (by simpa using hlen)]
            rw [show jtokens_pairs (.cons (.str ks) v0 (.cons k1 v1 tl2))
                = (.stringVal ks :: .colon :: jtokens v0) :: jtokens_pairs (.cons k1 v1 tl2) from rfl,
              intercalate_cons_ne _ _ _ (jtokens_pairs_cons_ne k1 v1 tl2)]
            simp
      | none => exact Bool.noConfusion (show false = true from hRTp)
      | bool b => exact Bool.noConfusion (show false = true from hRTp)
      | int n => exact Bool.noConfusion (show false = true from hRTp)
      | float fv => exact Bool.noConfusion (show false = true from hRTp)
      | array i a => exact Bool.noConfusion (show false = true from hRTp)
      | tuple i => exact Bool.noConfusion (show false = true from hRTp)
      | map m i a => exact Bool.noConfusion (show false = true from hRTp)
      | set s i a => exact Bool.noConfusion (show false = true from hRTp)
      | record r i a => exact Bool.noConfusion (show false = true from hRTp)
      | deque d a => exact Bool.noConfusion (show false = true from hRTp)
      | heap h c a => exact Bool.noConfusion (show false = true from hRTp)

theorem pairsPush_eq_app : ∀ (acc : VPairs) (k v : Value),
    pairsPush acc k v = vpairsApp acc (.cons k v .nil)
  | .nil, _, _ => rfl
  | .cons k' v' tl, k, v => by
    simp only [pairsPush, vpairsApp]
    rw [pairsPush_eq_app tl k v]

theorem vpairs_app_assoc : ∀ (acc : VPairs) (k v : Value) (ws : VPairs),
    vpairsApp (vpairsApp acc (.cons k v .nil)) ws = vpairsApp acc (.cons k v ws)
  | .nil, _, _, _ => rfl
  | .cons k' v' tl, k, v, ws => by
    simp only [vpairsApp]
    rw [vpairs_app_assoc tl k v ws]

theorem struct_eq_str_refl (s : List Char) : struct_eq (.str s) (.str s) = true := by
  simp [struct_eq]

theorem omSet_fresh (entries : VPairs) (idx : List (List Char × ℕ)) (key value : Value)
    (h : indexLookup idx (serialize_value key) = none) :
    omSet entries idx key value
      = (pairsPush entries key value, idx ++ [(serialize_value key, entries.length)]) := by
  simp only [omSet, h]

theorem indexLookup_append_none (idx : List (List Char × ℕ)) (k s : List Char) (i : ℕ)
    (h1 : indexLookup idx k = none) (h2 : ¬ (s = k)) :
    indexLookup (idx ++ [(s, i)]) k = none := by
  induction idx with
  | nil =>
    simp only [List.nil_append]
    unfold indexLookup
    rw [if_neg h2]
    rfl
  | cons p tl ih =>
    obtain ⟨k', i'⟩ := p
    rw [List.cons_append]
    have e : ∀ (rest : List (List Char × ℕ)), indexLookup ((k', i') :: rest) k
        = if k' = k then some i' else indexLookup rest k := fun _ => rfl
    rw [e] at h1
    rw [e]
    by_cases hk : k' = k
    · rw [if_pos hk] at h1
      cases h1
    · rw [if_neg hk] at h1
      rw [if_neg hk]
      exact ih h1

theorem ser_str_inj {a b : List Char}
    (h : serialize_value (.str a) = serialize_value (.str b)) : a = b := by
  have ha := (read_roundtrip_aux ((serialize_value (.str a)).length + 1)).1 (.str a) []
    rfl (by simp) (by intro c hc; simp at hc)
  have hb := (read_roundtrip_aux ((serialize_value (.str a)).length + 1)).1 (.str b) []
    rfl (by rw [← h]; simp) (by intro c hc; simp at hc)
  rw [List.append_nil] at ha hb
  rw [← h] at hb
  have hab := ha.symm.trans hb
  simpa using hab

theorem not_contains_not_mem (K : List (List Char)) (s : List Char)
    (h : K.contains s = false) : s ∉ K := by
  intro hm
  rw [List.contains_eq_any_beq] at h
  have h2 : K.any (s == ·) = true := List.any_eq_true.mpr ⟨s, hm, by simp⟩
  rw [h2] at h
  cases h

theorem jtokens_head (v : Value) (h : jsonRT v = true) :
    ∃ t r, jtokens v = t :: r ∧ t ≠ .rbracket ∧ t ≠ .rbrace := by
  cases v with
  | none => exact ⟨.nul, _, rfl, by simp, by simp⟩
  | bool b => cases b <;> exact ⟨_, _, rfl, by simp, by simp⟩
  | int n => exact ⟨.numberVal (intChars n), _, rfl, by simp, by simp⟩
  | float fv =>
    cases fv with
    | finite m e => exact ⟨.numberVal (json_serialize_float (.finite m e)), _, rfl, by simp, by simp⟩
    | inf => exact Bool.noConfusion (show false = true from h)
    | neginf => exact Bool.noConfusion (show false = true from h)
    | nan => exact Bool.noConfusion (show false = true from h)
  | str s => exact ⟨.stringVal s, _, rfl, by simp, by simp⟩
  | array items addr =>
    cases items with
    | nil => exact ⟨.lbracket, _, rfl, by simp, by simp⟩
    | cons w ws => exact ⟨.lbracket, _, rfl, by simp, by simp⟩
  | map entries i a =>
    cases entries with
    | nil => exact ⟨.lbrace, _, rfl, by simp, by simp⟩
    | cons k0 v0 tl => exact ⟨.lbrace, _, rfl, by simp, by simp⟩
  | tuple items => exact Bool.noConfusion (show false = true from h)
  | set s i a => exact Bool.noConfusion (show false = true from h)
  | record r i a => exact Bool.noConfusion (show false = true from h)
  | deque d a => exact Bool.noConfusion (show false = true from h)
  | heap hh c a => exact Bool.noConfusion (show false = true from h)

theorem parse_aux : ∀ fuel : ℕ,
    (∀ (v : Value) (ts : List JsonToken), jsonRT v = true → (jtokens v).length ≤ fuel →
      ∃ w, parse_value fuel (jtokens v ++ ts) = some (w, ts) ∧ struct_eq w v = true) ∧
    (∀ (w : Value) (ws : VList) (acc : VList) (ts : List JsonToken),
      jsonRT_list (.cons w ws) = true →
      (List.intercalate [.comma] (jtokens_list (.cons w ws))).length + 1 ≤ fuel →
      ∃ items, parse_elems fuel
          (List.intercalate [.comma] (jtokens_list (.cons w ws)) ++ .rbracket :: ts) acc
        = some (.array (acc.append items) 0, ts) ∧ struct_eq_list items (.cons w ws) = true) ∧
    (∀ (k0 v0 : Value) (tl : VPairs) (acc : VPairs) (idx : List (List Char × ℕ))
        (ts : List JsonToken),
      jsonRT_pairs (.cons k0 v0 tl) = true →
      distinctStrs (jsonKeyStrs (.cons k0 v0 tl)) = true →
      (∀ s ∈ jsonKeyStrs (.cons k0 v0 tl), indexLookup idx (serialize_value (.str s)) = none) →
      (List.intercalate [.comma] (jtokens_pairs (.cons k0 v0 tl))).length + 1 ≤ fuel →
      ∃ ws2 idx2, parse_members fuel
          (List.intercalate [.comma] (jtokens_pairs (.cons k0 v0 tl)) ++ .rbrace :: ts) acc idx
        = some (.map (vpairsApp acc ws2) idx2 0, ts) ∧
        struct_eq_pairs ws2 (.cons k0 v0 tl) = true) := by
  intro fuel
  induction fuel with
  | zero =>
    refine ⟨?_, ?_, ?_⟩
    · intro v ts hRT hlen
      obtain ⟨t, r, he, -, -⟩ := jtokens_head v hRT
      rw [he] at hlen
      simp at hlen
    · intro w ws acc ts _ hlen
      omega
    · intro k0 v0 tl acc idx ts _ _ _ hlen
      omega
  | succ fuel ih =>
    obtain ⟨ihA, ihB, ihC⟩ := ih
    have eE : ∀ (input : List JsonToken) (acc2 : VList), parse_elems (fuel + 1) input acc2
        = (match parse_value fuel input with
           | none => none
           | some (v, rest) =>
             (match rest with
              | .comma :: rest2 => parse_elems fuel rest2 (acc2.append (.cons v .nil))
              | .rbracket :: rest2 => some (.array (acc2.append (.cons v .nil)) 0, rest2)
              | _ => none)) := fun _ _ => rfl
    have eM : ∀ (kk : List Char) (rest : List JsonToken) (acc2 : VPairs)
        (idx2 : List (List Char × ℕ)),
        parse_members (fuel + 1) (.stringVal kk :: .colon :: rest) acc2 idx2
          = (match parse_value fuel rest with
             | none => none
             | some (v, rest2) =>
               (match rest2 with
                | .comma :: rest3 =>
                  parse_members fuel rest3 (omSet acc2 idx2 (.str kk) v).1 (omSet acc2 idx2 (.str kk) v).2
                | .rbrace :: rest3 =>
                  some (.map (omSet acc2 idx2 (.str kk) v).1 (omSet acc2 idx2 (.str kk) v).2 0, rest3)
                | _ => none)) := fun _ _ _ _ => rfl
    refine ⟨?_, ?_, ?_⟩
    · -- parse_value
      intro v ts hRT hlen
      cases v with
      | none => exact ⟨.none, rfl, rfl⟩
      | bool b => cases b <;> exact ⟨_, rfl, rfl⟩
      | int n =>
        have h2 : (decide (-i64Bound ≤ n) && decide (n ≤ i64Bound - 1)) = true := hRT
        obtain ⟨hb1, hb2⟩ := Bool.and_eq_true_iff.mp h2
        refine ⟨.int n, ?_, ?_⟩
        · show parse_value (fuel + 1) (.numberVal (intChars n) :: ts) = _
          have e : parse_value (fuel + 1) (.numberVal (intChars n) :: ts)
              = (match json_number_value (intChars n) with
                 | some v => some (v, ts)
                 | none => none) := rfl
          rw [e, json_number_value_intChars n (of_decide_eq_true hb1) (of_decide_eq_true hb2)]
        · simp [struct_eq]
      | float fv =>
        cases fv with
        | finite m e =>
          have h2 : ((dyadicIsInt m e &&
              decide (ratCompare (dyadicNum (m.natAbs : ℤ) e) (dyadicDen e) ((10:ℤ)^15) 1
                = Ordering.lt)) ||
              (!dyadicIsInt m e &&
                (decide (m.natAbs < 2 ^ 53) && decide (-1074 ≤ e)))) = true := hRT
          have hround : ∃ f', json_number_value (json_serialize_float (.finite m e))
              = some (.float f') ∧ f64Eq f' (.finite m e) = true := by
            cases hii : dyadicIsInt m e with
            | true =>
              rw [hii] at h2
              simp only [Bool.true_and, Bool.not_true, Bool.false_and, Bool.or_false] at h2
              exact json_float_roundtrip m e hii (of_decide_eq_true h2)
            | false =>
              rw [hii] at h2
              simp only [Bool.false_and, Bool.not_false, Bool.true_and, Bool.false_or,
                Bool.and_eq_true, decide_eq_true_eq] at h2
              obtain ⟨q, r, hr1, -, hfound⟩ := json_float_frac_facts m e hii h2.1 h2.2
              exact hfound
          obtain ⟨f', hnum, heqf⟩ := hround
          refine ⟨.float f', ?_, ?_⟩
          · show parse_value (fuel + 1)
              (.numberVal (json_serialize_float (.finite m e)) :: ts) = _
            have e2 : parse_value (fuel + 1)
                (.numberVal (json_serialize_float (.finite m e)) :: ts)
                = (match json_number_value (json_serialize_float (.finite m e)) with
                   | some v => some (v, ts)
                   | none => none) := rfl
            rw [e2, hnum]
          · show f64Eq f' (.finite m e) = true
            exact heqf
        | inf => exact Bool.noConfusion (show false = true from hRT)
        | neginf => exact Bool.noConfusion (show false = true from hRT)
        | nan => exact Bool.noConfusion (show false = true from hRT)
      | str s => exact ⟨.str s, rfl, struct_eq_str_refl s⟩
      | array items addr =>
        cases items with
        | nil => exact ⟨.array .nil 0, rfl, rfl⟩
        | cons w ws =>
          have hRTl : jsonRT_list (.cons w ws) = true := hRT
          have hand : (jsonRT w && jsonRT_list ws) = true := hRTl
          obtain ⟨hRTw, hRTws⟩ := Bool.and_eq_true_iff.mp hand
          obtain ⟨t0, r0, hjt0, hne1, hne2⟩ := jtokens_head w hRTw
          obtain ⟨R, hICR⟩ : ∃ R,
              List.intercalate [JsonToken.comma] (jtokens_list (.cons w ws)) = t0 :: R := by
            cases ws with
            | nil =>
              refine ⟨r0, ?_⟩
              rw [show jtokens_list (VList.cons w .nil) = [jtokens w] from rfl,
                intercalate_single, hjt0]
            | cons w2 ws2 =>
              refine ⟨r0 ++ ([JsonToken.comma]
                ++ List.intercalate [JsonToken.comma] (jtokens_list (.cons w2 ws2))), ?_⟩
              rw [show jtokens_list (VList.cons w (.cons w2 ws2))
                  = jtokens w :: jtokens_list (.cons w2 ws2) from rfl,
                intercalate_cons_ne _ _ _ (jtokens_list_cons_ne w2 ws2), hjt0]
              simp
          have hin : jtokens (.array (.cons w ws) addr) ++ ts
              = .lbracket :: (List.intercalate [JsonToken.comma] (jtokens_list (.cons w ws))
                ++ .rbracket :: ts) := by
            rw [show jtokens (.array (.cons w ws) addr)
              = .lbracket :: List.intercalate [JsonToken.comma] (jtokens_list (.cons w ws))
                ++ [.rbracket] from rfl]
            simp
          have hlen2 : (List.intercalate [JsonToken.comma] (jtokens_list (.cons w ws))).length + 1
              ≤ fuel := by
            rw [show jtokens (.array (.cons w ws) addr)
              = .lbracket :: List.intercalate [JsonToken.comma] (jtokens_list (.cons w ws))
                ++ [.rbracket] from rfl] at hlen
            simp only [List.length_append, List.length_cons, List.length_singleton] at hlen
            omega
          obtain ⟨items, hpe, hse⟩ := ihB w ws .nil ts hRTl hlen2
          refine ⟨.array items 0, ?_, ?_⟩
          · rw [hin]
            have e : parse_value (fuel + 1)
                (.lbracket :: (List.intercalate [JsonToken.comma] (jtokens_list (.cons w ws))
                  ++ .rbracket :: ts))
                = (match List.intercalate [JsonToken.comma] (jtokens_list (.cons w ws))
                    ++ .rbracket :: ts with
                   | .rbracket :: rest2 => some (.array .nil 0, rest2)
                   | _ => parse_elems fuel
                      (List.intercalate [JsonToken.comma] (jtokens_list (.cons w ws))
                        ++ .rbracket :: ts) .nil) := rfl
            rw [e, hICR, List.cons_append]
            split
            · rename_i rest2 heq
              exact absurd (List.head_eq_of_cons_eq heq) hne1
            · rw [← List.cons_append, ← hICR, hpe]
              rfl
          · show struct_eq_list items (.cons w ws) = true
            exact hse
      | map entries idx0 addr =>
        cases entries with
        | nil => exact ⟨.map .nil [] 0, rfl, rfl⟩
        | cons k0 v0 tl =>
          have h2 : (jsonRT_pairs (.cons k0 v0 tl)
              && distinctStrs (jsonKeyStrs (.cons k0 v0 tl))) = true := hRT
          obtain ⟨hRTp, hdist⟩ := Bool.and_eq_true_iff.mp h2
          cases k0 with
          | str ks =>
            obtain ⟨R, hICR⟩ : ∃ R,
                List.intercalate [JsonToken.comma] (jtokens_pairs (.cons (.str ks) v0 tl))
                  = .stringVal ks :: R := by
              cases tl with
              | nil =>
                refine ⟨.colon :: jtokens v0, ?_⟩
                rw [show jtokens_pairs (VPairs.cons (Value.str ks) v0 .nil)
                  = [.stringVal ks :: .colon :: jtokens v0] from rfl, intercalate_single]
              | cons k1 v1 tl2 =>
                refine ⟨(.colon :: jtokens v0) ++ ([JsonToken.comma]
                  ++ List.intercalate [JsonToken.comma] (jtokens_pairs (.cons k1 v1 tl2))), ?_⟩
                rw [show jtokens_pairs (VPairs.cons (Value.str ks) v0 (.cons k1 v1 tl2))
                    = (.stringVal ks :: .colon :: jtokens v0)
                      :: jtokens_pairs (.cons k1 v1 tl2) from rfl,
                  intercalate_cons_ne _ _ _ (jtokens_pairs_cons_ne k1 v1 tl2)]
                simp
            have hin : jtokens (.map (.cons (.str ks) v0 tl) idx0 addr) ++ ts
                = .lbrace :: (List.intercalate [JsonToken.comma]
                    (jtokens_pairs (.cons (.str ks) v0 tl)) ++ .rbrace :: ts) := by
              rw [show jtokens (.map (.cons (.str ks) v0 tl) idx0 addr)
                = .lbrace :: List.intercalate [JsonToken.comma]
                    (jtokens_pairs (.cons (.str ks) v0 tl)) ++ [.rbrace] from rfl]
              simp
            have hlen2 : (List.intercalate [JsonToken.comma]
                (jtokens_pairs (.cons (.str ks) v0 tl))).length + 1 ≤ fuel := by
              rw [show jtokens (.map (.cons (.str ks) v0 tl) idx0 addr)
                = .lbrace :: List.intercalate [JsonToken.comma]
                    (jtokens_pairs (.cons (.str ks) v0 tl)) ++ [.rbrace] from rfl] at hlen
              simp only [List.length_append, List.length_cons, List.length_singleton] at hlen
              omega
            obtain ⟨ws2, idx2, hpm, hsp⟩ := ihC (.str ks) v0 tl .nil [] ts hRTp hdist
              (by intro s _; rfl) hlen2
            refine ⟨.map ws2 idx2 0, ?_, ?_⟩
            · rw [hin]
              have e : parse_value (fuel + 1)
                  (.lbrace :: (List.intercalate [JsonToken.comma]
                    (jtokens_pairs (.cons (.str ks) v0 tl)) ++ .rbrace :: ts))
                  = (match List.intercalate [JsonToken.comma]
                      (jtokens_pairs (.cons (.str ks) v0 tl)) ++ .rbrace :: ts with
                     | .rbrace :: rest2 => some (.map .nil [] 0, rest2)
                     | _ => parse_members fuel
                        (List.intercalate [JsonToken.comma]
                          (jtokens_pairs (.cons (.str ks) v0 tl)) ++ .rbrace :: ts) .nil []) := rfl
              rw [e, hICR, List.cons_append]
              show parse_members fuel
                  (JsonToken.stringVal ks :: (R ++ .rbrace :: ts)) .nil [] = _
              rw [← List.cons_append, ← hICR, hpm]
              rfl
            · show struct_eq_pairs ws2 (.cons (.str ks) v0 tl) = true
              exact hsp
          | none => exact Bool.noConfusion (show false = true from hRTp)
          | bool b => exact Bool.noConfusion (show false = true from hRTp)
          | int n => exact Bool.noConfusion (show false = true from hRTp)
          | float fv => exact Bool.noConfusion (show false = true from hRTp)
          | array i a => exact Bool.noConfusion (show false = true from hRTp)
          | tuple i => exact Bool.noConfusion (show false = true from hRTp)
          | map m i a => exact Bool.noConfusion (show false = true from hRTp)
          | set s i a => exact Bool.noConfusion (show false = true from hRTp)
          | record r i a => exact Bool.noConfusion (show false = true from hRTp)
          | deque d a => exact Bool.noConfusion (show false = true from hRTp)
          | heap h c a => exact Bool.noConfusion (show false = true from hRTp)
      | tuple items => exact Bool.noConfusion (show false = true from hRT)
      | set s i a => exact Bool.noConfusion (show false = true from hRT)
      | record r i a => exact Bool.noConfusion (show false = true from hRT)
      | deque d a => exact Bool.noConfusion (show false = true from hRT)
      | heap hh c a => exact Bool.noConfusion (show false = true from hRT)
    · -- parse_elems
      intro w ws acc ts hRTl hlen
      have hand : (jsonRT w && jsonRT_list ws) = true := hRTl
      obtain ⟨hRTw, hRTws⟩ := Bool.and_eq_true_iff.mp hand
      cases ws with
      | nil =>
        have hic : List.intercalate [JsonToken.comma] (jtokens_list (.cons w .nil))
            = jtokens w := by
          rw [show jtokens_list (VList.cons w .nil) = [jtokens w] from rfl, intercalate_single]
        rw [hic] at hlen ⊢
        obtain ⟨w', hpv, hsw⟩ := ihA w (.rbracket :: ts) hRTw (by omega)
        refine ⟨.cons w' .nil, ?_, ?_⟩
        · rw [eE, hpv]
        · have e2 : struct_eq_list (.cons w' .nil) (.cons w .nil)
              = (struct_eq w' w && struct_eq_list .nil .nil) := rfl
          rw [e2, hsw, show struct_eq_list VList.nil VList.nil = true from rfl]
          rfl
      | cons w2 ws2 =>
        have hic : List.intercalate [JsonToken.comma] (jtokens_list (.cons w (.cons w2 ws2)))
            = jtokens w ++ ([JsonToken.comma]
              ++ List.intercalate [JsonToken.comma] (jtokens_list (.cons w2 ws2))) := by
          rw [show jtokens_list (VList.cons w (.cons w2 ws2))
              = jtokens w :: jtokens_list (.cons w2 ws2) from rfl,
            intercalate_cons_ne _ _ _ (jtokens_list_cons_ne w2 ws2)]
          simp
        rw [hic] at hlen ⊢
        have hassoc : (jtokens w ++ ([JsonToken.comma]
              ++ List.intercalate [JsonToken.comma] (jtokens_list (.cons w2 ws2))))
              ++ .rbracket :: ts
            = jtokens w ++ (.comma :: (List.intercalate [JsonToken.comma]
                (jtokens_list (.cons w2 ws2)) ++ .rbracket :: ts)) := by
          simp
        rw [hassoc]
        simp only [List.length_append, List.length_cons, List.length_singleton] at hlen
        obtain ⟨w', hpv, hsw⟩ := ihA w
          (.comma :: (List.intercalate [JsonToken.comma] (jtokens_list (.cons w2 ws2))
            ++ .rbracket :: ts)) hRTw (by omega)
        obtain ⟨items2, hpe2, hse2⟩ := ihB w2 ws2 (acc.append (.cons w' .nil)) ts hRTws (by omega)
        refine ⟨.cons w' items2, ?_, ?_⟩
        · rw [eE, hpv]
          show parse_elems fuel
            (List.intercalate [JsonToken.comma] (jtokens_list (.cons w2 ws2)) ++ .rbracket :: ts)
            (acc.append (.cons w' .nil)) = _
          rw [hpe2, vlist_append_assoc]
        · have e2 : struct_eq_list (.cons w' items2) (.cons w (.cons w2 ws2))
              = (struct_eq w' w && struct_eq_list items2 (.cons w2 ws2)) := rfl
          rw [e2, hsw, hse2]
          rfl
    · -- parse_members
      intro k0 v0 tl acc idx ts hRTp hdist hfresh hlen
      cases k0 with
      | str ks =>
        have hand : ((true && jsonRT v0) && jsonRT_pairs tl) = true := hRTp
        obtain ⟨hand2, hRTtl⟩ := Bool.and_eq_true_iff.mp hand
        obtain ⟨-, hRTv⟩ := Bool.and_eq_true_iff.mp hand2
        have hkeys : jsonKeyStrs (.cons (.str ks) v0 tl) = ks :: jsonKeyStrs tl := rfl
        have hdist2 : (!(jsonKeyStrs tl).contains ks && distinctStrs (jsonKeyStrs tl)) = true := by
          rw [hkeys] at hdist
          exact hdist
        obtain ⟨hnotc, hdtl⟩ := Bool.and_eq_true_iff.mp hdist2
        have hcontains : (jsonKeyStrs tl).contains ks = false := by
          cases hcc : (jsonKeyStrs tl).contains ks with
          | false => rfl
          | true =>
            rw [hcc] at hnotc
            exact absurd hnotc (by decide)
        have hksnotmem : ks ∉ jsonKeyStrs tl :=
          not_contains_not_mem _ _ hcontains
        have hfre0 : indexLookup idx (serialize_value (.str ks)) = none :=
          hfresh ks (by rw [hkeys]; exact List.mem_cons_self _ _)
        cases tl with
        | nil =>
          have hic : List.intercalate [JsonToken.comma]
              (jtokens_pairs (.cons (.str ks) v0 .nil))
              = .stringVal ks :: .colon :: jtokens v0 := by
            rw [show jtokens_pairs (VPairs.cons (Value.str ks) v0 .nil)
              = [.stringVal ks :: .colon :: jtokens v0] from rfl, intercalate_single]
          rw [hic] at hlen ⊢
          simp only [List.length_cons] at hlen
          obtain ⟨w', hpv, hsw⟩ := ihA v0 (.rbrace :: ts) hRTv (by omega)
          refine ⟨.cons (.str ks) w' .nil,
            idx ++ [(serialize_value (.str ks), acc.length)], ?_, ?_⟩
          · have hassoc : (JsonToken.stringVal ks :: .colon :: jtokens v0) ++ .rbrace :: ts
                = .stringVal ks :: .colon :: (jtokens v0 ++ .rbrace :: ts) := by
              simp
            rw [hassoc, eM, hpv]
            show some (Value.map (omSet acc idx (.str ks) w').1
              (omSet acc idx (.str ks) w').2 0, ts) = _
            rw [omSet_fresh acc idx (.str ks) w' hfre0, pairsPush_eq_app]
          · have e2 : struct_eq_pairs (.cons (.str ks) w' .nil) (.cons (.str ks) v0 .nil)
                = ((struct_eq (.str ks) (.str ks) && struct_eq w' v0)
                  && struct_eq_pairs .nil .nil) := rfl
            rw [e2, struct_eq_str_refl, hsw,
              show struct_eq_pairs VPairs.nil VPairs.nil = true from rfl]
            rfl
        | cons k1 v1 tl2 =>
          have hic : List.intercalate [JsonToken.comma]
              (jtokens_pairs (.cons (.str ks) v0 (.cons k1 v1 tl2)))
              = (JsonToken.stringVal ks :: .colon :: jtokens v0) ++ ([JsonToken.comma]
                ++ List.intercalate [JsonToken.comma] (jtokens_pairs (.cons k1 v1 tl2))) := by
            rw [show jtokens_pairs (VPairs.cons (Value.str ks) v0 (.cons k1 v1 tl2))
                = (.stringVal ks :: .colon :: jtokens v0)
                  :: jtokens_pairs (.cons k1 v1 tl2) from rfl,
              intercalate_cons_ne _ _ _ (jtokens_pairs_cons_ne k1 v1 tl2)]
            simp
          rw [hic] at hlen ⊢
          have hassoc : ((JsonToken.stringVal ks :: .colon :: jtokens v0) ++ ([JsonToken.comma]
                ++ List.intercalate [JsonToken.comma] (jtokens_pairs (.cons k1 v1 tl2))))
                ++ .rbrace :: ts
              = .stringVal ks :: .colon :: (jtokens v0
                ++ (.comma :: (List.intercalate [JsonToken.comma]
                  (jtokens_pairs (.cons k1 v1 tl2)) ++ .rbrace :: ts))) := by
            simp
          rw [hassoc]
          simp only [List.length_append, List.length_cons, List.length_singleton] at hlen
          obtain ⟨w', hpv, hsw⟩ := ihA v0
            (.comma :: (List.intercalate [JsonToken.comma]
              (jtokens_pairs (.cons k1 v1 tl2)) ++ .rbrace :: ts)) hRTv (by omega)
          have hfresh2 : ∀ s ∈ jsonKeyStrs (.cons k1 v1 tl2),
              indexLookup (idx ++ [(serialize_value (.str ks), acc.length)])
                (serialize_value (.str s)) = none := by
            intro s hs
            refine indexLookup_append_none idx _ _ _
              (hfresh s (by rw [hkeys]; exact List.mem_cons_of_mem _ hs)) ?_
            intro heq
            have hsk : ks = s := ser_str_inj heq
            rw [hsk] at hksnotmem
            exact hksnotmem hs
          obtain ⟨ws2, idx2, hpm, hsp⟩ := ihC k1 v1 tl2
            (pairsPush acc (.str ks) w')
            (idx ++ [(serialize_value (.str ks), acc.length)]) ts hRTtl hdtl hfresh2 (by omega)
          refine ⟨.cons (.str ks) w' ws2, idx2, ?_, ?_⟩
          · rw [eM, hpv]
            show parse_members fuel
              (List.intercalate [JsonToken.comma] (jtokens_pairs (.cons k1 v1 tl2))
                ++ .rbrace :: ts)
              (omSet acc idx (.str ks) w').1 (omSet acc idx (.str ks) w').2 = _
            rw [omSet_fresh acc idx (.str ks) w' hfre0]
            show parse_members fuel _ (pairsPush acc (.str ks) w')
              (idx ++ [(serialize_value (.str ks), acc.length)]) = _
            rw [hpm, pairsPush_eq_app, vpairs_app_assoc]
          · have e2 : struct_eq_pairs (.cons (.str ks) w' ws2)
                (.cons (.str ks) v0 (.cons k1 v1 tl2))
                = ((struct_eq (.str ks) (.str ks) && struct_eq w' v0)
                  && struct_eq_pairs ws2 (.cons k1 v1 tl2)) := rfl
            rw [e2, struct_eq_str_refl, hsw, hsp]
            rfl
      | none => exact Bool.noConfusion (show false = true from hRTp)
      | bool b => exact Bool.noConfusion (show false = true from hRTp)
      | int n => exact Bool.noConfusion (show false = true from hRTp)
      | float fv => exact Bool.noConfusion (show false = true from hRTp)
      | array i a => exact Bool.noConfusion (show false = true from hRTp)
      | tuple i => exact Bool.noConfusion (show false = true from hRTp)
      | map m i a => exact Bool.noConfusion (show false = true from hRTp)
      | set s i a => exact Bool.noConfusion (show false = true from hRTp)
      | record r i a => exact Bool.noConfusion (show false = true from hRTp)
      | deque d a => exact Bool.noConfusion (show false = true from hRTp)
      | heap h c a => exact Bool.noConfusion (show false = true from hRTp)

/-- C5 counterexample: the claim asserts `parse(stringify(v, false))` is
structurally equal to `v` for every value of the None/Bool/Int/Float/Str/
Array/Map fragment.  At `v = 1e15` (the integral double `10^15`), the
serializer's `< 10^15` cutoff fails, so the float is printed through the
host `Display` as the bare digits `1000000000000000`; parsing that numeral
(no `.`, `e` or `E`) yields an Int, and `struct_eq` distinguishes Int from
Float, so the round trip is broken. -/
theorem c5_large_float_stringify_reparses_as_int :
    json_parse_val (json_stringify_val (.float (.finite 1000000000000000 0)) (.bool false))
      = some (.int 1000000000000000) ∧
    struct_eq (.int 1000000000000000) (.float (.finite 1000000000000000 0)) = false := by
  exact ⟨rfl, rfl⟩

/-- C5 (amended): on the fragment of None, Bool, in-range Ints, finite
Floats that are either non-integral (given as an IEEE double: mantissa
magnitude below `2^53`, exponent at least `-1074`) or integral of magnitude
below `10^15`, Strs, Arrays of such, and Maps with pairwise distinct Str
keys (the predicate `jsonRT`), `json_parse_val` applied to the compact
`json_stringify_val` output returns a value structurally equal to the
original.  Only integral floats of magnitude `≥ 10^15` (the counterexample
shows they reparse as Ints), non-finite floats, out-of-range Ints and
duplicate keys must be excluded; non-integral finite floats round-trip
through the host shortest-decimal `Display` and the correctly rounded
parse. -/
theorem c5_parse_stringify_roundtrip_on_fragment (v : Value) (h : jsonRT v = true) :
    ∃ w, json_parse_val (json_stringify_val v (.bool false)) = some w ∧ struct_eq w v = true := by
  have hstr : json_stringify_val v (.bool false) = .str (json_serialize v none 0) := rfl
  rw [hstr]
  have htok : tokenize ((json_serialize v none 0).length + 1) (json_serialize v none 0)
      = some (jtokens v) := by
    have hnil : ∀ g : ℕ, ([] : List Char).length < g → tokenize g [] = some [] := by
      intro g hg
      exact tokenize_pos_nil g (by simpa using hg)
    have h2 := (tok_aux (vsize v)).1 v (le_refl _) h [] [] (by intro c hc; simp at hc) hnil
      ((json_serialize v none 0).length + 1) (by simp)
    rw [List.append_nil, List.append_nil] at h2
    exact h2
  obtain ⟨w, hpv, hse⟩ := (parse_aux ((jtokens v).length + 1)).1 v [] h (by omega)
  rw [List.append_nil] at hpv
  refine ⟨w, ?_, hse⟩
  have e : json_parse_val (.str (json_serialize v none 0))
      = (match tokenize ((json_serialize v none 0).length + 1) (json_serialize v none 0) with
         | none => none
         | some toks =>
           (match parse_value (toks.length + 1) toks with
            | some (v, _) => some v
            | none => none)) := rfl
  rw [e, htok]
  show (match parse_value ((jtokens v).length + 1) (jtokens v) with
    | some (v, _) => some v
    | none => none) = some w
  rw [hpv]

/-- Witness for the amended C5 at the map value for the JSON text
`\x7b"a": [1, 2.0, 2.5, null]\x7d` (the Float `2.5 = 5 * 2 ^ (-1)` exercises
the non-integral branch of the fragment). -/
theorem c5_parse_stringify_roundtrip_on_fragment_witness :
    jsonRT (.map (.cons (.str ['a'])
      (.array (.cons (.int 1) (.cons (.float (.finite 2 0))
        (.cons (.float (.finite 5 (-1))) (.cons .none .nil)))) 0)
      .nil) [] 0) = true ∧
    ∃ w, json_parse_val (json_stringify_val (.map (.cons (.str ['a'])
        (.array (.cons (.int 1) (.cons (.float (.finite 2 0))
          (.cons (.float (.finite 5 (-1))) (.cons .none .nil)))) 0)
        .nil) [] 0) (.bool false)) = some w ∧
      struct_eq w (.map (.cons (.str ['a'])
        (.array (.cons (.int 1) (.cons (.float (.finite 2 0))
          (.cons (.float (.finite 5 (-1))) (.cons .none .nil)))) 0)
        .nil) [] 0) = true :=
  ⟨rfl, c5_parse_stringify_roundtrip_on_fragment _ rfl⟩
